import Mathlib

/-!
# A shallow embedding of `logic_solver.c`

The propositional resolution solver of `src/Program/logic_solver.c` is embedded as pure
functions.  The conventions are:

* a C string is the list of its characters before the terminating NUL;
* a growable array (`terms`, `clauses`, `work_clauses`) is a list, its count is the length of
  the list, and capacity growth (`malloc` / `realloc`) is assumed to succeed;
* a `char symbol[MAX_SYMBOL_LEN]` buffer is a string of fewer than `MAX_SYMBOL_LEN`
  characters, and `strncpy (_, _, MAX_SYMBOL_LEN - 1)` keeps the first 63 characters;
* a loop that the program may run an unbounded number of times takes a fuel argument that
  counts its iterations and returns `none` when the fuel runs out.
-/

namespace LogicSolver

/-! ## Data model -/

/-- Capacity of a symbol buffer, terminating NUL included. -/
def MAX_SYMBOL_LEN : Nat := 64

/-- Capacity of the line buffer of the loader, terminating NUL included. -/
def MAX_BUFFER : Nat := 1024

/-- The struct `PropositionSymbol`: a NUL-terminated name held in `char symbol[MAX_SYMBOL_LEN]`. -/
structure PropositionSymbol where
  symbol : List Char
  fits : symbol.length < MAX_SYMBOL_LEN
deriving DecidableEq

/-- The struct `PropositionTerm`: a literal, a symbol with a polarity. -/
structure PropositionTerm where
  symbol : PropositionSymbol
  is_negated : Bool
deriving DecidableEq

/-- The struct `PropositionClause`: the stored terms, in storage order. -/
structure PropositionClause where
  terms : List PropositionTerm
deriving DecidableEq

/-- The struct `PropositionalFormula`: the stored clauses and the symbol table. -/
structure PropositionalFormula where
  clauses : List PropositionClause
  symbols : List PropositionSymbol
deriving DecidableEq

/-- The field `term_count` of a clause. -/
def PropositionClause.term_count (clause : PropositionClause) : Nat := clause.terms.length

/-- The field `clause_count` of a formula. -/
def PropositionalFormula.clause_count (formula : PropositionalFormula) : Nat :=
  formula.clauses.length

/-- The field `symbol_count` of a formula. -/
def PropositionalFormula.symbol_count (formula : PropositionalFormula) : Nat :=
  formula.symbols.length

/-- The effect of `strncpy (dst, name, MAX_SYMBOL_LEN - 1)` followed by
`dst[MAX_SYMBOL_LEN - 1] = 0` on a symbol buffer: the first 63 characters of `name`. -/
def strncpy_symbol (name : List Char) : PropositionSymbol :=
  ⟨name.take (MAX_SYMBOL_LEN - 1), by
    have h := List.length_take_le (MAX_SYMBOL_LEN - 1) name
    simp only [MAX_SYMBOL_LEN] at h ⊢
    omega⟩

/-! ## Character classes of `<ctype.h>` in the C locale -/

/-- The C function `isalpha`: an ASCII letter. -/
def isalpha (c : Char) : Bool :=
  ('a'.toNat ≤ c.toNat && c.toNat ≤ 'z'.toNat) || ('A'.toNat ≤ c.toNat && c.toNat ≤ 'Z'.toNat)

/-- The C function `isdigit`: an ASCII digit. -/
def isdigit (c : Char) : Bool := '0'.toNat ≤ c.toNat && c.toNat ≤ '9'.toNat

/-- The C function `isalnum`: an ASCII letter or digit. -/
def isalnum (c : Char) : Bool := isalpha c || isdigit c

/-- The C function `isspace`: space, `\t`, `\n`, `\v`, `\f` or `\r`. -/
def isspace (c : Char) : Bool := c.toNat = 32 || (9 ≤ c.toNat && c.toNat ≤ 13)

/-! ## Clause operations -/

/-- The function `init_clause`: an empty clause. -/
def init_clause : PropositionClause := ⟨[]⟩

/-- The function `init_formula`: no clause, no symbol. -/
def init_formula : PropositionalFormula := ⟨[], []⟩

/-- The function `free_formula`: every count is reset to zero. -/
def free_formula (_formula : PropositionalFormula) : PropositionalFormula := ⟨[], []⟩

/-- The function `add_term`: appends the literal, its name cut to 63 characters. -/
def add_term (clause : PropositionClause) (symbol_name : List Char) (is_negated : Bool) :
    PropositionClause :=
  ⟨clause.terms ++ [⟨strncpy_symbol symbol_name, is_negated⟩]⟩

/-- The function `clause_contains`: a linear scan for a term with this name (`strcmp`) and
this polarity. -/
def clause_contains (clause : PropositionClause) (symbol_name : List Char)
    (is_negated : Bool) : Bool :=
  clause.terms.any fun t => decide (t.symbol.symbol = symbol_name) && (t.is_negated == is_negated)

/-- The function `is_tautology`: some term has its opposite polarity in the clause. -/
def is_tautology (clause : PropositionClause) : Bool :=
  clause.terms.any fun t => clause_contains clause t.symbol.symbol (!t.is_negated)

/-- The function `is_empty_clause`. -/
def is_empty_clause (clause : PropositionClause) : Bool := clause.term_count == 0

/-- The function `clauses_equal`: same `term_count`, every term of `c1` in `c2`, and every
term of `c2` in `c1`. -/
def clauses_equal (c1 c2 : PropositionClause) : Bool :=
  if c1.term_count ≠ c2.term_count then false
  else if !(c1.terms.all fun t => clause_contains c2 t.symbol.symbol t.is_negated) then false
  else if !(c2.terms.all fun t => clause_contains c1 t.symbol.symbol t.is_negated) then false
  else true

/-- The function `formula_contains`: some stored clause is `clauses_equal` to `clause`. -/
def formula_contains (formula : PropositionalFormula) (clause : PropositionClause) : Bool :=
  formula.clauses.any fun c => clauses_equal c clause

/-- One of the two copy loops of `resolve`: the terms of `c` other than `(symbol_name,
is_negated)` are added to `result` in order. -/
def resolve_copy (symbol_name : List Char) (is_negated : Bool) :
    List PropositionTerm → PropositionClause → PropositionClause
  | [], result => result
  | t :: ts, result =>
    if t.symbol.symbol ≠ symbol_name ∨ t.is_negated ≠ is_negated then
      resolve_copy symbol_name is_negated ts (add_term result t.symbol.symbol t.is_negated)
    else resolve_copy symbol_name is_negated ts result

/-- The function `resolve`: the returned flag and the clause left in `result`. -/
def resolve (c1 c2 : PropositionClause) (symbol_name : List Char) (is_negated : Bool) :
    Bool × PropositionClause :=
  let result := init_clause
  let result := resolve_copy symbol_name is_negated c1.terms result
  let result := resolve_copy symbol_name (!is_negated) c2.terms result
  if is_tautology result then (false, result) else (true, result)

/-- The loop of `copy_clause`: every term of the source is added in order. -/
def copy_terms : List PropositionTerm → PropositionClause → PropositionClause
  | [], dest => dest
  | t :: ts, dest => copy_terms ts (add_term dest t.symbol.symbol t.is_negated)

/-- The function `copy_clause`. -/
def copy_clause (src : PropositionClause) : PropositionClause :=
  copy_terms src.terms init_clause

/-- The function `add_clause`: a copy of the clause is stored after the others. -/
def add_clause (formula : PropositionalFormula) (clause : PropositionClause) :
    PropositionalFormula :=
  { formula with clauses := formula.clauses ++ [copy_clause clause] }

/-- The scan of `is_valid_symbol_name` from index 1 on. -/
def valid_symbol_rest : List Char → Bool
  | [] => true
  | c :: cs => if !isalnum c && c != '_' then false else valid_symbol_rest cs

/-- The function `is_valid_symbol_name`. -/
def is_valid_symbol_name (name : List Char) : Bool :=
  match name with
  | [] => false
  | c :: cs => if !isalpha c && c != '_' then false else valid_symbol_rest cs

/-! ## Resolution by refutation -/

/-- The loop over `k` of `resolution` for one pair of clauses `ci = work_clauses[i]` and
`cj = work_clauses[j]`: `ks` are the terms of clause `i` still to try.  The result is the
working set and `found_empty`; the loop stops (`break`) when the resolvent is empty. -/
def resolution_terms (ci cj : PropositionClause) :
    List PropositionTerm → List PropositionClause → List PropositionClause × Bool
  | [], work => (work, false)
  | t :: ks, work =>
    if clause_contains cj t.symbol.symbol (!t.is_negated) then
      match resolve ci cj t.symbol.symbol t.is_negated with
      | (true, resolvant) =>
        if is_empty_clause resolvant then (work, true)
        else if work.any (fun c => clauses_equal c resolvant) then
          resolution_terms ci cj ks work
        else resolution_terms ci cj ks (work ++ [resolvant])
      | (false, _) => resolution_terms ci cj ks work
    else resolution_terms ci cj ks work

/-- The loop over `j` of `resolution` for a fixed `i`: `js` are the indices still to visit; the
loop stops as soon as `found_empty` is set. -/
def resolution_inner (i : Nat) :
    List Nat → List PropositionClause → List PropositionClause × Bool
  | [], work => (work, false)
  | j :: js, work =>
    match resolution_terms (work.getD i init_clause) (work.getD j init_clause)
        (work.getD i init_clause).terms work with
    | (work', true) => (work', true)
    | (work', false) => resolution_inner i js work'

/-- The loop over `i` of `resolution`: for each `i` the indices `j` run from `i + 1` up to
`last - 1`. -/
def resolution_outer (last : Nat) :
    List Nat → List PropositionClause → List PropositionClause × Bool
  | [], work => (work, false)
  | i :: is, work =>
    match resolution_inner i (List.range' (i + 1) (last - (i + 1))) work with
    | (work', true) => (work', true)
    | (work', false) => resolution_outer last is work'

/-- One pass of the body of the `while` loop of `resolution` (one level): every pair
`i < j < end` with `end` the size of the working set when the level starts. -/
def resolution_level (work : List PropositionClause) : List PropositionClause × Bool :=
  resolution_outer work.length (List.range work.length) work

/-- The `while (start < work_size && !found_empty)` loop of `resolution`; `fuel` bounds the
number of levels.  The result is the value returned by `resolution`, `!found_empty`. -/
def resolution_loop : Nat → Nat → List PropositionClause → Option Bool
  | 0, _, _ => none
  | fuel + 1, start, work =>
    if start < work.length then
      match resolution_level work with
      | (_, true) => some false
      | (work', false) => resolution_loop fuel work.length work'
    else some true

/-- The function `resolution`: the working set starts as a copy of the clauses of the formula;
`some true` is the verdict SAT, `some false` is UNSAT, `none` means that `fuel` levels did not
end the loop. -/
def resolution (fuel : Nat) (formula : PropositionalFormula) : Option Bool :=
  resolution_loop fuel 0 (formula.clauses.map copy_clause)

/-! ## Loading a formula from text -/

/-- The buffers filled by the successive calls `fgets (line, size, file)` on the remaining
characters of the file: `buf` holds the characters already read by the current call, which
returns after a newline or once `size - 1` characters are read. -/
def fgets_scan (size : Nat) : List Char → List Char → List (List Char)
  | buf, [] => if buf = [] then [] else [buf]
  | buf, c :: s =>
    if c = '\n' ∨ size - 1 ≤ buf.length + 1 then (buf ++ [c]) :: fgets_scan size [] s
    else fgets_scan size (buf ++ [c]) s

/-- The C string held in a buffer: the characters before the first NUL. -/
def c_str (buf : List Char) : List Char := buf.takeWhile fun c => c != Char.ofNat 0

/-- The delimiters `" \t"` given to `strtok`. -/
def is_delim (c : Char) : Bool := c == ' ' || c == '\t'

/-- The tokens returned by the successive calls of `strtok (_, " \t")` on a line: `tok` holds
the characters of the token being scanned. -/
def strtok_scan : List Char → List Char → List (List Char)
  | tok, [] => if tok = [] then [] else [tok]
  | tok, c :: s =>
    if is_delim c then
      if tok = [] then strtok_scan [] s else tok :: strtok_scan [] s
    else strtok_scan (tok ++ [c]) s

/-- The `while (token)` loop of `read_formula_from_file`: `none` when a symbol name is not
valid, otherwise the clause with one term per token. -/
def read_tokens : List (List Char) → PropositionClause → Option PropositionClause
  | [], clause => some clause
  | token :: rest, clause =>
    let is_negated := token.head? == some '!'
    let symbol_name := if is_negated then token.drop 1 else token
    if !is_valid_symbol_name symbol_name then none
    else read_tokens rest (add_term clause symbol_name is_negated)

/-- The `while (fgets (...))` loop of `read_formula_from_file` over the buffers that `fgets`
returns: the returned flag and the formula left behind. -/
def read_lines : List (List Char) → PropositionalFormula → Bool × PropositionalFormula
  | [], formula => (true, formula)
  | buf :: rest, formula =>
    let line := (c_str buf).rdropWhile isspace
    if line.head? == none || line.head? == some '#' then read_lines rest formula
    else
      match read_tokens (strtok_scan [] line) init_clause with
      | none => (false, free_formula formula)
      | some clause =>
        if decide (clause.term_count > 0) && !is_tautology clause then
          read_lines rest (add_clause formula clause)
        else read_lines rest formula

/-- The function `read_formula_from_file` on a file that opens and has the content `text`. -/
def read_formula_from_file (text : List Char) : Bool × PropositionalFormula :=
  read_lines (fgets_scan MAX_BUFFER [] text) init_formula


/-! ## Notions used to state the properties -/

/-- The complementary literal: same symbol, opposite polarity. -/
def PropositionTerm.complement (t : PropositionTerm) : PropositionTerm :=
  ⟨t.symbol, !t.is_negated⟩

/-- Truth of a literal under an assignment of truth values to symbol names. -/
def term_true (v : List Char → Bool) (t : PropositionTerm) : Bool :=
  v t.symbol.symbol != t.is_negated

/-- A clause is satisfied when at least one of its literals is true. -/
def clause_true (v : List Char → Bool) (c : PropositionClause) : Bool :=
  c.terms.any (term_true v)

/-- An assignment satisfies a formula when it satisfies every clause. -/
def formula_true (v : List Char → Bool) (formula : PropositionalFormula) : Bool :=
  formula.clauses.all (clause_true v)

/-- Some assignment satisfies every clause of the formula. -/
def Satisfiable (formula : PropositionalFormula) : Prop :=
  ∃ v : List Char → Bool, formula_true v formula = true

/-- The resolvent of `c1` and `c2` on the literal `t`: the literals of `c1` other than `t`
followed by the literals of `c2` other than the complement of `t`. -/
def resolvent (c1 c2 : PropositionClause) (t : PropositionTerm) : PropositionClause :=
  ⟨c1.terms.filter (fun u => decide (u ≠ t)) ++
    c2.terms.filter (fun u => decide (u ≠ t.complement))⟩

/-- A clause is tautological when it has a literal together with its complement. -/
def Tautological (c : PropositionClause) : Prop :=
  ∃ t ∈ c.terms, t.complement ∈ c.terms

/-- The clause `r` is obtained from `c1` and `c2` by one resolution step whose resolvent is
not tautological. -/
def ResolutionStep (c1 c2 r : PropositionClause) : Prop :=
  ∃ t ∈ c1.terms, t.complement ∈ c2.terms ∧ ¬ Tautological (resolvent c1 c2 t) ∧
    r = resolvent c1 c2 t

/-- Derivations by resolution from the clauses `input`, tautological resolvents excluded:
`DerivableIn input n c` holds when `c` has a derivation of height `n`; height `0` means that `c`
is one of the input clauses, and every further unit of height is a resolution step. -/
inductive DerivableIn (input : List PropositionClause) : Nat → PropositionClause → Prop
  | given {c : PropositionClause} : c ∈ input → DerivableIn input 0 c
  | step {n1 n2 : Nat} {c1 c2 r : PropositionClause} :
      DerivableIn input n1 c1 → DerivableIn input n2 c2 → ResolutionStep c1 c2 r →
      DerivableIn input (max n1 n2 + 1) r

/-- The working set `work'` holds, up to `clauses_equal`, every resolvent of two clauses of
`work` that is not tautological, and no such resolvent is empty. -/
def Closed (work work' : List PropositionClause) : Prop :=
  ∀ c1 ∈ work, ∀ c2 ∈ work, ∀ r, ResolutionStep c1 c2 r →
    r.terms ≠ [] ∧ ∃ c ∈ work', clauses_equal c r = true

/-! ## Notions used in the proofs about `resolution` -/

/-- Every accepted resolvent of `ci` and `cj` is non-empty and present in `work`. -/
def Covered (ci cj : PropositionClause) (work : List PropositionClause) : Prop :=
  ∀ r, ResolutionStep ci cj r → r.terms ≠ [] ∧ ∃ c ∈ work, clauses_equal c r = true

/-- Every clause with a derivation of height at most `d` from `input` has a clause of `work`
with the same literals. -/
def Represented (input : List PropositionClause) (d : Nat) (work : List PropositionClause) :
    Prop :=
  ∀ n ≤ d, ∀ c, DerivableIn input n c → ∃ c' ∈ work, ∀ u, u ∈ c'.terms ↔ u ∈ c.terms

/-! ## A formula on which the saturation never ends -/

/-- The literal written `name` (`neg = false`) or `!name` (`neg = true`) in a file. -/
def lit (name : String) (neg : Bool) : PropositionTerm := ⟨strncpy_symbol name.toList, neg⟩

/-- The formula of the file with the three lines `p x`, `!p q` and `!q p x`. -/
def growing_formula : PropositionalFormula :=
  ⟨[⟨[lit "p" false, lit "x" false]⟩, ⟨[lit "p" true, lit "q" false]⟩,
    ⟨[lit "q" true, lit "p" false, lit "x" false]⟩], []⟩

/-- Copies of `x` together with exactly one `p`. -/
def GrowP (c : PropositionClause) : Prop :=
  (∀ t ∈ c.terms, t = lit "x" false ∨ t = lit "p" false) ∧ c.terms.count (lit "p" false) = 1

/-- Copies of `x` together with exactly one `q`. -/
def GrowQ (c : PropositionClause) : Prop :=
  (∀ t ∈ c.terms, t = lit "x" false ∨ t = lit "q" false) ∧ c.terms.count (lit "q" false) = 1

/-- The clauses that the saturation of `growing_formula` can hold. -/
def GrowShape (c : PropositionClause) : Prop :=
  c = ⟨[lit "p" true, lit "q" false]⟩ ∨ c = ⟨[lit "q" true, lit "p" false, lit "x" false]⟩ ∨
    GrowP c ∨ GrowQ c

/-! ## The text format, as the specification words it -/

/-- The lines of a text, split at the newline characters: `cur` holds the characters of the
line being scanned. -/
def lines_scan : List Char → List Char → List (List Char)
  | cur, [] => [cur]
  | cur, c :: s => if c = '\n' then cur :: lines_scan [] s else lines_scan (cur ++ [c]) s

/-- The lines of a text. -/
def text_lines (text : List Char) : List (List Char) := lines_scan [] text

/-- The space/tab-separated tokens of a line. -/
def tokens (line : List Char) : List (List Char) :=
  (line.splitOnP is_delim).filter fun tok => decide (tok ≠ [])

/-- The name part of a token: the token after one optional leading `!`. -/
def name_part (token : List Char) : List Char :=
  if token.head? == some '!' then token.drop 1 else token

/-- A line that holds a clause: it is not empty once its trailing whitespace is stripped and it
does not begin with `#`. -/
def significant (line : List Char) : Bool :=
  decide (line.rdropWhile isspace ≠ []) && !((line.rdropWhile isspace).head? == some '#')

/-- A line that holds a clause has a token whose name part is not a valid symbol name. -/
def line_has_invalid_token (line : List Char) : Bool :=
  significant line &&
    (tokens (line.rdropWhile isspace)).any fun tok => !is_valid_symbol_name (name_part tok)

/-- Some line of the text that holds a clause has a token with an invalid name. -/
def text_has_invalid_token (text : List Char) : Bool :=
  (text_lines text).any line_has_invalid_token

/-- The literal that a token stands for: its name and whether it starts with `!`. -/
def spec_literal (token : List Char) : List Char × Bool :=
  (name_part token, token.head? == some '!')

/-- The literals of a line, one per token, in token order. -/
def spec_clause (line : List Char) : List (List Char × Bool) :=
  (tokens (line.rdropWhile isspace)).map spec_literal

/-- A list of literals with some name in both polarities. -/
def spec_tautological (c : List (List Char × Bool)) : Bool :=
  c.any fun l => c.contains (l.1, !l.2)

/-- The clauses that a text stands for: in line order, the literal lists of the lines that
hold a clause and are not tautological. -/
def spec_clauses (text : List Char) : List (List (List Char × Bool)) :=
  (((text_lines text).filter significant).map spec_clause).filter fun c => !spec_tautological c

/-- The literals of a stored clause as pairs of a name and a polarity. -/
def clause_literals (c : PropositionClause) : List (List Char × Bool) :=
  c.terms.map fun t => (t.symbol.symbol, t.is_negated)

/-! ## Notions used in the proofs about the loader -/

/-- The C string that the loader works on for one buffer: trailing whitespace stripped. -/
def stripped (buf : List Char) : List Char := (c_str buf).rdropWhile isspace

/-- The loader skips the buffer: the stripped line is empty or begins with `#`. -/
def buffer_skipped (buf : List Char) : Bool :=
  (stripped buf).head? == none || (stripped buf).head? == some '#'

/-- The loader stops on the buffer: one of its tokens has an invalid symbol name. -/
def buffer_invalid (buf : List Char) : Bool :=
  !buffer_skipped buf &&
    (strtok_scan [] (stripped buf)).any fun tok => !is_valid_symbol_name (name_part tok)

/-- The term that the loader adds for a token. -/
def term_of_token (token : List Char) : PropositionTerm :=
  ⟨strncpy_symbol (name_part token), token.head? == some '!'⟩

/-- The clause that the loader builds from the tokens of a buffer. -/
def clause_of_buffer (buf : List Char) : PropositionClause :=
  ⟨(strtok_scan [] (stripped buf)).map term_of_token⟩

/-- The clauses that the loader keeps from a list of buffers. -/
def kept_clauses (bufs : List (List Char)) : List PropositionClause :=
  ((bufs.filter fun b => !buffer_skipped b).map clause_of_buffer).filter
    fun c => decide (c.term_count > 0) && !is_tautology c

/-! ## The pattern of a symbol name -/

/-- An ASCII letter. -/
def ascii_letter (c : Char) : Prop := ('a' ≤ c ∧ c ≤ 'z') ∨ ('A' ≤ c ∧ c ≤ 'Z')

/-- An ASCII digit. -/
def ascii_digit (c : Char) : Prop := '0' ≤ c ∧ c ≤ '9'

/-- The pattern `[A-Za-z_][A-Za-z0-9_]*`: a first character that is a letter or an underscore,
then letters, digits and underscores. -/
def matches_symbol_pattern (s : List Char) : Prop :=
  ∃ c cs, s = c :: cs ∧ (ascii_letter c ∨ c = '_') ∧
    ∀ d ∈ cs, ascii_letter d ∨ ascii_digit d ∨ d = '_'

/-! ## The symbol table -/

/-- The search loop of `find_or_add_symbol`: the index of the first entry, counted from `i`, whose
name is `symbol` (`strcmp`), or `none` when the loop ends without a match. -/
def find_symbol : List PropositionSymbol → Nat → List Char → Option Nat
  | [], _, _ => none
  | s :: rest, i, symbol => if s.symbol = symbol then some i else find_symbol rest (i + 1) symbol

/-- The function `find_or_add_symbol`: the returned index and the formula left behind.  The
name is appended, cut to 63 characters, when the search finds nothing; the return value `-1`
of a failed `realloc` is not modelled. -/
def find_or_add_symbol (formula : PropositionalFormula) (symbol : List Char) :
    Nat × PropositionalFormula :=
  match find_symbol formula.symbols 0 symbol with
  | some i => (i, formula)
  | none =>
    (formula.symbol_count, { formula with symbols := formula.symbols ++ [strncpy_symbol symbol] })

/-- The names of the literals of a list of clauses, each once, in order of first occurrence;
`seen` holds the names already met. -/
def names_in_order : List (List Char) → List PropositionTerm → List (List Char)
  | seen, [] => seen
  | seen, t :: ts =>
    if t.symbol.symbol ∈ seen then names_in_order seen ts
    else names_in_order (seen ++ [t.symbol.symbol]) ts

/-- The distinct symbol names that occur in the clauses, in order of first occurrence. -/
def symbol_names (clauses : List PropositionClause) : List (List Char) :=
  names_in_order [] (clauses.flatMap fun c => c.terms)

/-! ## The working set of `resolution` -/

/-- The invariant of the working set: the clauses of the formula are a prefix of it, it holds
no tautological clause, and the clauses after those of the formula are not empty. -/
def WorkInvariant (formula : PropositionalFormula) (work : List PropositionClause) : Prop :=
  formula.clauses <+: work ∧ (∀ c ∈ work, ¬ Tautological c) ∧
    ∀ c ∈ work.drop formula.clauses.length, c.terms ≠ []

/-- Every resolvent of a pair `i < j` of clauses of `work` is non-empty and is either
tautological or `clauses_equal` to a clause of `work`. -/
def Saturated (work : List PropositionClause) : Prop :=
  ∀ (i j : Nat) (ci cj : PropositionClause), i < j → work[i]? = some ci → work[j]? = some cj →
    ∀ t ∈ ci.terms, t.complement ∈ cj.terms →
      (resolvent ci cj t).terms ≠ [] ∧
        (Tautological (resolvent ci cj t) ∨
          ∃ c ∈ work, clauses_equal c (resolvent ci cj t) = true)

/-! ## Unit propagation -/

/-- Removal by swap with the last element, `a[k] = a[count - 1]; count--`, on an array held
as a list. -/
def swap_remove {α : Type} (l : List α) (k : Nat) : List α :=
  match l.getLast? with
  | none => l
  | some x => (l.set k x).dropLast

/-- The loop over `k` of `unit_propagation` on the terms of clause `j`; `n` bounds the
iterations left (`term_count - k` of them are enough).  The result says whether the clause is
to be removed (the loop ended by `break`), and gives the terms left in the clause and
`changes_made`. -/
def propagate_terms (unit : PropositionTerm) :
    Nat → Nat → List PropositionTerm → Bool → Bool × List PropositionTerm × Bool
  | 0, _, terms, changes_made => (false, terms, changes_made)
  | n + 1, k, terms, changes_made =>
    match terms[k]? with
    | none => (false, terms, changes_made)
    | some t =>
      if t.symbol.symbol = unit.symbol.symbol then
        if t.is_negated = unit.is_negated then (true, terms, true)
        else propagate_terms unit n k (swap_remove terms k) true
      else propagate_terms unit n (k + 1) terms changes_made

/-- The loop over `j` of `unit_propagation` for the unit literal `unit` read at index `i`; `n`
bounds the iterations left (`clause_count - j` of them are enough).  A satisfied clause is
replaced by the last clause and index `j` is visited again. -/
def propagate_clauses (unit : PropositionTerm) (i : Nat) :
    Nat → Nat → List PropositionClause → Bool → List PropositionClause × Bool
  | 0, _, clauses, changes_made => (clauses, changes_made)
  | n + 1, j, clauses, changes_made =>
    match clauses[j]? with
    | none => (clauses, changes_made)
    | some clause =>
      if i = j then propagate_clauses unit i n (j + 1) clauses changes_made
      else
        match propagate_terms unit clause.terms.length 0 clause.terms changes_made with
        | (true, _, changes_made') =>
          propagate_clauses unit i n j (swap_remove clauses j) changes_made'
        | (false, terms, changes_made') =>
          propagate_clauses unit i n (j + 1) (clauses.set j ⟨terms⟩) changes_made'

/-- The loop over `i` of `unit_propagation`; `n` bounds the iterations left
(`clause_count - i` of them are enough).  A clause with `term_count == 1` gives the unit
literal `terms[0]`, copied before the loop over `j` runs. -/
def propagate_units :
    Nat → Nat → List PropositionClause → Bool → List PropositionClause × Bool
  | 0, _, clauses, changes_made => (clauses, changes_made)
  | n + 1, i, clauses, changes_made =>
    match clauses[i]? with
    | none => (clauses, changes_made)
    | some clause =>
      match clause.terms with
      | [unit] =>
        match propagate_clauses unit i clauses.length 0 clauses changes_made with
        | (clauses', changes_made') => propagate_units n (i + 1) clauses' changes_made'
      | _ => propagate_units n (i + 1) clauses changes_made

/-- One pass of the body of the `do ... while (changes_made)` loop of `unit_propagation`: the
clauses left and `changes_made`. -/
def unit_propagation_pass (clauses : List PropositionClause) :
    List PropositionClause × Bool :=
  propagate_units clauses.length 0 clauses false

/-- The `do ... while (changes_made)` loop of `unit_propagation`; `fuel` bounds the number of
passes, and `none` means that `fuel` passes did not end the loop. -/
def unit_propagation_loop : Nat → List PropositionClause → Option (List PropositionClause)
  | 0, _ => none
  | fuel + 1, clauses =>
    match unit_propagation_pass clauses with
    | (clauses', true) => unit_propagation_loop fuel clauses'
    | (clauses', false) => some clauses'

/-- The function `unit_propagation`: the formula that it leaves (its return value is always
`true`). -/
def unit_propagation (fuel : Nat) (formula : PropositionalFormula) :
    Option PropositionalFormula :=
  (unit_propagation_loop fuel formula.clauses).map fun clauses =>
    { formula with clauses := clauses }

/-- The number of clauses plus the total number of literals. -/
def formula_size (clauses : List PropositionClause) : Nat :=
  clauses.length + (clauses.map fun c => c.terms.length).sum

/-- No clause other than a clause of exactly one literal mentions the name of that literal. -/
def UnitFixedPoint (clauses : List PropositionClause) : Prop :=
  ∀ (a b : Nat) (u : PropositionTerm) (c : PropositionClause),
    clauses[a]? = some ⟨[u]⟩ → b ≠ a → clauses[b]? = some c →
    ∀ t ∈ c.terms, t.symbol.symbol ≠ u.symbol.symbol

/-- The assignment `v` satisfies every clause of the list. -/
def Models (v : List Char → Bool) (clauses : List PropositionClause) : Prop :=
  ∀ c ∈ clauses, clause_true v c = true

/-- No literal of the clause has the name of the literal `unit`. -/
def Clean (unit : PropositionTerm) (c : PropositionClause) : Prop :=
  ∀ t ∈ c.terms, t.symbol.symbol ≠ unit.symbol.symbol

/-! # Theorems -/
/-! ## Basic facts about the clause operations -/

theorem strncpy_symbol_symbol (s : PropositionSymbol) : strncpy_symbol s.symbol = s := by
  cases s with
  | mk sym h =>
    simp only [strncpy_symbol, PropositionSymbol.mk.injEq]
    apply List.take_of_length_le
    simp only [MAX_SYMBOL_LEN] at h ⊢
    omega

theorem add_term_self (c : PropositionClause) (t : PropositionTerm) :
    add_term c t.symbol.symbol t.is_negated = ⟨c.terms ++ [t]⟩ := by
  simp [add_term, strncpy_symbol_symbol]

theorem copy_terms_eq (ts : List PropositionTerm) (dest : PropositionClause) :
    copy_terms ts dest = ⟨dest.terms ++ ts⟩ := by
  induction ts generalizing dest with
  | nil => simp [copy_terms]
  | cons t ts ih => simp [copy_terms, ih, add_term_self]

theorem copy_clause_eq (c : PropositionClause) : copy_clause c = c := by
  simp [copy_clause, copy_terms_eq, init_clause]

theorem map_copy_clause (l : List PropositionClause) : l.map copy_clause = l := by
  induction l with
  | nil => rfl
  | cons c l ih => simp [copy_clause_eq, ih]

theorem symbol_ext {s1 s2 : PropositionSymbol} (h : s1.symbol = s2.symbol) : s1 = s2 := by
  cases s1; cases s2; simp_all

theorem clause_contains_iff (c : PropositionClause) (name : List Char) (neg : Bool) :
    clause_contains c name neg = true ↔
      ∃ t ∈ c.terms, t.symbol.symbol = name ∧ t.is_negated = neg := by
  simp [clause_contains]

theorem clause_contains_mem (c : PropositionClause) (s : PropositionSymbol) (neg : Bool) :
    clause_contains c s.symbol neg = true ↔ (⟨s, neg⟩ : PropositionTerm) ∈ c.terms := by
  rw [clause_contains_iff]
  constructor
  · rintro ⟨t, ht, h1, h2⟩
    have : t = ⟨s, neg⟩ := by
      cases t with
      | mk ts tn =>
        simp only at h1 h2
        rw [symbol_ext h1, h2]
    rw [← this]; exact ht
  · intro h
    exact ⟨_, h, rfl, rfl⟩

theorem resolve_filter_eq (s : PropositionSymbol) (neg : Bool) (t : PropositionTerm) :
    decide (t.symbol.symbol ≠ s.symbol ∨ t.is_negated ≠ neg) = decide (t ≠ ⟨s, neg⟩) := by
  cases t with
  | mk ts tn =>
    apply Bool.decide_congr
    constructor
    · intro h heq
      simp only [PropositionTerm.mk.injEq] at heq
      rcases h with h | h
      · exact h (by rw [heq.1])
      · exact h heq.2
    · intro h
      by_contra hc
      push_neg at hc
      simp only at hc
      exact h (by rw [symbol_ext hc.1, hc.2])

theorem resolve_copy_terms (s : PropositionSymbol) (neg : Bool) (ts : List PropositionTerm)
    (result : PropositionClause) :
    (resolve_copy s.symbol neg ts result).terms
      = result.terms ++ ts.filter (fun t => decide (t ≠ ⟨s, neg⟩)) := by
  induction ts generalizing result with
  | nil => simp [resolve_copy]
  | cons t ts ih =>
    have h := resolve_filter_eq s neg t
    by_cases ht : t = ⟨s, neg⟩
    · have h1 : ¬ (t.symbol.symbol ≠ s.symbol ∨ t.is_negated ≠ neg) := by
        rw [ht]; simp
      simp only [resolve_copy, if_neg h1, ih]
      simp [ht]
    · have h1 : (t.symbol.symbol ≠ s.symbol ∨ t.is_negated ≠ neg) := by
        have := h
        simp only [ne_eq, ht, not_false_eq_true, decide_True, decide_eq_true_eq] at this
        exact this
      simp only [resolve_copy, if_pos h1, ih, add_term_self]
      simp [ht]

theorem complement_complement (t : PropositionTerm) : t.complement.complement = t := by
  cases t; simp [PropositionTerm.complement]

theorem complement_ne (t : PropositionTerm) : t.complement ≠ t := by
  cases t with
  | mk s n => cases n <;> simp [PropositionTerm.complement]

theorem is_tautology_iff (c : PropositionClause) :
    is_tautology c = true ↔ Tautological c := by
  simp only [is_tautology, List.any_eq_true, Tautological]
  constructor
  · rintro ⟨t, ht, h⟩
    exact ⟨t, ht, (clause_contains_mem c t.symbol _).1 h⟩
  · rintro ⟨t, ht, h⟩
    exact ⟨t, ht, (clause_contains_mem c t.symbol _).2 h⟩

theorem resolve_eq (c1 c2 : PropositionClause) (t : PropositionTerm) :
    resolve c1 c2 t.symbol.symbol t.is_negated
      = (!is_tautology (resolvent c1 c2 t), resolvent c1 c2 t) := by
  have h : (resolve_copy t.symbol.symbol (!t.is_negated) c2.terms
      (resolve_copy t.symbol.symbol t.is_negated c1.terms init_clause)) = resolvent c1 c2 t := by
    have h2 := resolve_copy_terms t.symbol (!t.is_negated) c2.terms
      (resolve_copy t.symbol.symbol t.is_negated c1.terms init_clause)
    have h1 := resolve_copy_terms t.symbol t.is_negated c1.terms init_clause
    rw [h1] at h2
    cases hr : (resolve_copy t.symbol.symbol (!t.is_negated) c2.terms
      (resolve_copy t.symbol.symbol t.is_negated c1.terms init_clause)) with
    | mk ts =>
      rw [hr] at h2
      simp only at h2
      simp [resolvent, h2, init_clause, PropositionTerm.complement]
  simp only [resolve, h]
  cases is_tautology (resolvent c1 c2 t) <;> simp

theorem clauses_equal_iff (c1 c2 : PropositionClause) :
    clauses_equal c1 c2 = true ↔
      c1.terms.length = c2.terms.length ∧ ∀ t, t ∈ c1.terms ↔ t ∈ c2.terms := by
  have hall : ∀ a b : PropositionClause,
      (a.terms.all fun t => clause_contains b t.symbol.symbol t.is_negated) = true ↔
        ∀ t ∈ a.terms, t ∈ b.terms := by
    intro a b
    simp only [List.all_eq_true]
    constructor
    · intro h t ht
      exact (clause_contains_mem b t.symbol t.is_negated).1 (h t ht)
    · intro h t ht
      exact (clause_contains_mem b t.symbol t.is_negated).2 (h t ht)
  simp only [clauses_equal, PropositionClause.term_count]
  by_cases hl : c1.terms.length = c2.terms.length
  · by_cases h1 : (c1.terms.all fun t => clause_contains c2 t.symbol.symbol t.is_negated) = true
    · by_cases h2 : (c2.terms.all fun t => clause_contains c1 t.symbol.symbol t.is_negated) = true
      · simp only [hl, h1, h2]
        simp only [ne_eq, not_true_eq_false, if_false, Bool.not_true, true_and,
          Bool.false_eq_true, true_iff]
        intro t
        exact ⟨(hall c1 c2).1 h1 t, (hall c2 c1).1 h2 t⟩
      · have : ¬ ∀ t, t ∈ c1.terms ↔ t ∈ c2.terms := fun h =>
          h2 ((hall c2 c1).2 fun t ht => (h t).2 ht)
        simp [hl, h1, h2, this]
    · have : ¬ ∀ t, t ∈ c1.terms ↔ t ∈ c2.terms := fun h =>
        h1 ((hall c1 c2).2 fun t ht => (h t).1 ht)
      simp [hl, h1, this]
  · simp [hl]

theorem resolution_terms_spec (ci cj : PropositionClause) (ks : List PropositionTerm) :
    ∀ (work work' : List PropositionClause) (fe : Bool),
      (∀ t ∈ ks, t ∈ ci.terms) → resolution_terms ci cj ks work = (work', fe) →
      (∃ added, work' = work ++ added ∧ ∀ r ∈ added, r.terms ≠ [] ∧ ResolutionStep ci cj r) ∧
      (fe = true → ∃ r, ResolutionStep ci cj r ∧ r.terms = []) ∧
      (fe = false → ∀ t ∈ ks, t.complement ∈ cj.terms →
        ¬ Tautological (resolvent ci cj t) →
        (resolvent ci cj t).terms ≠ [] ∧
          ∃ c ∈ work', clauses_equal c (resolvent ci cj t) = true) := by
  induction ks with
  | nil =>
    intro work work' fe _ h
    simp only [resolution_terms, Prod.mk.injEq] at h
    obtain ⟨rfl, rfl⟩ := h
    exact ⟨⟨[], by simp, by simp⟩, by simp, by simp⟩
  | cons t ks ih =>
    intro work work' fe hks h
    have hks' : ∀ u ∈ ks, u ∈ ci.terms := fun u hu => hks u (List.mem_cons_of_mem _ hu)
    have htin : t ∈ ci.terms := hks t (List.mem_cons_self _ _)
    have hcc : clause_contains cj t.symbol.symbol (!t.is_negated) = true ↔
        t.complement ∈ cj.terms := clause_contains_mem cj t.symbol (!t.is_negated)
    unfold resolution_terms at h
    by_cases hc : t.complement ∈ cj.terms
    · rw [if_pos (hcc.2 hc), resolve_eq] at h
      by_cases htaut : Tautological (resolvent ci cj t)
      · have ht1 : is_tautology (resolvent ci cj t) = true := (is_tautology_iff _).2 htaut
        simp only [ht1, Bool.not_true] at h
        obtain ⟨h1, h2, h3⟩ := ih work work' fe hks' h
        refine ⟨h1, h2, fun hfe u hu huc hut => ?_⟩
        rcases List.mem_cons.1 hu with rfl | hu
        · exact absurd htaut hut
        · exact h3 hfe u hu huc hut
      · have ht1 : is_tautology (resolvent ci cj t) = false := by
          cases hh : is_tautology (resolvent ci cj t)
          · rfl
          · exact absurd ((is_tautology_iff _).1 hh) htaut
        have hstep : ResolutionStep ci cj (resolvent ci cj t) := ⟨t, htin, hc, htaut, rfl⟩
        simp only [ht1, Bool.not_false] at h
        by_cases hemp : (resolvent ci cj t).terms = []
        · have he : is_empty_clause (resolvent ci cj t) = true := by
            simp [is_empty_clause, PropositionClause.term_count, hemp]
          simp only [he, if_true, Prod.mk.injEq] at h
          obtain ⟨rfl, rfl⟩ := h
          exact ⟨⟨[], by simp, by simp⟩, fun _ => ⟨_, hstep, hemp⟩, by simp⟩
        · have he : is_empty_clause (resolvent ci cj t) = false := by
            simp [is_empty_clause, PropositionClause.term_count, hemp]
          simp only [he, Bool.false_eq_true, if_false] at h
          by_cases hany : (work.any fun c => clauses_equal c (resolvent ci cj t)) = true
          · simp only [hany, if_true] at h
            obtain ⟨⟨added, hadd, h1⟩, h2, h3⟩ := ih work work' fe hks' h
            refine ⟨⟨added, hadd, h1⟩, h2, fun hfe u hu huc hut => ?_⟩
            rcases List.mem_cons.1 hu with rfl | hu
            · refine ⟨hemp, ?_⟩
              obtain ⟨c, hcw, hceq⟩ := List.any_eq_true.1 hany
              exact ⟨c, by rw [hadd]; exact List.mem_append_left _ hcw, hceq⟩
            · exact h3 hfe u hu huc hut
          · simp only [hany, Bool.false_eq_true, if_false] at h
            obtain ⟨⟨added, hadd, h1⟩, h2, h3⟩ :=
              ih (work ++ [resolvent ci cj t]) work' fe hks' h
            refine ⟨⟨resolvent ci cj t :: added, by simp [hadd], ?_⟩, h2,
              fun hfe u hu huc hut => ?_⟩
            · intro r hr
              rcases List.mem_cons.1 hr with rfl | hr
              · exact ⟨hemp, hstep⟩
              · exact h1 r hr
            · rcases List.mem_cons.1 hu with rfl | hu
              · refine ⟨hemp, resolvent ci cj u, ?_, ?_⟩
                · rw [hadd]; simp
                · exact (clauses_equal_iff _ _).2 ⟨rfl, fun _ => Iff.rfl⟩
              · exact h3 hfe u hu huc hut
    · have hcf : ¬ clause_contains cj t.symbol.symbol (!t.is_negated) = true :=
        fun hh => hc (hcc.1 hh)
      rw [if_neg hcf] at h
      obtain ⟨h1, h2, h3⟩ := ih work work' fe hks' h
      refine ⟨h1, h2, fun hfe u hu huc hut => ?_⟩
      rcases List.mem_cons.1 hu with rfl | hu
      · exact absurd huc hc
      · exact h3 hfe u hu huc hut


theorem covered_mono {ci cj : PropositionClause} {work : List PropositionClause}
    (h : Covered ci cj work) (added : List PropositionClause) :
    Covered ci cj (work ++ added) := by
  intro r hr
  obtain ⟨h1, c, hc, h2⟩ := h r hr
  exact ⟨h1, c, List.mem_append_left _ hc, h2⟩

theorem resolution_terms_full (ci cj : PropositionClause)
    (work work' : List PropositionClause) (fe : Bool)
    (h : resolution_terms ci cj ci.terms work = (work', fe)) :
    (∃ added, work' = work ++ added ∧ ∀ r ∈ added, r.terms ≠ [] ∧ ResolutionStep ci cj r) ∧
    (fe = true → ∃ r, ResolutionStep ci cj r ∧ r.terms = []) ∧
    (fe = false → Covered ci cj work') := by
  obtain ⟨h1, h2, h3⟩ := resolution_terms_spec ci cj ci.terms work work' fe (fun _ h => h) h
  refine ⟨h1, h2, fun hfe r hr => ?_⟩
  obtain ⟨t, ht, htc, htaut, rfl⟩ := hr
  exact h3 hfe t ht htc htaut

theorem resolution_inner_spec (i : Nat) (js : List Nat) :
    ∀ (work work' : List PropositionClause) (fe : Bool),
      i < work.length → (∀ j ∈ js, j < work.length) →
      resolution_inner i js work = (work', fe) →
      (∃ added, work' = work ++ added ∧ ∀ r ∈ added, r.terms ≠ [] ∧
        ∃ j ∈ js, ResolutionStep (work.getD i init_clause) (work.getD j init_clause) r) ∧
      (fe = true → ∃ j ∈ js, ∃ r,
        ResolutionStep (work.getD i init_clause) (work.getD j init_clause) r ∧ r.terms = []) ∧
      (fe = false → ∀ j ∈ js,
        Covered (work.getD i init_clause) (work.getD j init_clause) work') := by
  induction js with
  | nil =>
    intro work work' fe _ _ h
    simp only [resolution_inner, Prod.mk.injEq] at h
    obtain ⟨rfl, rfl⟩ := h
    exact ⟨⟨[], by simp, by simp⟩, by simp, by simp⟩
  | cons j js ih =>
    intro work work' fe hi hjs h
    unfold resolution_inner at h
    cases hk : resolution_terms (work.getD i init_clause) (work.getD j init_clause)
        (work.getD i init_clause).terms work with
    | mk w1 fe1 =>
      rw [hk] at h
      obtain ⟨⟨add1, hadd1, hnew1⟩, hfound1, hcov1⟩ := resolution_terms_full _ _ _ _ _ hk
      cases fe1 with
      | true =>
        simp only [Prod.mk.injEq] at h
        obtain ⟨rfl, rfl⟩ := h
        refine ⟨⟨add1, hadd1, fun r hr => ⟨(hnew1 r hr).1, j, List.mem_cons_self _ _,
          (hnew1 r hr).2⟩⟩, fun _ => ?_, by simp⟩
        obtain ⟨r, hr, he⟩ := hfound1 rfl
        exact ⟨j, List.mem_cons_self _ _, r, hr, he⟩
      | false =>
        simp only at h
        have hlen : work.length ≤ w1.length := by rw [hadd1]; simp
        have hjs1 : ∀ k ∈ js, k < w1.length := fun k hk' =>
          lt_of_lt_of_le (hjs k (List.mem_cons_of_mem _ hk')) hlen
        obtain ⟨⟨add2, hadd2, hnew2⟩, hfound2, hcov2⟩ :=
          ih w1 work' fe (lt_of_lt_of_le hi hlen) hjs1 h
        have hg : ∀ k, k < work.length →
            w1.getD k init_clause = work.getD k init_clause := by
          intro k hk'
          rw [hadd1]; exact List.getD_append _ _ _ _ hk'
        refine ⟨⟨add1 ++ add2, by rw [hadd2, hadd1, List.append_assoc], ?_⟩, ?_, ?_⟩
        · intro r hr
          rcases List.mem_append.1 hr with hr | hr
          · exact ⟨(hnew1 r hr).1, j, List.mem_cons_self _ _, (hnew1 r hr).2⟩
          · obtain ⟨hne, k, hk', hstep⟩ := hnew2 r hr
            refine ⟨hne, k, List.mem_cons_of_mem _ hk', ?_⟩
            rw [hg i hi, hg k (hjs k (List.mem_cons_of_mem _ hk'))] at hstep
            exact hstep
        · intro hfe
          obtain ⟨k, hk', r, hstep, he⟩ := hfound2 hfe
          rw [hg i hi, hg k (hjs k (List.mem_cons_of_mem _ hk'))] at hstep
          exact ⟨k, List.mem_cons_of_mem _ hk', r, hstep, he⟩
        · intro hfe k hk'
          rcases List.mem_cons.1 hk' with rfl | hk'
          · rw [hadd2]
            exact covered_mono (hcov1 rfl) add2
          · have := hcov2 hfe k hk'
            rw [hg i hi, hg k (hjs k (List.mem_cons_of_mem _ hk'))] at this
            exact this

theorem resolution_outer_spec (last : Nat) (is : List Nat) :
    ∀ (work work' : List PropositionClause) (fe : Bool),
      last ≤ work.length → (∀ i ∈ is, i < last) →
      resolution_outer last is work = (work', fe) →
      (∃ added, work' = work ++ added ∧ ∀ r ∈ added, r.terms ≠ [] ∧
        ∃ i j, i < last ∧ j < last ∧
          ResolutionStep (work.getD i init_clause) (work.getD j init_clause) r) ∧
      (fe = true → ∃ i j, i < last ∧ j < last ∧ ∃ r,
        ResolutionStep (work.getD i init_clause) (work.getD j init_clause) r ∧ r.terms = []) ∧
      (fe = false → ∀ i ∈ is, ∀ j, i < j → j < last →
        Covered (work.getD i init_clause) (work.getD j init_clause) work') := by
  induction is with
  | nil =>
    intro work work' fe _ _ h
    simp only [resolution_outer, Prod.mk.injEq] at h
    obtain ⟨rfl, rfl⟩ := h
    exact ⟨⟨[], by simp, by simp⟩, by simp, by simp⟩
  | cons i is ih =>
    intro work work' fe hlast his h
    unfold resolution_outer at h
    have hil : i < last := his i (List.mem_cons_self _ _)
    have hi : i < work.length := lt_of_lt_of_le hil hlast
    have hjs : ∀ j ∈ List.range' (i + 1) (last - (i + 1)), j < work.length := by
      intro j hj
      rw [List.mem_range'_1] at hj
      omega
    have hjl : ∀ j ∈ List.range' (i + 1) (last - (i + 1)), j < last := by
      intro j hj
      rw [List.mem_range'_1] at hj
      omega
    cases hk : resolution_inner i (List.range' (i + 1) (last - (i + 1))) work with
    | mk w1 fe1 =>
      rw [hk] at h
      obtain ⟨⟨add1, hadd1, hnew1⟩, hfound1, hcov1⟩ :=
        resolution_inner_spec i _ work w1 fe1 hi hjs hk
      have hnew1' : ∀ r ∈ add1, r.terms ≠ [] ∧ ∃ i j, i < last ∧ j < last ∧
          ResolutionStep (work.getD i init_clause) (work.getD j init_clause) r := by
        intro r hr
        obtain ⟨hne, j, hj, hstep⟩ := hnew1 r hr
        exact ⟨hne, i, j, hil, hjl j hj, hstep⟩
      cases fe1 with
      | true =>
        simp only [Prod.mk.injEq] at h
        obtain ⟨rfl, rfl⟩ := h
        refine ⟨⟨add1, hadd1, hnew1'⟩, fun _ => ?_, by simp⟩
        obtain ⟨j, hj, r, hr, he⟩ := hfound1 rfl
        exact ⟨i, j, hil, hjl j hj, r, hr, he⟩
      | false =>
        simp only at h
        have hlen : work.length ≤ w1.length := by rw [hadd1]; simp
        obtain ⟨⟨add2, hadd2, hnew2⟩, hfound2, hcov2⟩ :=
          ih w1 work' fe (le_trans hlast hlen)
            (fun k hk' => his k (List.mem_cons_of_mem _ hk')) h
        have hg : ∀ k, k < last →
            w1.getD k init_clause = work.getD k init_clause := by
          intro k hk'
          rw [hadd1]; exact List.getD_append _ _ _ _ (lt_of_lt_of_le hk' hlast)
        refine ⟨⟨add1 ++ add2, by rw [hadd2, hadd1, List.append_assoc], ?_⟩, ?_, ?_⟩
        · intro r hr
          rcases List.mem_append.1 hr with hr | hr
          · exact hnew1' r hr
          · obtain ⟨hne, a, b, ha, hb, hstep⟩ := hnew2 r hr
            rw [hg a ha, hg b hb] at hstep
            exact ⟨hne, a, b, ha, hb, hstep⟩
        · intro hfe
          obtain ⟨a, b, ha, hb, r, hstep, he⟩ := hfound2 hfe
          rw [hg a ha, hg b hb] at hstep
          exact ⟨a, b, ha, hb, r, hstep, he⟩
        · intro hfe a ha b hab hb
          rcases List.mem_cons.1 ha with rfl | ha
          · rw [hadd2]
            refine covered_mono (hcov1 rfl b ?_) add2
            rw [List.mem_range'_1]
            omega
          · have := hcov2 hfe a ha b hab hb
            rw [hg a (by omega), hg b hb] at this
            exact this

theorem mem_resolvent (c1 c2 : PropositionClause) (t u : PropositionTerm) :
    u ∈ (resolvent c1 c2 t).terms ↔
      (u ∈ c1.terms ∧ u ≠ t) ∨ (u ∈ c2.terms ∧ u ≠ t.complement) := by
  simp [resolvent]

theorem resolvent_self_tautological (c : PropositionClause) (t : PropositionTerm)
    (h1 : t ∈ c.terms) (h2 : t.complement ∈ c.terms) : Tautological (resolvent c c t) := by
  refine ⟨t, ?_, ?_⟩
  · rw [mem_resolvent]
    exact Or.inr ⟨h1, (complement_ne t).symm⟩
  · rw [mem_resolvent]
    exact Or.inl ⟨h2, complement_ne t⟩

theorem resolvent_swap_mem (c1 c2 : PropositionClause) (t u : PropositionTerm) :
    u ∈ (resolvent c2 c1 t.complement).terms ↔ u ∈ (resolvent c1 c2 t).terms := by
  rw [mem_resolvent, mem_resolvent, complement_complement]
  exact Or.comm

theorem resolvent_swap_length (c1 c2 : PropositionClause) (t : PropositionTerm) :
    (resolvent c2 c1 t.complement).terms.length = (resolvent c1 c2 t).terms.length := by
  simp only [resolvent, complement_complement, List.length_append]
  exact Nat.add_comm _ _

theorem tautological_congr {c d : PropositionClause} (h : ∀ u, u ∈ c.terms ↔ u ∈ d.terms) :
    Tautological c ↔ Tautological d := by
  constructor
  · rintro ⟨t, h1, h2⟩
    exact ⟨t, (h t).1 h1, (h _).1 h2⟩
  · rintro ⟨t, h1, h2⟩
    exact ⟨t, (h t).2 h1, (h _).2 h2⟩

theorem resolutionStep_swap {c1 c2 r : PropositionClause} (h : ResolutionStep c1 c2 r) :
    ∃ r', ResolutionStep c2 c1 r' ∧ r'.terms.length = r.terms.length ∧
      ∀ u, u ∈ r'.terms ↔ u ∈ r.terms := by
  obtain ⟨t, ht, htc, htaut, rfl⟩ := h
  refine ⟨resolvent c2 c1 t.complement, ⟨t.complement, htc, ?_, ?_, rfl⟩,
    resolvent_swap_length c1 c2 t, resolvent_swap_mem c1 c2 t⟩
  · rw [complement_complement]; exact ht
  · intro hh
    exact htaut ((tautological_congr (resolvent_swap_mem c1 c2 t)).1 hh)

theorem closed_of_covered (work work' : List PropositionClause)
    (h : ∀ i j, i < j → j < work.length →
      Covered (work.getD i init_clause) (work.getD j init_clause) work') :
    Closed work work' := by
  intro c1 hc1 c2 hc2 r hr
  obtain ⟨i, hi, rfl⟩ := List.getElem_of_mem hc1
  obtain ⟨j, hj, rfl⟩ := List.getElem_of_mem hc2
  have hgi : work.getD i init_clause = work[i] := by
    rw [List.getD_eq_getElem _ _ hi]
  have hgj : work.getD j init_clause = work[j] := by
    rw [List.getD_eq_getElem _ _ hj]
  rcases Nat.lt_trichotomy i j with hij | hij | hij
  · have := h i j hij hj r
    rw [hgi, hgj] at this
    exact this hr
  · subst hij
    obtain ⟨t, ht, htc, htaut, _⟩ := hr
    exact absurd (resolvent_self_tautological _ t ht htc) htaut
  · obtain ⟨r', hr', hlen, hmem⟩ := resolutionStep_swap hr
    have := h j i hij hi r'
    rw [hgi, hgj] at this
    obtain ⟨hne, c, hc, hceq⟩ := this hr'
    refine ⟨?_, c, hc, ?_⟩
    · intro hnil
      apply hne
      apply List.eq_nil_of_length_eq_zero
      rw [hlen, hnil]; rfl
    · rw [clauses_equal_iff] at hceq ⊢
      exact ⟨hceq.1.trans hlen, fun u => (hceq.2 u).trans (hmem u)⟩

theorem resolution_level_spec (work work' : List PropositionClause) (fe : Bool)
    (h : resolution_level work = (work', fe)) :
    (∃ added, work' = work ++ added ∧ ∀ r ∈ added, r.terms ≠ [] ∧
      ∃ ci ∈ work, ∃ cj ∈ work, ResolutionStep ci cj r) ∧
    (fe = true → ∃ ci ∈ work, ∃ cj ∈ work, ∃ r, ResolutionStep ci cj r ∧ r.terms = []) ∧
    (fe = false → Closed work work') := by
  obtain ⟨⟨added, hadd, hnew⟩, hfound, hcov⟩ :=
    resolution_outer_spec work.length (List.range work.length) work work' fe (le_refl _)
      (fun i hi => List.mem_range.1 hi) h
  have hmem : ∀ i, i < work.length → work.getD i init_clause ∈ work := by
    intro i hi
    rw [List.getD_eq_getElem _ _ hi]
    exact List.getElem_mem _
  refine ⟨⟨added, hadd, fun r hr => ?_⟩, fun hfe => ?_, fun hfe => ?_⟩
  · obtain ⟨hne, i, j, hi, hj, hstep⟩ := hnew r hr
    exact ⟨hne, _, hmem i hi, _, hmem j hj, hstep⟩
  · obtain ⟨i, j, hi, hj, r, hstep, he⟩ := hfound hfe
    exact ⟨_, hmem i hi, _, hmem j hj, r, hstep, he⟩
  · apply closed_of_covered
    intro i j hij hj
    exact hcov hfe i (List.mem_range.2 (by omega)) j hij hj

/-! ## The saturation loop -/

theorem closed_nil (work' : List PropositionClause) : Closed [] work' := by
  intro c1 hc1
  simp at hc1

theorem resolution_loop_unsat (P : PropositionClause → Prop)
    (hP : ∀ ci cj r, P ci → P cj → ResolutionStep ci cj r → P r) :
    ∀ (fuel start : Nat) (work : List PropositionClause), (∀ c ∈ work, P c) →
      resolution_loop fuel start work = some false →
      ∃ ci cj r, P ci ∧ P cj ∧ ResolutionStep ci cj r ∧ r.terms = [] := by
  intro fuel
  induction fuel with
  | zero => intro start work _ h; simp [resolution_loop] at h
  | succ n ih =>
    intro start work hw h
    unfold resolution_loop at h
    by_cases hs : start < work.length
    · rw [if_pos hs] at h
      cases hl : resolution_level work with
      | mk w1 fe =>
        rw [hl] at h
        obtain ⟨⟨added, hadd, hnew⟩, hfound, _⟩ := resolution_level_spec work w1 fe hl
        cases fe with
        | true =>
          obtain ⟨ci, hci, cj, hcj, r, hstep, he⟩ := hfound rfl
          exact ⟨ci, cj, r, hw ci hci, hw cj hcj, hstep, he⟩
        | false =>
          simp only at h
          apply ih work.length w1 _ h
          intro c hc
          rw [hadd] at hc
          rcases List.mem_append.1 hc with hc | hc
          · exact hw c hc
          · obtain ⟨_, ci, hci, cj, hcj, hstep⟩ := hnew c hc
            exact hP ci cj c (hw ci hci) (hw cj hcj) hstep
    · rw [if_neg hs] at h
      simp at h

theorem resolution_loop_sat (P : PropositionClause → Prop)
    (hP : ∀ ci cj r, P ci → P cj → ResolutionStep ci cj r → P r) :
    ∀ (fuel start : Nat) (work : List PropositionClause), (∀ c ∈ work, P c) →
      (start < work.length ∨ Closed work work) →
      resolution_loop fuel start work = some true →
      ∃ final added, final = work ++ added ∧ (∀ r ∈ added, r.terms ≠ []) ∧
        (∀ c ∈ final, P c) ∧ Closed final final := by
  intro fuel
  induction fuel with
  | zero => intro start work _ _ h; simp [resolution_loop] at h
  | succ n ih =>
    intro start work hw hinv h
    unfold resolution_loop at h
    by_cases hs : start < work.length
    · rw [if_pos hs] at h
      cases hl : resolution_level work with
      | mk w1 fe =>
        rw [hl] at h
        obtain ⟨⟨added, hadd, hnew⟩, _, hclosed⟩ := resolution_level_spec work w1 fe hl
        cases fe with
        | true => simp at h
        | false =>
          simp only at h
          have hw1 : ∀ c ∈ w1, P c := by
            intro c hc
            rw [hadd] at hc
            rcases List.mem_append.1 hc with hc | hc
            · exact hw c hc
            · obtain ⟨_, ci, hci, cj, hcj, hstep⟩ := hnew c hc
              exact hP ci cj c (hw ci hci) (hw cj hcj) hstep
          have hinv1 : work.length < w1.length ∨ Closed w1 w1 := by
            cases added with
            | nil =>
              right
              have : w1 = work := by rw [hadd]; simp
              rw [this]
              have hc := hclosed rfl
              rw [this] at hc
              exact hc
            | cons a as => left; rw [hadd]; simp
          obtain ⟨final, add2, hfin, hne2, hPf, hcl⟩ := ih work.length w1 hw1 hinv1 h
          refine ⟨final, added ++ add2, by rw [hfin, hadd, List.append_assoc], ?_, hPf, hcl⟩
          intro r hr
          rcases List.mem_append.1 hr with hr | hr
          · exact (hnew r hr).1
          · exact hne2 r hr
    · rcases hinv with hinv | hinv
      · exact absurd hinv hs
      · exact ⟨work, [], by simp, by simp, hw, hinv⟩

theorem resolution_loop_fuel_mono :
    ∀ (fuel extra start : Nat) (work : List PropositionClause) (b : Bool),
      resolution_loop fuel start work = some b →
      resolution_loop (fuel + extra) start work = some b := by
  intro fuel
  induction fuel with
  | zero => intro extra start work b h; simp [resolution_loop] at h
  | succ n ih =>
    intro extra start work b h
    rw [Nat.succ_add]
    unfold resolution_loop at h ⊢
    by_cases hs : start < work.length
    · rw [if_pos hs] at h ⊢
      cases hl : resolution_level work with
      | mk w1 fe =>
        rw [hl] at h
        cases fe with
        | true => exact h
        | false => exact ih extra _ _ b h
    · rw [if_neg hs] at h ⊢
      exact h

/-! ## Semantics of a resolution step -/

theorem term_true_complement (v : List Char → Bool) (t : PropositionTerm) :
    term_true v t.complement = !term_true v t := by
  cases t with
  | mk s n =>
    simp only [term_true, PropositionTerm.complement]
    cases v s.symbol <;> cases n <;> rfl

theorem clause_true_iff (v : List Char → Bool) (c : PropositionClause) :
    clause_true v c = true ↔ ∃ t ∈ c.terms, term_true v t = true := by
  simp [clause_true]

theorem resolutionStep_sound (v : List Char → Bool) (c1 c2 r : PropositionClause)
    (h1 : clause_true v c1 = true) (h2 : clause_true v c2 = true)
    (h : ResolutionStep c1 c2 r) : clause_true v r = true := by
  obtain ⟨t, _, _, _, rfl⟩ := h
  rw [clause_true_iff] at h1 h2 ⊢
  obtain ⟨u1, hu1, ht1⟩ := h1
  obtain ⟨u2, hu2, ht2⟩ := h2
  by_cases ha : u1 = t
  · by_cases hb : u2 = t.complement
    · subst ha; subst hb
      rw [term_true_complement, ht1] at ht2
      simp at ht2
    · exact ⟨u2, (mem_resolvent c1 c2 t u2).2 (Or.inr ⟨hu2, hb⟩), ht2⟩
  · exact ⟨u1, (mem_resolvent c1 c2 t u1).2 (Or.inl ⟨hu1, ha⟩), ht1⟩

theorem resolution_sound (fuel : Nat) (formula : PropositionalFormula)
    (h : resolution fuel formula = some false) : ¬ Satisfiable formula := by
  rintro ⟨v, hv⟩
  have hP := resolution_loop_unsat (fun c => clause_true v c = true)
    (fun ci cj r h1 h2 hs => resolutionStep_sound v ci cj r h1 h2 hs)
    fuel 0 (formula.clauses.map copy_clause)
    (by
      rw [map_copy_clause]
      intro c hc
      simp only [formula_true, List.all_eq_true] at hv
      exact hv c hc) h
  obtain ⟨ci, cj, r, _, _, hstep, he⟩ := hP
  have hr := resolutionStep_sound v ci cj r ‹_› ‹_› hstep
  rw [clause_true_iff, he] at hr
  simp at hr

/-! ## A closed working set without the empty clause has a model -/

theorem term_true_update (v : List Char → Bool) (p : List Char) (b : Bool)
    (t : PropositionTerm) (h : t.symbol.symbol ≠ p) :
    term_true (Function.update v p b) t = term_true v t := by
  simp [term_true, Function.update, h]

theorem term_false_update_true (v : List Char → Bool) (t : PropositionTerm)
    (h : term_true (Function.update v t.symbol.symbol true) t = false) :
    t.is_negated = true := by
  simp only [term_true, Function.update_same] at h
  cases hn : t.is_negated
  · rw [hn] at h; simp at h
  · rfl

theorem term_false_update_false (v : List Char → Bool) (t : PropositionTerm)
    (h : term_true (Function.update v t.symbol.symbol false) t = false) :
    t.is_negated = false := by
  simp only [term_true, Function.update_same] at h
  cases hn : t.is_negated
  · rfl
  · rw [hn] at h; simp at h

theorem clause_false_iff (v : List Char → Bool) (c : PropositionClause) :
    ¬ clause_true v c = true ↔ ∀ t ∈ c.terms, term_true v t = false := by
  rw [clause_true_iff]
  constructor
  · intro h t ht
    cases hh : term_true v t
    · rfl
    · exact absurd ⟨t, ht, hh⟩ h
  · rintro h ⟨t, ht, hh⟩
    rw [h t ht] at hh
    simp at hh

theorem closed_has_model :
    ∀ (vars : List (List Char)) (work : List PropositionClause),
      (∀ c ∈ work, ∀ t ∈ c.terms, t.symbol.symbol ∈ vars) → Closed work work →
      (∀ c ∈ work, c.terms ≠ []) →
      ∃ v : List Char → Bool, ∀ c ∈ work, clause_true v c = true := by
  intro vars
  induction vars with
  | nil =>
    intro work hv _ hne
    refine ⟨fun _ => true, fun c hc => ?_⟩
    exfalso
    apply hne c hc
    cases hts : c.terms with
    | nil => rfl
    | cons t ts =>
      have := hv c hc t (by rw [hts]; exact List.mem_cons_self _ _)
      simp at this
  | cons p vars ih =>
    intro work hv hclosed hne
    -- the clauses that do not mention `p`
    let free : PropositionClause → Prop := fun c => ∀ t ∈ c.terms, t.symbol.symbol ≠ p
    have hdec : DecidablePred free := fun c => by
      simp only [free]; infer_instance
    let work' := work.filter (fun c => decide (free c))
    have hmem' : ∀ c, c ∈ work' ↔ c ∈ work ∧ free c := by
      intro c
      simp [work']
    have hv' : ∀ c ∈ work', ∀ t ∈ c.terms, t.symbol.symbol ∈ vars := by
      intro c hc t ht
      obtain ⟨hcw, hfree⟩ := (hmem' c).1 hc
      have := hv c hcw t ht
      rcases List.mem_cons.1 this with h | h
      · exact absurd h (hfree t ht)
      · exact h
    have hclosed' : Closed work' work' := by
      intro c1 hc1 c2 hc2 r hr
      obtain ⟨hc1w, hf1⟩ := (hmem' c1).1 hc1
      obtain ⟨hc2w, hf2⟩ := (hmem' c2).1 hc2
      obtain ⟨hrne, c, hc, hceq⟩ := hclosed c1 hc1w c2 hc2w r hr
      refine ⟨hrne, c, (hmem' c).2 ⟨hc, ?_⟩, hceq⟩
      intro t ht
      have htr : t ∈ r.terms := ((clauses_equal_iff c r).1 hceq).2 t |>.1 ht
      obtain ⟨u, _, _, _, rfl⟩ := hr
      rcases (mem_resolvent c1 c2 u t).1 htr with h | h
      · exact hf1 t h.1
      · exact hf2 t h.1
    have hne' : ∀ c ∈ work', c.terms ≠ [] := fun c hc => hne c ((hmem' c).1 hc).1
    obtain ⟨v, hvsat⟩ := ih work' hv' hclosed' hne'
    by_cases h1 : ∀ c ∈ work, clause_true (Function.update v p true) c = true
    · exact ⟨_, h1⟩
    by_cases h0 : ∀ c ∈ work, clause_true (Function.update v p false) c = true
    · exact ⟨_, h0⟩
    exfalso
    push_neg at h1 h0
    obtain ⟨C, hC, hCf⟩ := h1
    obtain ⟨D, hD, hDf⟩ := h0
    have hCf := (clause_false_iff _ C).1 hCf
    have hDf := (clause_false_iff _ D).1 hDf
    -- a clause falsified by an update of `v` at `p` mentions `p`
    have hment : ∀ (b : Bool) (E : PropositionClause), E ∈ work →
        (∀ t ∈ E.terms, term_true (Function.update v p b) t = false) →
        ∃ t ∈ E.terms, t.symbol.symbol = p := by
      intro b E hE hEf
      by_contra hcon
      push_neg at hcon
      have hEt := hvsat E ((hmem' E).2 ⟨hE, hcon⟩)
      rw [clause_true_iff] at hEt
      obtain ⟨t, ht, htt⟩ := hEt
      have := hEf t ht
      rw [term_true_update v p b t (hcon t ht), htt] at this
      simp at this
    obtain ⟨t, htC, htp⟩ := hment true C hC hCf
    obtain ⟨u, huD, hup⟩ := hment false D hD hDf
    have htneg : t.is_negated = true := by
      apply term_false_update_true v
      rw [htp]; exact hCf t htC
    have huneg : u.is_negated = false := by
      apply term_false_update_false v
      rw [hup]; exact hDf u huD
    have hut : u.complement = t := by
      cases t with
      | mk ts tn =>
        cases u with
        | mk us un =>
          simp only at htp hup htneg huneg
          simp only [PropositionTerm.complement, PropositionTerm.mk.injEq]
          exact ⟨symbol_ext (by rw [hup, htp]), by rw [huneg, htneg]; rfl⟩
    -- every literal of the resolvent is false under `v` and does not mention `p`
    have hres : ∀ w ∈ (resolvent D C u).terms,
        term_true v w = false ∧ w.symbol.symbol ≠ p := by
      intro w hw
      rcases (mem_resolvent D C u w).1 hw with ⟨hwD, hwu⟩ | ⟨hwC, hwt⟩
      · have hwf := hDf w hwD
        have hwp : w.symbol.symbol ≠ p := by
          intro hwp
          apply hwu
          have hwn : w.is_negated = false := by
            apply term_false_update_false v
            rw [hwp]; exact hwf
          cases w with
          | mk ws wn =>
            cases u with
            | mk us un =>
              simp only at hwp hup hwn huneg
              simp only [PropositionTerm.mk.injEq]
              exact ⟨symbol_ext (by rw [hup, hwp]), by rw [huneg, hwn]⟩
        rw [term_true_update v p false w hwp] at hwf
        exact ⟨hwf, hwp⟩
      · rw [hut] at hwt
        have hwf := hCf w hwC
        have hwp : w.symbol.symbol ≠ p := by
          intro hwp
          apply hwt
          have hwn : w.is_negated = true := by
            apply term_false_update_true v
            rw [hwp]; exact hwf
          cases w with
          | mk ws wn =>
            cases t with
            | mk ts tn =>
              simp only at hwp htp hwn htneg
              simp only [PropositionTerm.mk.injEq]
              exact ⟨symbol_ext (by rw [htp, hwp]), by rw [htneg, hwn]⟩
        rw [term_true_update v p true w hwp] at hwf
        exact ⟨hwf, hwp⟩
    have hnt : ¬ Tautological (resolvent D C u) := by
      rintro ⟨w, hw1, hw2⟩
      have a := (hres w hw1).1
      have b := (hres _ hw2).1
      rw [term_true_complement, a] at b
      simp at b
    have hstep : ResolutionStep D C (resolvent D C u) :=
      ⟨u, huD, by rw [hut]; exact htC, hnt, rfl⟩
    obtain ⟨_, c, hc, hceq⟩ := hclosed D hD C hC _ hstep
    have hsub : ∀ w, w ∈ c.terms ↔ w ∈ (resolvent D C u).terms :=
      ((clauses_equal_iff c _).1 hceq).2
    have hcfree : free c := fun w hw => (hres w ((hsub w).1 hw)).2
    have hct := hvsat c ((hmem' c).2 ⟨hc, hcfree⟩)
    rw [clause_true_iff] at hct
    obtain ⟨w, hw, hwt⟩ := hct
    rw [(hres w ((hsub w).1 hw)).1] at hwt
    simp at hwt

theorem resolution_complete (fuel : Nat) (formula : PropositionalFormula)
    (hne : ∀ c ∈ formula.clauses, c.terms ≠ [])
    (h : resolution fuel formula = some true) : Satisfiable formula := by
  unfold resolution at h
  rw [map_copy_clause] at h
  have hinv : 0 < formula.clauses.length ∨ Closed formula.clauses formula.clauses := by
    cases hcl : formula.clauses with
    | nil => right; exact closed_nil _
    | cons c cs => left; simp
  obtain ⟨final, added, hfin, hadd, _, hclosed⟩ :=
    resolution_loop_sat (fun _ => True) (fun _ _ _ _ _ _ => trivial) fuel 0 formula.clauses
      (fun _ _ => trivial) hinv h
  have hne' : ∀ c ∈ final, c.terms ≠ [] := by
    intro c hc
    rw [hfin] at hc
    rcases List.mem_append.1 hc with hc | hc
    · exact hne c hc
    · exact hadd c hc
  obtain ⟨v, hv⟩ := closed_has_model
    (final.flatMap fun c => c.terms.map fun t => t.symbol.symbol) final
    (by
      intro c hc t ht
      simp only [List.mem_flatMap, List.mem_map]
      exact ⟨c, hc, t, ht, rfl⟩) hclosed hne'
  refine ⟨v, ?_⟩
  simp only [formula_true, List.all_eq_true]
  intro c hc
  exact hv c (by rw [hfin]; exact List.mem_append_left _ hc)

/-! ## Every derivable clause is reached level by level -/


theorem derivableIn_cases {input : List PropositionClause} {m : Nat} {c : PropositionClause}
    (h : DerivableIn input m c) :
    (m = 0 ∧ c ∈ input) ∨
      ∃ n1 n2 c1 c2, m = max n1 n2 + 1 ∧ DerivableIn input n1 c1 ∧ DerivableIn input n2 c2 ∧
        ResolutionStep c1 c2 c := by
  cases h with
  | given hc => exact Or.inl ⟨rfl, hc⟩
  | step h1 h2 hs => exact Or.inr ⟨_, _, _, _, rfl, h1, h2, hs⟩

theorem closed_step_represented {work work' : List PropositionClause}
    (hclosed : Closed work work') {c1 c2 c1' c2' r : PropositionClause}
    (h1 : c1' ∈ work) (h2 : c2' ∈ work)
    (e1 : ∀ u, u ∈ c1'.terms ↔ u ∈ c1.terms) (e2 : ∀ u, u ∈ c2'.terms ↔ u ∈ c2.terms)
    (hs : ResolutionStep c1 c2 r) :
    r.terms ≠ [] ∧ ∃ c ∈ work', ∀ u, u ∈ c.terms ↔ u ∈ r.terms := by
  obtain ⟨t, ht, htc, htaut, rfl⟩ := hs
  have hmem : ∀ u, u ∈ (resolvent c1' c2' t).terms ↔ u ∈ (resolvent c1 c2 t).terms := by
    intro u
    rw [mem_resolvent, mem_resolvent, e1 u, e2 u]
  have hstep : ResolutionStep c1' c2' (resolvent c1' c2' t) :=
    ⟨t, (e1 t).2 ht, (e2 _).2 htc, fun hh => htaut ((tautological_congr hmem).1 hh), rfl⟩
  obtain ⟨hne, c, hc, hceq⟩ := hclosed c1' h1 c2' h2 _ hstep
  refine ⟨?_, c, hc, fun u => (((clauses_equal_iff c _).1 hceq).2 u).trans (hmem u)⟩
  intro hnil
  apply hne
  cases hr : (resolvent c1' c2' t).terms with
  | nil => rfl
  | cons a as =>
    have := (hmem a).1 (by rw [hr]; exact List.mem_cons_self _ _)
    rw [hnil] at this
    simp at this

theorem closed_represents_all {input work : List PropositionClause}
    (hclosed : Closed work work) (h0 : Represented input 0 work) :
    ∀ n c, DerivableIn input n c → ∃ c' ∈ work, ∀ u, u ∈ c'.terms ↔ u ∈ c.terms := by
  intro n c h
  induction h with
  | given hc => exact h0 0 (le_refl _) _ (DerivableIn.given hc)
  | step _ _ hs ih1 ih2 =>
    obtain ⟨c1', h1, e1⟩ := ih1
    obtain ⟨c2', h2, e2⟩ := ih2
    exact (closed_step_represented hclosed h1 h2 e1 e2 hs).2

theorem represented_succ {input work work' : List PropositionClause} {d : Nat}
    (hrep : Represented input d work) (hsub : ∀ c ∈ work, c ∈ work')
    (hclosed : Closed work work') : Represented input (d + 1) work' := by
  intro n hn c hc
  rcases derivableIn_cases hc with ⟨rfl, hin⟩ | ⟨n1, n2, c1, c2, rfl, hd1, hd2, hs⟩
  · obtain ⟨c', hc', e⟩ := hrep 0 (Nat.zero_le _) c hc
    exact ⟨c', hsub c' hc', e⟩
  · have hn1 : n1 ≤ d := by have := le_max_left n1 n2; omega
    have hn2 : n2 ≤ d := by have := le_max_right n1 n2; omega
    obtain ⟨c1', h1, e1⟩ := hrep n1 hn1 c1 hd1
    obtain ⟨c2', h2, e2⟩ := hrep n2 hn2 c2 hd2
    exact (closed_step_represented hclosed h1 h2 e1 e2 hs).2

theorem resolution_loop_finds_empty (input : List PropositionClause) :
    ∀ (k d start : Nat) (work : List PropositionClause),
      Represented input d work → (start < work.length ∨ Closed work work) →
      (∃ n1 n2 c1 c2 r, n1 ≤ d + k ∧ n2 ≤ d + k ∧ DerivableIn input n1 c1 ∧
        DerivableIn input n2 c2 ∧ ResolutionStep c1 c2 r ∧ r.terms = []) →
      resolution_loop (k + 2) start work = some false := by
  intro k
  induction k with
  | zero =>
    intro d start work hrep hinv ⟨n1, n2, c1, c2, r, hn1, hn2, hd1, hd2, hs, he⟩
    obtain ⟨c1', h1, e1⟩ := hrep n1 hn1 c1 hd1
    obtain ⟨c2', h2, e2⟩ := hrep n2 hn2 c2 hd2
    unfold resolution_loop
    by_cases hst : start < work.length
    · rw [if_pos hst]
      cases hl : resolution_level work with
      | mk w1 fe =>
        obtain ⟨_, _, hclosed⟩ := resolution_level_spec work w1 fe hl
        cases fe with
        | true => rfl
        | false =>
          exact absurd he (closed_step_represented (hclosed rfl) h1 h2 e1 e2 hs).1
    · rcases hinv with hinv | hinv
      · exact absurd hinv hst
      · exact absurd he (closed_step_represented hinv h1 h2 e1 e2 hs).1
  | succ k ih =>
    intro d start work hrep hinv ⟨n1, n2, c1, c2, r, hn1, hn2, hd1, hd2, hs, he⟩
    unfold resolution_loop
    by_cases hst : start < work.length
    · rw [if_pos hst]
      cases hl : resolution_level work with
      | mk w1 fe =>
        obtain ⟨⟨added, hadd, _⟩, _, hclosed⟩ := resolution_level_spec work w1 fe hl
        cases fe with
        | true => rfl
        | false =>
          simp only
          have hsub : ∀ c ∈ work, c ∈ w1 := fun c hc => by
            rw [hadd]; exact List.mem_append_left _ hc
          have hinv1 : work.length < w1.length ∨ Closed w1 w1 := by
            cases added with
            | nil =>
              right
              have : w1 = work := by rw [hadd]; simp
              rw [this]
              have hc := hclosed rfl
              rw [this] at hc
              exact hc
            | cons a as => left; rw [hadd]; simp
          exact ih (d + 1) work.length w1 (represented_succ hrep hsub (hclosed rfl)) hinv1
            ⟨n1, n2, c1, c2, r, by omega, by omega, hd1, hd2, hs, he⟩
    · rcases hinv with hinv | hinv
      · exact absurd hinv hst
      · have h0 : Represented input 0 work := fun n hn c hc => hrep n (by omega) c hc
        obtain ⟨c1', h1, e1⟩ := closed_represents_all hinv h0 n1 c1 hd1
        obtain ⟨c2', h2, e2⟩ := closed_represents_all hinv h0 n2 c2 hd2
        exact absurd he (closed_step_represented hinv h1 h2 e1 e2 hs).1

theorem resolution_unsat_iff_core (formula : PropositionalFormula) :
    (∃ fuel, resolution fuel formula = some false) ↔
      ∃ n, DerivableIn formula.clauses (n + 1) ⟨[]⟩ := by
  constructor
  · rintro ⟨fuel, h⟩
    unfold resolution at h
    rw [map_copy_clause] at h
    obtain ⟨ci, cj, r, ⟨n1, h1⟩, ⟨n2, h2⟩, hs, he⟩ :=
      resolution_loop_unsat (fun c => ∃ n, DerivableIn formula.clauses n c)
        (fun ci cj r ⟨n1, h1⟩ ⟨n2, h2⟩ hs => ⟨_, DerivableIn.step h1 h2 hs⟩)
        fuel 0 formula.clauses (fun c hc => ⟨0, DerivableIn.given hc⟩) h
    have hr : r = ⟨[]⟩ := by cases r; simp_all
    rw [← hr]
    exact ⟨_, DerivableIn.step h1 h2 hs⟩
  · rintro ⟨n, h⟩
    rcases derivableIn_cases h with ⟨h0, _⟩ | ⟨n1, n2, c1, c2, hn, hd1, hd2, hs⟩
    · omega
    · refine ⟨n + 2, ?_⟩
      unfold resolution
      rw [map_copy_clause]
      have hinv : 0 < formula.clauses.length ∨ Closed formula.clauses formula.clauses := by
        cases hcl : formula.clauses with
        | nil => right; exact closed_nil _
        | cons c cs => left; simp
      apply resolution_loop_finds_empty formula.clauses n 0 0 formula.clauses _ hinv
      · have := le_max_left n1 n2
        have := le_max_right n1 n2
        exact ⟨n1, n2, c1, c2, _, by omega, by omega, hd1, hd2, hs, rfl⟩
      · intro m hm c hc
        rcases derivableIn_cases hc with ⟨_, hin⟩ | ⟨a, b, _, _, hab, _⟩
        · exact ⟨c, hin, fun _ => Iff.rfl⟩
        · omega

/-! ## The saturation of `growing_formula` never ends -/

theorem length_filter_ne_add_count (l : List PropositionTerm) (a : PropositionTerm) :
    (l.filter fun u => decide (u ≠ a)).length + l.count a = l.length := by
  induction l with
  | nil => simp
  | cons b l ih =>
    by_cases h : b = a
    · subst h
      simp only [ne_eq] at ih
      simp only [ne_eq, not_true_eq_false, decide_False, Bool.false_eq_true, not_false_eq_true,
        List.filter_cons_of_neg, List.count_cons_self, List.length_cons]
      omega
    · have h' : (b == a) = false := by simpa using h
      simp only [ne_eq] at ih
      simp only [ne_eq, h, not_false_eq_true, decide_True, List.filter_cons_of_pos,
        List.length_cons, List.count_cons, h', Bool.false_eq_true, if_false]
      omega

theorem lengths_bounded (work : List PropositionClause) :
    ∃ bound, ∀ c ∈ work, c.terms.length ≤ bound := by
  induction work with
  | nil => exact ⟨0, by simp⟩
  | cons c cs ih =>
    obtain ⟨b, hb⟩ := ih
    refine ⟨max b c.terms.length, fun d hd => ?_⟩
    rcases List.mem_cons.1 hd with rfl | hd
    · exact le_max_right _ _
    · exact le_trans (hb d hd) (le_max_left _ _)

theorem growP_resolvent (c : PropositionClause) (h : GrowP c) :
    GrowQ (resolvent c ⟨[lit "p" true, lit "q" false]⟩ (lit "p" false)) ∧
    (resolvent c ⟨[lit "p" true, lit "q" false]⟩ (lit "p" false)).terms.length
      = c.terms.length := by
  have hlen := length_filter_ne_add_count c.terms (lit "p" false)
  rw [h.2] at hlen
  have hB : (([lit "p" true, lit "q" false] : List PropositionTerm).filter
      fun u => decide (u ≠ (lit "p" false).complement)) = [lit "q" false] := by decide
  have hmem : ∀ u ∈ c.terms.filter (fun u => decide (u ≠ lit "p" false)), u = lit "x" false := by
    intro u hu
    simp only [List.mem_filter, decide_eq_true_eq] at hu
    rcases h.1 u hu.1 with h1 | h1
    · exact h1
    · exact absurd h1 hu.2
  refine ⟨⟨?_, ?_⟩, ?_⟩
  · intro u hu
    simp only [resolvent, hB, List.mem_append, List.mem_singleton] at hu
    rcases hu with hu | hu
    · exact Or.inl (hmem u hu)
    · exact Or.inr hu
  · simp only [resolvent, hB, List.count_append]
    have : (c.terms.filter fun u => decide (u ≠ lit "p" false)).count (lit "q" false) = 0 := by
      apply List.count_eq_zero_of_not_mem
      intro hq
      have := hmem _ hq
      revert this
      decide
    rw [this]
    decide
  · simp only [resolvent, hB, List.length_append, List.length_singleton]
    omega

theorem growQ_resolvent (c : PropositionClause) (h : GrowQ c) :
    GrowP (resolvent c ⟨[lit "q" true, lit "p" false, lit "x" false]⟩ (lit "q" false)) ∧
    (resolvent c ⟨[lit "q" true, lit "p" false, lit "x" false]⟩ (lit "q" false)).terms.length
      = c.terms.length + 1 := by
  have hlen := length_filter_ne_add_count c.terms (lit "q" false)
  rw [h.2] at hlen
  have hC : (([lit "q" true, lit "p" false, lit "x" false] : List PropositionTerm).filter
      fun u => decide (u ≠ (lit "q" false).complement)) = [lit "p" false, lit "x" false] := by
    decide
  have hmem : ∀ u ∈ c.terms.filter (fun u => decide (u ≠ lit "q" false)), u = lit "x" false := by
    intro u hu
    simp only [List.mem_filter, decide_eq_true_eq] at hu
    rcases h.1 u hu.1 with h1 | h1
    · exact h1
    · exact absurd h1 hu.2
  refine ⟨⟨?_, ?_⟩, ?_⟩
  · intro u hu
    simp only [resolvent, hC, List.mem_append, List.mem_cons, List.mem_singleton] at hu
    rcases hu with hu | hu | hu | hu
    · exact Or.inl (hmem u hu)
    · exact Or.inr hu
    · exact Or.inl hu
    · simp at hu
  · simp only [resolvent, hC, List.count_append]
    have : (c.terms.filter fun u => decide (u ≠ lit "q" false)).count (lit "p" false) = 0 := by
      apply List.count_eq_zero_of_not_mem
      intro hq
      have := hmem _ hq
      revert this
      decide
    rw [this]
    decide
  · simp only [resolvent, hC, List.length_append, List.length_cons, List.length_nil]
    omega

theorem growP_not_tautological (c : PropositionClause) (h : GrowP c) : ¬ Tautological c := by
  rintro ⟨t, ht, htc⟩
  rcases h.1 t ht with rfl | rfl
  · rcases h.1 _ htc with h1 | h1 <;> revert h1 <;> decide
  · rcases h.1 _ htc with h1 | h1 <;> revert h1 <;> decide

theorem growQ_not_tautological (c : PropositionClause) (h : GrowQ c) : ¬ Tautological c := by
  rintro ⟨t, ht, htc⟩
  rcases h.1 t ht with rfl | rfl
  · rcases h.1 _ htc with h1 | h1 <;> revert h1 <;> decide
  · rcases h.1 _ htc with h1 | h1 <;> revert h1 <;> decide

theorem growP_mem (c : PropositionClause) (h : GrowP c) : lit "p" false ∈ c.terms := by
  apply List.count_pos_iff.1
  rw [h.2]; exact Nat.one_pos

theorem growQ_mem (c : PropositionClause) (h : GrowQ c) : lit "q" false ∈ c.terms := by
  apply List.count_pos_iff.1
  rw [h.2]; exact Nat.one_pos

theorem growShape_universe (c : PropositionClause) (h : GrowShape c) :
    ∀ t ∈ c.terms, t = lit "x" false ∨ t = lit "p" false ∨ t = lit "q" false ∨
      t = lit "p" true ∨ t = lit "q" true := by
  intro t ht
  rcases h with rfl | rfl | h | h
  · simp only [List.mem_cons, List.mem_singleton] at ht
    rcases ht with rfl | rfl | ht
    · simp
    · simp
    · simp at ht
  · simp only [List.mem_cons, List.mem_singleton] at ht
    rcases ht with rfl | rfl | rfl | ht
    · simp
    · simp
    · simp
    · simp at ht
  · rcases h.1 t ht with rfl | rfl <;> simp
  · rcases h.1 t ht with rfl | rfl <;> simp

theorem grow_step_positive (ci cj : PropositionClause) (hi : GrowShape ci)
    (hj : GrowShape cj) (t : PropositionTerm) (ht : t ∈ ci.terms)
    (htc : t.complement ∈ cj.terms) (hpos : t.is_negated = false)
    (htaut : ¬ Tautological (resolvent ci cj t)) :
    GrowP (resolvent ci cj t) ∨ GrowQ (resolvent ci cj t) := by
  rcases growShape_universe ci hi t ht with rfl | rfl | rfl | rfl | rfl
  · -- `!x` occurs nowhere
    exfalso
    rcases growShape_universe cj hj _ htc with h | h | h | h | h <;> revert h <;> decide
  · -- resolving on `p`: the second clause is `!p q`
    have hcj : cj = ⟨[lit "p" true, lit "q" false]⟩ := by
      rcases hj with rfl | rfl | h | h
      · rfl
      · exfalso; revert htc; decide
      · exfalso; rcases h.1 _ htc with h1 | h1 <;> revert h1 <;> decide
      · exfalso; rcases h.1 _ htc with h1 | h1 <;> revert h1 <;> decide
    subst hcj
    rcases hi with rfl | rfl | h | h
    · exfalso; revert ht; decide
    · exfalso
      apply htaut
      exact ⟨lit "q" true, by decide, by decide⟩
    · exact Or.inr (growP_resolvent ci h).1
    · exfalso; rcases h.1 _ ht with h1 | h1 <;> revert h1 <;> decide
  · -- resolving on `q`: the second clause is `!q p x`
    have hcj : cj = ⟨[lit "q" true, lit "p" false, lit "x" false]⟩ := by
      rcases hj with rfl | rfl | h | h
      · exfalso; revert htc; decide
      · rfl
      · exfalso; rcases h.1 _ htc with h1 | h1 <;> revert h1 <;> decide
      · exfalso; rcases h.1 _ htc with h1 | h1 <;> revert h1 <;> decide
    subst hcj
    rcases hi with rfl | rfl | h | h
    · exfalso
      apply htaut
      exact ⟨lit "p" true, by decide, by decide⟩
    · exfalso; revert ht; decide
    · exfalso; rcases h.1 _ ht with h1 | h1 <;> revert h1 <;> decide
    · exact Or.inl (growQ_resolvent ci h).1
  · exfalso; revert hpos; decide
  · exfalso; revert hpos; decide

theorem resolvent_swap_perm (c1 c2 : PropositionClause) (t : PropositionTerm) :
    List.Perm (resolvent c2 c1 t.complement).terms (resolvent c1 c2 t).terms := by
  simp only [resolvent, complement_complement]
  exact List.perm_append_comm

theorem growP_perm {c d : PropositionClause} (hp : List.Perm c.terms d.terms) (h : GrowP c) :
    GrowP d :=
  ⟨fun t ht => h.1 t (hp.mem_iff.2 ht), by rw [← hp.count_eq]; exact h.2⟩

theorem growQ_perm {c d : PropositionClause} (hp : List.Perm c.terms d.terms) (h : GrowQ c) :
    GrowQ d :=
  ⟨fun t ht => h.1 t (hp.mem_iff.2 ht), by rw [← hp.count_eq]; exact h.2⟩

theorem growShape_step (ci cj r : PropositionClause) (hi : GrowShape ci) (hj : GrowShape cj)
    (hs : ResolutionStep ci cj r) : GrowShape r := by
  obtain ⟨t, ht, htc, htaut, rfl⟩ := hs
  cases hneg : t.is_negated with
  | false =>
    rcases grow_step_positive ci cj hi hj t ht htc hneg htaut with h | h
    · exact Or.inr (Or.inr (Or.inl h))
    · exact Or.inr (Or.inr (Or.inr h))
  | true =>
    have hpos : t.complement.is_negated = false := by
      simp [PropositionTerm.complement, hneg]
    have htaut' : ¬ Tautological (resolvent cj ci t.complement) := fun hh =>
      htaut ((tautological_congr (resolvent_swap_mem ci cj t)).1 hh)
    have ht' : t.complement.complement ∈ ci.terms := by
      rw [complement_complement]; exact ht
    rcases grow_step_positive cj ci hj hi t.complement htc ht' hpos htaut' with h | h
    · exact Or.inr (Or.inr (Or.inl (growP_perm (resolvent_swap_perm ci cj t) h)))
    · exact Or.inr (Or.inr (Or.inr (growQ_perm (resolvent_swap_perm ci cj t) h)))

theorem grow_unbounded (work : List PropositionClause) (hshape : ∀ c ∈ work, GrowShape c)
    (hclosed : Closed work work)
    (hA : (⟨[lit "p" false, lit "x" false]⟩ : PropositionClause) ∈ work)
    (hB : (⟨[lit "p" true, lit "q" false]⟩ : PropositionClause) ∈ work)
    (hC : (⟨[lit "q" true, lit "p" false, lit "x" false]⟩ : PropositionClause) ∈ work) :
    ∀ n, ∃ c ∈ work, GrowP c ∧ n ≤ c.terms.length := by
  intro n
  induction n with
  | zero =>
    refine ⟨_, hA, ⟨?_, by decide⟩, Nat.zero_le _⟩
    intro t ht
    simp only [List.mem_cons, List.mem_singleton] at ht
    rcases ht with rfl | rfl | ht
    · exact Or.inr rfl
    · exact Or.inl rfl
    · simp at ht
  | succ n ih =>
    obtain ⟨c, hc, hP, hlen⟩ := ih
    -- resolve with `!p q`
    obtain ⟨hQ1, hlen1⟩ := growP_resolvent c hP
    have hs1 : ResolutionStep c ⟨[lit "p" true, lit "q" false]⟩
        (resolvent c ⟨[lit "p" true, lit "q" false]⟩ (lit "p" false)) :=
      ⟨lit "p" false, growP_mem c hP, by decide, growQ_not_tautological _ hQ1, rfl⟩
    obtain ⟨_, c1, hc1, heq1⟩ := hclosed c hc _ hB _ hs1
    obtain ⟨hl1, hm1⟩ := (clauses_equal_iff _ _).1 heq1
    have hQ : GrowQ c1 := by
      rcases hshape c1 hc1 with rfl | rfl | h | h
      · exfalso
        have := hQ1.1 (lit "p" true) ((hm1 _).1 (by decide))
        revert this; decide
      · exfalso
        have := hQ1.1 (lit "q" true) ((hm1 _).1 (by decide))
        revert this; decide
      · exfalso
        have := hQ1.1 (lit "p" false) ((hm1 _).1 (growP_mem c1 h))
        revert this; decide
      · exact h
    -- resolve with `!q p x`
    obtain ⟨hP2, hlen2⟩ := growQ_resolvent c1 hQ
    have hs2 : ResolutionStep c1 ⟨[lit "q" true, lit "p" false, lit "x" false]⟩
        (resolvent c1 ⟨[lit "q" true, lit "p" false, lit "x" false]⟩ (lit "q" false)) :=
      ⟨lit "q" false, growQ_mem c1 hQ, by decide, growP_not_tautological _ hP2, rfl⟩
    obtain ⟨_, c2, hc2, heq2⟩ := hclosed c1 hc1 _ hC _ hs2
    obtain ⟨hl2, hm2⟩ := (clauses_equal_iff _ _).1 heq2
    have hP' : GrowP c2 := by
      rcases hshape c2 hc2 with rfl | rfl | h | h
      · exfalso
        have := hP2.1 (lit "p" true) ((hm2 _).1 (by decide))
        revert this; decide
      · exfalso
        have := hP2.1 (lit "q" true) ((hm2 _).1 (by decide))
        revert this; decide
      · exact h
      · exfalso
        have := hP2.1 (lit "q" false) ((hm2 _).1 (growQ_mem c2 h))
        revert this; decide
    exact ⟨c2, hc2, hP', by omega⟩

theorem growing_formula_satisfiable : Satisfiable growing_formula :=
  ⟨fun _ => true, by decide⟩

theorem resolution_growing_none (fuel : Nat) : resolution fuel growing_formula = none := by
  cases h : resolution fuel growing_formula with
  | none => rfl
  | some b =>
    exfalso
    cases b with
    | false => exact resolution_sound fuel growing_formula h growing_formula_satisfiable
    | true =>
      unfold resolution at h
      rw [map_copy_clause] at h
      have hinit : ∀ c ∈ growing_formula.clauses, GrowShape c := by
        intro c hc
        simp only [growing_formula, List.mem_cons, List.mem_singleton] at hc
        rcases hc with rfl | rfl | rfl | hc
        · refine Or.inr (Or.inr (Or.inl ⟨?_, by decide⟩))
          intro t ht
          simp only [List.mem_cons, List.mem_singleton] at ht
          rcases ht with rfl | rfl | ht
          · exact Or.inr rfl
          · exact Or.inl rfl
          · simp at ht
        · exact Or.inl rfl
        · exact Or.inr (Or.inl rfl)
        · simp at hc
      obtain ⟨final, added, hfin, _, hshape, hclosed⟩ :=
        resolution_loop_sat GrowShape growShape_step fuel 0 growing_formula.clauses hinit
          (Or.inl (by decide)) h
      have hin : ∀ c ∈ growing_formula.clauses, c ∈ final := fun c hc => by
        rw [hfin]; exact List.mem_append_left _ hc
      obtain ⟨bound, hb⟩ := lengths_bounded final
      obtain ⟨c, hc, _, hlen⟩ := grow_unbounded final hshape hclosed
        (hin _ (by decide)) (hin _ (by decide)) (hin _ (by decide)) (bound + 1)
      have := hb c hc
      omega

/-! ## The loader -/

theorem strtok_scan_eq (s : List Char) : ∀ tok : List Char,
    strtok_scan tok s =
      ((s.splitOnP is_delim).modifyHead (fun x => tok ++ x)).filter fun t => decide (t ≠ []) := by
  induction s with
  | nil =>
    intro tok
    simp only [strtok_scan, List.splitOnP_nil, List.modifyHead_cons, List.append_nil]
    by_cases h : tok = []
    · simp [h]
    · simp [h]
  | cons c s ih =>
    intro tok
    rw [List.splitOnP_cons]
    unfold strtok_scan
    by_cases hc : is_delim c = true
    · simp only [hc, if_true, List.modifyHead_cons, List.append_nil]
      have h0 := ih []
      have hid : (List.splitOnP is_delim s).modifyHead (fun x => [] ++ x)
          = List.splitOnP is_delim s := by
        cases List.splitOnP is_delim s <;> simp [List.modifyHead]
      rw [hid] at h0
      by_cases h : tok = []
      · simp [h, h0]
      · simp [h, h0]
    · simp only [hc, if_false, Bool.false_eq_true]
      rw [ih (tok ++ [c])]
      congr 1
      cases List.splitOnP is_delim s <;> simp [List.modifyHead]

theorem strtok_scan_tokens (line : List Char) : strtok_scan [] line = tokens line := by
  rw [strtok_scan_eq]
  unfold tokens
  congr 1
  cases List.splitOnP is_delim line <;> simp [List.modifyHead]


theorem read_tokens_cons (tok : List Char) (toks : List (List Char))
    (clause : PropositionClause) :
    read_tokens (tok :: toks) clause =
      if is_valid_symbol_name (name_part tok) then
        read_tokens toks ⟨clause.terms ++ [term_of_token tok]⟩
      else none := by
  rw [read_tokens]
  show (if (!is_valid_symbol_name (name_part tok)) = true then none
    else read_tokens toks (add_term clause (name_part tok) (tok.head? == some '!'))) = _
  cases is_valid_symbol_name (name_part tok) <;> simp [add_term, term_of_token]

theorem read_tokens_eq (toks : List (List Char)) : ∀ clause : PropositionClause,
    read_tokens toks clause =
      if toks.all (fun tok => is_valid_symbol_name (name_part tok)) then
        some ⟨clause.terms ++ toks.map term_of_token⟩
      else none := by
  induction toks with
  | nil => intro clause; simp [read_tokens]
  | cons tok toks ih =>
    intro clause
    rw [read_tokens_cons, ih]
    cases hv : is_valid_symbol_name (name_part tok) <;> simp [hv]

theorem read_lines_cons (buf : List Char) (rest : List (List Char))
    (formula : PropositionalFormula) :
    read_lines (buf :: rest) formula =
      if buffer_skipped buf then read_lines rest formula
      else if buffer_invalid buf then (false, free_formula formula)
      else if decide ((clause_of_buffer buf).term_count > 0) && !is_tautology (clause_of_buffer buf)
        then read_lines rest (add_clause formula (clause_of_buffer buf))
      else read_lines rest formula := by
  rw [read_lines]
  show (if buffer_skipped buf = true then read_lines rest formula
    else
      match read_tokens (strtok_scan [] (stripped buf)) init_clause with
      | none => (false, free_formula formula)
      | some clause =>
        if (decide (clause.term_count > 0) && !is_tautology clause) = true then
          read_lines rest (add_clause formula clause)
        else read_lines rest formula) = _
  by_cases hs : buffer_skipped buf = true
  · simp only [hs, if_true]
  · have hs' : buffer_skipped buf = false := by simpa using hs
    simp only [hs', Bool.false_eq_true, if_false]
    rw [read_tokens_eq]
    have hall : (List.all (strtok_scan [] (stripped buf))
        fun tok => is_valid_symbol_name (name_part tok)) = !buffer_invalid buf := by
      simp only [buffer_invalid]
      simp [hs', List.all_eq_not_any_not]
    rw [hall]
    cases hi : buffer_invalid buf
    · simp only [Bool.not_false, if_true, Bool.false_eq_true, if_false, init_clause,
        List.nil_append]
      rfl
    · simp

theorem buffer_invalid_not_skipped (buf : List Char) (h : buffer_invalid buf = true) :
    buffer_skipped buf = false := by
  simp only [buffer_invalid, Bool.and_eq_true, Bool.not_eq_true'] at h
  exact h.1

theorem read_lines_fails_iff (bufs : List (List Char)) : ∀ formula : PropositionalFormula,
    (read_lines bufs formula).1 = false ↔ ∃ b ∈ bufs, buffer_invalid b = true := by
  induction bufs with
  | nil => intro formula; simp [read_lines]
  | cons b bs ih =>
    intro formula
    rw [read_lines_cons]
    by_cases hs : buffer_skipped b = true
    · have hi : buffer_invalid b = false := by
        cases hh : buffer_invalid b
        · rfl
        · rw [buffer_invalid_not_skipped b hh] at hs; simp at hs
      simp only [hs, if_true, ih, List.mem_cons, exists_eq_or_imp, hi, Bool.false_eq_true,
        false_or]
    · have hs' : buffer_skipped b = false := by simpa using hs
      simp only [hs', Bool.false_eq_true, if_false]
      cases hi : buffer_invalid b
      · simp only [Bool.false_eq_true, if_false, List.mem_cons, exists_eq_or_imp, hi, false_or]
        split
        · exact ih _
        · exact ih _
      · simp [hi]

theorem read_lines_fails_empty (bufs : List (List Char)) : ∀ formula : PropositionalFormula,
    (read_lines bufs formula).1 = false → (read_lines bufs formula).2 = ⟨[], []⟩ := by
  induction bufs with
  | nil => intro formula; simp [read_lines]
  | cons b bs ih =>
    intro formula
    rw [read_lines_cons]
    split
    · exact ih _
    · split
      · intro _; rfl
      · split
        · exact ih _
        · exact ih _

theorem kept_clauses_cons (b : List Char) (bs : List (List Char)) :
    kept_clauses (b :: bs) =
      (if !buffer_skipped b && (decide ((clause_of_buffer b).term_count > 0) &&
          !is_tautology (clause_of_buffer b)) then [clause_of_buffer b] else []) ++
        kept_clauses bs := by
  simp only [kept_clauses, List.filter_cons]
  cases hs : buffer_skipped b
  · simp only [Bool.not_false, if_true, List.map_cons, List.filter_cons, Bool.true_and]
    split <;> simp
  · simp

theorem read_lines_succeeds (bufs : List (List Char)) : ∀ formula : PropositionalFormula,
    (∀ b ∈ bufs, buffer_invalid b = false) →
    read_lines bufs formula
      = (true, ⟨formula.clauses ++ kept_clauses bufs, formula.symbols⟩) := by
  induction bufs with
  | nil => intro formula _; simp [read_lines, kept_clauses]
  | cons b bs ih =>
    intro formula h
    have hb : buffer_invalid b = false := h b (List.mem_cons_self _ _)
    have hbs : ∀ x ∈ bs, buffer_invalid x = false := fun x hx =>
      h x (List.mem_cons_of_mem _ hx)
    rw [read_lines_cons, kept_clauses_cons]
    cases hs : buffer_skipped b
    · simp only [Bool.false_eq_true, if_false, hb, Bool.not_false, Bool.true_and]
      split
      · rw [ih _ hbs]
        simp [add_clause, copy_clause_eq]
      · rw [ih _ hbs]
        simp
    · simp only [if_true, Bool.not_true, Bool.false_and, Bool.false_eq_true, if_false,
        List.nil_append]
      exact ih _ hbs

theorem read_lines_invariant (bufs : List (List Char)) (formula : PropositionalFormula)
    (h : (read_lines bufs formula).1 = true) :
    (read_lines bufs formula).2 = ⟨formula.clauses ++ kept_clauses bufs, formula.symbols⟩ := by
  have hall : ∀ b ∈ bufs, buffer_invalid b = false := by
    intro b hb
    cases hi : buffer_invalid b
    · rfl
    · have := (read_lines_fails_iff bufs formula).2 ⟨b, hb, hi⟩
      rw [this] at h; simp at h
  rw [read_lines_succeeds bufs formula hall]

theorem read_formula_clauses_ok (text : List Char)
    (h : (read_formula_from_file text).1 = true) :
    ∀ c ∈ (read_formula_from_file text).2.clauses,
      is_tautology c = false ∧ c.term_count > 0 := by
  unfold read_formula_from_file at h ⊢
  rw [read_lines_invariant _ _ h]
  intro c hc
  simp only [init_formula, List.nil_append, kept_clauses, List.mem_filter, Bool.and_eq_true,
    decide_eq_true_eq, Bool.not_eq_true'] at hc
  exact ⟨hc.2.2, hc.2.1⟩

theorem c_str_concat_newline (cur : List Char) :
    c_str (cur ++ ['\n']) = c_str cur ∨ c_str (cur ++ ['\n']) = c_str cur ++ ['\n'] := by
  induction cur with
  | nil => right; decide
  | cons a cur ih =>
    by_cases ha : (a != Char.ofNat 0) = true
    · simp only [c_str, List.cons_append, List.takeWhile_cons, ha, if_true] at ih ⊢
      rcases ih with h | h
      · left; rw [h]
      · right; rw [h]
    · left
      simp only [c_str, List.cons_append, List.takeWhile_cons, ha, if_false, Bool.false_eq_true]

theorem stripped_concat_newline (cur : List Char) : stripped (cur ++ ['\n']) = stripped cur := by
  unfold stripped
  rcases c_str_concat_newline cur with h | h
  · rw [h]
  · rw [h]
    exact List.rdropWhile_concat_pos _ _ _ (by decide)

theorem read_lines_congr (b1 b2 : List Char) (x y : List (List Char))
    (hb : stripped b1 = stripped b2)
    (hxy : ∀ formula, read_lines x formula = read_lines y formula)
    (formula : PropositionalFormula) :
    read_lines (b1 :: x) formula = read_lines (b2 :: y) formula := by
  have h1 : buffer_skipped b1 = buffer_skipped b2 := by simp only [buffer_skipped, hb]
  have h2 : buffer_invalid b1 = buffer_invalid b2 := by simp only [buffer_invalid, h1, hb]
  have h3 : clause_of_buffer b1 = clause_of_buffer b2 := by simp only [clause_of_buffer, hb]
  rw [read_lines_cons, read_lines_cons, h1, h2, h3, hxy, hxy]

theorem lines_scan_head (s : List Char) : ∀ cur : List Char,
    ∃ l rest, lines_scan cur s = l :: rest ∧ cur.length ≤ l.length := by
  induction s with
  | nil => intro cur; exact ⟨cur, [], rfl, le_refl _⟩
  | cons c s ih =>
    intro cur
    unfold lines_scan
    by_cases hc : c = '\n'
    · rw [if_pos hc]
      exact ⟨cur, _, rfl, le_refl _⟩
    · rw [if_neg hc]
      obtain ⟨l, rest, h, hl⟩ := ih (cur ++ [c])
      refine ⟨l, rest, h, ?_⟩
      simp only [List.length_append, List.length_singleton] at hl
      omega

theorem read_lines_fgets (size : Nat) (s : List Char) : ∀ cur : List Char,
    (∀ l ∈ lines_scan cur s, l.length + 2 ≤ size) →
    ∀ formula, read_lines (fgets_scan size cur s) formula
      = read_lines (lines_scan cur s) formula := by
  induction s with
  | nil =>
    intro cur _ formula
    simp only [fgets_scan, lines_scan]
    by_cases hcur : cur = []
    · subst hcur
      rw [if_pos rfl, read_lines_cons]
      have : buffer_skipped [] = true := by decide
      rw [this, if_pos rfl]
    · rw [if_neg hcur]
  | cons c s ih =>
    intro cur h formula
    unfold fgets_scan lines_scan
    unfold lines_scan at h
    by_cases hc : c = '\n'
    · rw [if_pos hc] at h
      rw [if_pos (Or.inl hc), if_pos hc, hc]
      apply read_lines_congr _ _ _ _ (stripped_concat_newline cur)
      exact ih [] (fun l hl => h l (List.mem_cons_of_mem _ hl))
    · rw [if_neg hc] at h
      obtain ⟨l, rest, hl, hlen⟩ := lines_scan_head s (cur ++ [c])
      have hl2 := h l (by rw [hl]; exact List.mem_cons_self _ _)
      simp only [List.length_append, List.length_singleton] at hlen
      have hcond : ¬ (c = '\n' ∨ size - 1 ≤ cur.length + 1) := by
        rintro (h1 | h1)
        · exact hc h1
        · omega
      rw [if_neg hcond, if_neg hc]
      exact ih (cur ++ [c]) h formula

theorem read_formula_eq_lines (text : List Char)
    (hlen : ∀ l ∈ text_lines text, l.length + 2 ≤ MAX_BUFFER) :
    read_formula_from_file text = read_lines (text_lines text) init_formula :=
  read_lines_fgets MAX_BUFFER text [] hlen init_formula

/-! ## Valid symbol names -/

theorem isalpha_iff (c : Char) : isalpha c = true ↔ ascii_letter c := by
  simp only [isalpha, Bool.or_eq_true, Bool.and_eq_true, decide_eq_true_eq]
  exact Iff.rfl

theorem isalnum_iff (c : Char) : isalnum c = true ↔ ascii_letter c ∨ ascii_digit c := by
  simp only [isalnum, Bool.or_eq_true, isalpha_iff, isdigit, Bool.and_eq_true,
    decide_eq_true_eq]
  exact Iff.rfl

theorem valid_symbol_rest_iff (cs : List Char) :
    valid_symbol_rest cs = true ↔ ∀ d ∈ cs, ascii_letter d ∨ ascii_digit d ∨ d = '_' := by
  induction cs with
  | nil => simp [valid_symbol_rest]
  | cons c cs ih =>
    simp only [valid_symbol_rest, List.mem_cons, forall_eq_or_imp]
    by_cases h : isalnum c = true
    · simp only [h, Bool.not_true, Bool.false_and, Bool.false_eq_true, if_false, ih]
      have := (isalnum_iff c).1 h
      constructor
      · intro h2
        exact ⟨by tauto, h2⟩
      · exact fun h2 => h2.2
    · have h' : isalnum c = false := by simpa using h
      by_cases hu : c = '_'
      · subst hu
        simp [ih]
      · have hne : (c != '_') = true := by simpa using hu
        simp only [h', Bool.not_false, hne, Bool.and_self, if_true, Bool.false_eq_true,
          false_iff, not_and]
        intro h2
        exfalso
        rcases h2 with h2 | h2 | h2
        · exact h ((isalnum_iff c).2 (Or.inl h2))
        · exact h ((isalnum_iff c).2 (Or.inr h2))
        · exact hu h2

theorem is_valid_symbol_name_iff_pattern (s : List Char) :
    is_valid_symbol_name s = true ↔ matches_symbol_pattern s := by
  cases s with
  | nil => simp [is_valid_symbol_name, matches_symbol_pattern]
  | cons c cs =>
    simp only [is_valid_symbol_name, matches_symbol_pattern, List.cons.injEq]
    constructor
    · intro h
      by_cases ha : isalpha c = true
      · simp only [ha, Bool.not_true, Bool.false_and, Bool.false_eq_true, if_false] at h
        exact ⟨c, cs, ⟨rfl, rfl⟩, Or.inl ((isalpha_iff c).1 ha), (valid_symbol_rest_iff cs).1 h⟩
      · have ha' : isalpha c = false := by simpa using ha
        by_cases hu : c = '_'
        · subst hu
          simp only [ha', Bool.not_false, bne_self_eq_false, Bool.and_false, Bool.false_eq_true,
            if_false] at h
          exact ⟨'_', cs, ⟨rfl, rfl⟩, Or.inr rfl, (valid_symbol_rest_iff cs).1 h⟩
        · have hne : (c != '_') = true := by simpa using hu
          simp [ha', hne] at h
    · rintro ⟨d, ds, ⟨rfl, rfl⟩, hd, hds⟩
      have hrest := (valid_symbol_rest_iff cs).2 hds
      rcases hd with hd | hd
      · have := (isalpha_iff c).2 hd
        simp [this, hrest]
      · subst hd
        simp [hrest]

/-! ## Lines without NUL characters -/

theorem valid_name_no_nul (n : List Char) (h : is_valid_symbol_name n = true) :
    ∀ c ∈ n, c ≠ Char.ofNat 0 := by
  obtain ⟨a, as, rfl, ha, has⟩ := (is_valid_symbol_name_iff_pattern n).1 h
  have key : ∀ d : Char, ascii_letter d ∨ ascii_digit d ∨ d = '_' → d ≠ Char.ofNat 0 := by
    intro d hd heq
    subst heq
    unfold ascii_letter ascii_digit at hd
    revert hd
    decide
  intro c hc
  rcases List.mem_cons.1 hc with rfl | hc
  · rcases ha with ha | ha
    · exact key _ (Or.inl ha)
    · exact key _ (Or.inr (Or.inr ha))
  · exact key c (has c hc)

theorem valid_token_no_nul (tok : List Char)
    (h : is_valid_symbol_name (name_part tok) = true) : ∀ c ∈ tok, c ≠ Char.ofNat 0 := by
  unfold name_part at h
  by_cases hb : (tok.head? == some '!') = true
  · rw [if_pos hb] at h
    cases tok with
    | nil => intro c hc; simp at hc
    | cons a as =>
      simp only [List.head?_cons, beq_iff_eq, Option.some.injEq] at hb
      subst hb
      intro c hc
      rcases List.mem_cons.1 hc with rfl | hc
      · decide
      · exact valid_name_no_nul _ h c (by simpa using hc)
  · rw [if_neg hb] at h
    exact valid_name_no_nul _ h

theorem strtok_scan_cover (s : List Char) : ∀ (tok : List Char) (c : Char),
    (c ∈ tok ∨ (c ∈ s ∧ is_delim c = false)) → ∃ t ∈ strtok_scan tok s, c ∈ t := by
  induction s with
  | nil =>
    intro tok c h
    rcases h with h | h
    · have hne : tok ≠ [] := List.ne_nil_of_mem h
      exact ⟨tok, by simp [strtok_scan, hne], h⟩
    · simp at h
  | cons d s ih =>
    intro tok c h
    unfold strtok_scan
    by_cases hd : is_delim d = true
    · rw [if_pos hd]
      rcases h with h | ⟨h, hc⟩
      · have hne : tok ≠ [] := List.ne_nil_of_mem h
        rw [if_neg hne]
        exact ⟨tok, List.mem_cons_self _ _, h⟩
      · have hcs : c ∈ s := by
          rcases List.mem_cons.1 h with rfl | h
          · rw [hd] at hc; simp at hc
          · exact h
        obtain ⟨t, ht, hct⟩ := ih [] c (Or.inr ⟨hcs, hc⟩)
        by_cases hne : tok = []
        · rw [if_pos hne]; exact ⟨t, ht, hct⟩
        · rw [if_neg hne]; exact ⟨t, List.mem_cons_of_mem _ ht, hct⟩
    · rw [if_neg hd]
      apply ih
      rcases h with h | ⟨h, hc⟩
      · exact Or.inl (List.mem_append_left _ h)
      · rcases List.mem_cons.1 h with rfl | h
        · exact Or.inl (List.mem_append_right _ (List.mem_singleton_self _))
        · exact Or.inr ⟨h, hc⟩

theorem rdropWhile_decomp (p : Char → Bool) (l : List Char) :
    ∃ tail, l = l.rdropWhile p ++ tail ∧ ∀ x ∈ tail, p x = true := by
  induction l using List.reverseRecOn with
  | nil => exact ⟨[], by simp, by simp⟩
  | append_singleton l a ih =>
    by_cases ha : p a = true
    · obtain ⟨tail, h1, h2⟩ := ih
      refine ⟨tail ++ [a], ?_, ?_⟩
      · rw [List.rdropWhile_concat_pos _ _ _ ha, ← List.append_assoc, ← h1]
      · intro x hx
        rcases List.mem_append.1 hx with hx | hx
        · exact h2 x hx
        · rw [List.mem_singleton.1 hx]; exact ha
    · exact ⟨[], by rw [List.rdropWhile_concat_neg _ _ _ ha]; simp, by simp⟩

theorem is_delim_isspace (c : Char) (h : is_delim c = true) : isspace c = true := by
  simp only [is_delim, Bool.or_eq_true, beq_iff_eq] at h
  rcases h with rfl | rfl <;> decide

theorem isspace_ne_nul (c : Char) (h : isspace c = true) : c ≠ Char.ofNat 0 := by
  intro heq
  subst heq
  revert h
  decide

theorem c_str_of_no_nul (l : List Char) (h : ∀ c ∈ l, c ≠ Char.ofNat 0) : c_str l = l := by
  unfold c_str
  rw [List.takeWhile_eq_self_iff]
  intro c hc
  simpa using h c hc

theorem line_tokens_valid (l : List Char) (hs : significant l = true)
    (hv : line_has_invalid_token l = false) :
    ∀ tok ∈ tokens (l.rdropWhile isspace), is_valid_symbol_name (name_part tok) = true := by
  intro tok htok
  simp only [line_has_invalid_token, hs, Bool.true_and] at hv
  by_contra hcon
  have : (tokens (l.rdropWhile isspace)).any
      (fun tok => !is_valid_symbol_name (name_part tok)) = true := by
    rw [List.any_eq_true]
    exact ⟨tok, htok, by simpa using hcon⟩
  rw [this] at hv
  simp at hv

theorem line_no_nul (l : List Char) (hs : significant l = true)
    (hv : line_has_invalid_token l = false) : ∀ c ∈ l, c ≠ Char.ofNat 0 := by
  obtain ⟨tail, h1, h2⟩ := rdropWhile_decomp isspace l
  intro c hc
  rw [h1] at hc
  rcases List.mem_append.1 hc with hc | hc
  · by_cases hd : is_delim c = true
    · exact isspace_ne_nul c (is_delim_isspace c hd)
    · have hd' : is_delim c = false := by simpa using hd
      obtain ⟨t, ht, hct⟩ := strtok_scan_cover _ [] c (Or.inr ⟨hc, hd'⟩)
      rw [strtok_scan_tokens] at ht
      exact valid_token_no_nul t (line_tokens_valid l hs hv t ht) c hct
  · exact isspace_ne_nul c (h2 c hc)

theorem buffer_skipped_eq (l : List Char) (h : c_str l = l) :
    buffer_skipped l = !significant l := by
  simp only [buffer_skipped, stripped, significant, h]
  cases List.rdropWhile isspace l with
  | nil => simp
  | cons a as => simp

theorem buffer_invalid_eq (l : List Char) (h : c_str l = l) :
    buffer_invalid l = line_has_invalid_token l := by
  simp only [buffer_invalid, line_has_invalid_token, buffer_skipped_eq l h, Bool.not_not,
    stripped, h, strtok_scan_tokens]

theorem rdropWhile_cons_head (p : Char → Bool) (a : Char) (x : List Char) (h : p a = false) :
    ((a :: x).rdropWhile p).head? = some a := by
  have hpre := List.rdropWhile_prefix p (a :: x)
  have hne : (a :: x).rdropWhile p ≠ [] := by
    intro hnil
    have := List.rdropWhile_eq_nil_iff.1 hnil a (List.mem_cons_self _ _)
    rw [h] at this
    simp at this
  cases hr : (a :: x).rdropWhile p with
  | nil => exact absurd hr hne
  | cons b bs =>
    rw [hr] at hpre
    obtain ⟨t, ht⟩ := hpre
    simp only [List.cons_append, List.cons.injEq] at ht
    simp [ht.1]

theorem not_significant_skipped (l : List Char) (h : significant l = false) :
    buffer_skipped l = true := by
  by_cases hnil : l.rdropWhile isspace = []
  · have hall := List.rdropWhile_eq_nil_iff.1 hnil
    have hc : c_str l = l := c_str_of_no_nul l fun c hc => isspace_ne_nul c (hall c hc)
    rw [buffer_skipped_eq l hc, h]; rfl
  · have hhead : (l.rdropWhile isspace).head? = some '#' := by
      simp only [significant, hnil, ne_eq, not_false_eq_true, decide_True, Bool.true_and,
        Bool.not_eq_false', beq_iff_eq] at h
      exact h
    cases l with
    | nil => simp at hnil
    | cons a x =>
      have ha : a = '#' := by
        have hpre := List.rdropWhile_prefix isspace (a :: x)
        cases hr : (a :: x).rdropWhile isspace with
        | nil => exact absurd hr hnil
        | cons b bs =>
          rw [hr] at hpre hhead
          obtain ⟨t, ht⟩ := hpre
          simp only [List.cons_append, List.cons.injEq] at ht
          simp only [List.head?_cons, Option.some.injEq] at hhead
          rw [← ht.1, hhead]
      subst ha
      have hcs : c_str ('#' :: x) = '#' :: c_str x := by
        simp only [c_str, List.takeWhile_cons]
        rfl
      simp only [buffer_skipped, stripped, hcs]
      rw [rdropWhile_cons_head isspace '#' _ (by decide)]
      rfl

theorem line_facts (l : List Char) (hv : line_has_invalid_token l = false) :
    buffer_invalid l = false ∧ buffer_skipped l = !significant l ∧
      (significant l = true → stripped l = l.rdropWhile isspace) := by
  cases hs : significant l
  · have hsk := not_significant_skipped l hs
    refine ⟨?_, by rw [hsk]; rfl, by simp⟩
    cases hi : buffer_invalid l
    · rfl
    · rw [buffer_invalid_not_skipped l hi] at hsk; simp at hsk
  · have hc : c_str l = l := c_str_of_no_nul l (line_no_nul l hs hv)
    refine ⟨by rw [buffer_invalid_eq l hc, hv], by rw [buffer_skipped_eq l hc, hs], fun _ => ?_⟩
    simp only [stripped, hc]

theorem lines_scan_mem (s : List Char) : ∀ (cur l : List Char), l ∈ lines_scan cur s →
    ∀ c ∈ l, c ∈ cur ∨ c ∈ s := by
  induction s with
  | nil =>
    intro cur l hl c hc
    simp only [lines_scan, List.mem_singleton] at hl
    subst hl
    exact Or.inl hc
  | cons d s ih =>
    intro cur l hl c hc
    unfold lines_scan at hl
    by_cases hd : d = '\n'
    · rw [if_pos hd] at hl
      rcases List.mem_cons.1 hl with rfl | hl
      · exact Or.inl hc
      · rcases ih [] l hl c hc with h | h
        · simp at h
        · exact Or.inr (List.mem_cons_of_mem _ h)
    · rw [if_neg hd] at hl
      rcases ih (cur ++ [d]) l hl c hc with h | h
      · rcases List.mem_append.1 h with h | h
        · exact Or.inl h
        · rw [List.mem_singleton.1 h]; exact Or.inr (List.mem_cons_self _ _)
      · exact Or.inr (List.mem_cons_of_mem _ h)

theorem read_formula_fails_iff_core (text : List Char)
    (hnul : ∀ c ∈ text, c ≠ Char.ofNat 0)
    (hlen : ∀ l ∈ text_lines text, l.length + 2 ≤ MAX_BUFFER) :
    (read_formula_from_file text).1 = false ↔ text_has_invalid_token text = true := by
  rw [read_formula_eq_lines text hlen, read_lines_fails_iff]
  simp only [text_has_invalid_token, List.any_eq_true]
  have hline : ∀ l ∈ text_lines text, buffer_invalid l = line_has_invalid_token l := by
    intro l hl
    apply buffer_invalid_eq
    apply c_str_of_no_nul
    intro c hc
    rcases lines_scan_mem text [] l hl c hc with h | h
    · simp at h
    · exact hnul c h
  constructor
  · rintro ⟨l, hl, h⟩
    exact ⟨l, hl, by rw [← hline l hl]; exact h⟩
  · rintro ⟨l, hl, h⟩
    exact ⟨l, hl, by rw [hline l hl]; exact h⟩

theorem read_formula_fails_empty (text : List Char)
    (h : (read_formula_from_file text).1 = false) :
    (read_formula_from_file text).2.clauses = [] := by
  unfold read_formula_from_file at h ⊢
  rw [read_lines_fails_empty _ _ h]

/-! ## The clauses of a loaded formula -/

theorem is_tautology_eq_spec (c : PropositionClause) :
    is_tautology c = spec_tautological (clause_literals c) := by
  rw [Bool.eq_iff_iff]
  simp only [is_tautology, clause_contains, spec_tautological, clause_literals,
    List.any_eq_true, List.contains_iff_exists_mem_beq, List.mem_map, Bool.and_eq_true,
    decide_eq_true_eq, beq_iff_eq, Prod.mk.injEq]
  constructor
  · rintro ⟨t, ht, u, hu, h1, h2⟩
    refine ⟨(t.symbol.symbol, t.is_negated), ⟨t, ht, rfl⟩, (u.symbol.symbol, u.is_negated),
      ⟨u, hu, rfl⟩, ?_⟩
    simp only [Prod.mk.injEq]
    exact ⟨h1.symm, h2.symm⟩
  · rintro ⟨x, ⟨t, ht, rfl⟩, y, ⟨u, hu, rfl⟩, h⟩
    simp only [Prod.mk.injEq] at h
    exact ⟨t, ht, u, hu, h.1.symm, h.2.symm⟩

theorem tokens_ne_nil (l : List Char) (hs : significant l = true) :
    tokens (l.rdropWhile isspace) ≠ [] := by
  have hne : l.rdropWhile isspace ≠ [] := by
    simp only [significant, Bool.and_eq_true, decide_eq_true_eq] at hs
    exact hs.1
  have hlast := List.rdropWhile_last_not isspace l hne
  have hmem := List.getLast_mem hne
  have hd : is_delim ((l.rdropWhile isspace).getLast hne) = false := by
    cases hh : is_delim ((l.rdropWhile isspace).getLast hne)
    · rfl
    · exact absurd (is_delim_isspace _ hh) hlast
  obtain ⟨t, ht, _⟩ := strtok_scan_cover _ [] _ (Or.inr ⟨hmem, hd⟩)
  rw [strtok_scan_tokens] at ht
  exact List.ne_nil_of_mem ht

theorem clause_literals_of_buffer (l : List Char)
    (hst : stripped l = l.rdropWhile isspace)
    (hnames : ∀ tok ∈ tokens (l.rdropWhile isspace), (name_part tok).length < MAX_SYMBOL_LEN) :
    clause_literals (clause_of_buffer l) = spec_clause l := by
  simp only [clause_literals, clause_of_buffer, hst, strtok_scan_tokens, spec_clause,
    List.map_map]
  apply List.map_congr_left
  intro tok htok
  have hlen := hnames tok htok
  simp only [Function.comp, term_of_token, strncpy_symbol, spec_literal, Prod.mk.injEq, and_true]
  apply List.take_of_length_le
  simp only [MAX_SYMBOL_LEN] at hlen ⊢
  omega

theorem kept_clauses_spec (ls : List (List Char)) :
    (∀ l ∈ ls, line_has_invalid_token l = false) →
    (∀ l ∈ ls, significant l = true →
      ∀ tok ∈ tokens (l.rdropWhile isspace), (name_part tok).length < MAX_SYMBOL_LEN) →
    (kept_clauses ls).map clause_literals
      = ((ls.filter significant).map spec_clause).filter fun c => !spec_tautological c := by
  induction ls with
  | nil => intro _ _; simp [kept_clauses]
  | cons l ls ih =>
    intro hv hn
    have ih' := ih (fun x hx => hv x (List.mem_cons_of_mem _ hx))
      (fun x hx => hn x (List.mem_cons_of_mem _ hx))
    obtain ⟨_, hsk, hst⟩ := line_facts l (hv l (List.mem_cons_self _ _))
    rw [kept_clauses_cons, List.map_append, ih', hsk]
    cases hs : significant l
    · simp [hs]
    · have hlit := clause_literals_of_buffer l (hst hs) (hn l (List.mem_cons_self _ _) hs)
      have hcount : (clause_of_buffer l).term_count > 0 := by
        have h1 : (clause_of_buffer l).term_count = (spec_clause l).length := by
          rw [← hlit]; simp [clause_literals, PropositionClause.term_count]
        rw [h1]
        simp only [spec_clause, List.length_map]
        exact List.length_pos.2 (tokens_ne_nil l hs)
      simp only [Bool.not_true, Bool.not_false, Bool.true_and, hcount, decide_True,
        is_tautology_eq_spec, hlit, List.filter_cons, hs, if_true, List.map_cons]
      cases spec_tautological (spec_clause l)
      · simp [hlit]
      · simp

theorem read_formula_clauses_core (text : List Char)
    (hlen : ∀ l ∈ text_lines text, l.length + 2 ≤ MAX_BUFFER)
    (hvalid : text_has_invalid_token text = false)
    (hnames : ∀ l ∈ text_lines text, significant l = true →
      ∀ tok ∈ tokens (l.rdropWhile isspace), (name_part tok).length < MAX_SYMBOL_LEN) :
    (read_formula_from_file text).1 = true ∧
      (read_formula_from_file text).2.clauses.map clause_literals = spec_clauses text := by
  have hv : ∀ l ∈ text_lines text, line_has_invalid_token l = false := by
    intro l hl
    cases h : line_has_invalid_token l
    · rfl
    · have : text_has_invalid_token text = true := by
        simp only [text_has_invalid_token, List.any_eq_true]
        exact ⟨l, hl, h⟩
      rw [this] at hvalid; simp at hvalid
  have hbuf : ∀ l ∈ text_lines text, buffer_invalid l = false :=
    fun l hl => (line_facts l (hv l hl)).1
  rw [read_formula_eq_lines text hlen, read_lines_succeeds _ _ hbuf]
  refine ⟨rfl, ?_⟩
  simp only [init_formula, List.nil_append, spec_clauses]
  exact kept_clauses_spec _ hv hnames

theorem resolution_fuel_mono (fuel extra : Nat) (formula : PropositionalFormula) (b : Bool)
    (h : resolution fuel formula = some b) : resolution (fuel + extra) formula = some b :=
  resolution_loop_fuel_mono fuel extra 0 _ b h

theorem clauses_equal_refl (c : PropositionClause) : clauses_equal c c = true :=
  (clauses_equal_iff c c).2 ⟨rfl, fun _ => Iff.rfl⟩

theorem clauses_equal_comm (c1 c2 : PropositionClause) :
    clauses_equal c1 c2 = clauses_equal c2 c1 := by
  rw [Bool.eq_iff_iff, clauses_equal_iff, clauses_equal_iff]
  constructor
  · rintro ⟨h1, h2⟩
    exact ⟨h1.symm, fun t => (h2 t).symm⟩
  · rintro ⟨h1, h2⟩
    exact ⟨h1.symm, fun t => (h2 t).symm⟩

/-! ## The claims -/

/-- C1, as stated, fails: in the formula with the clauses `p` and the empty clause (what unit
propagation leaves of `p`, `!p`) the empty clause is derivable in zero steps, but `resolution`
never reports UNSAT. -/
theorem resolution_unsat_iff_derivable_counterexample :
    ¬ ((∃ fuel, resolution fuel ⟨[⟨[lit "p" false]⟩, ⟨[]⟩], []⟩ = some false) ↔
      ∃ n, DerivableIn [⟨[lit "p" false]⟩, ⟨[]⟩] n ⟨[]⟩) := by
  intro h
  obtain ⟨fuel, hf⟩ := h.2 ⟨0, DerivableIn.given (by simp)⟩
  match fuel, hf with
  | 0, hf => simp [resolution, resolution_loop] at hf
  | 1, hf => revert hf; decide
  | n + 2, hf =>
    have h2 := resolution_fuel_mono 2 n ⟨[⟨[lit "p" false]⟩, ⟨[]⟩], []⟩ true (by decide)
    rw [Nat.add_comm n 2, h2] at hf
    simp at hf

/-- C1, amended: `resolution` reports UNSAT exactly when the empty clause is derivable from
the clauses of the formula by one or more resolution steps whose resolvents are not
tautological; `p`, `!p` gives UNSAT, and so does the loaded file `p r`, `!p r`, `!r`. -/
theorem resolution_unsat_iff_derivable :
    (∀ formula : PropositionalFormula,
      (∃ fuel, resolution fuel formula = some false) ↔
        ∃ n, DerivableIn formula.clauses (n + 1) ⟨[]⟩) ∧
    resolution 1 ⟨[⟨[lit "p" false]⟩, ⟨[lit "p" true]⟩], []⟩ = some false ∧
    resolution 2 (read_formula_from_file "p r\n!p r\n!r\n".toList).2 = some false :=
  ⟨resolution_unsat_iff_core, by decide, by decide⟩

/-- C2: when `resolution` reports UNSAT, no assignment of truth values to the symbol names
satisfies every clause of the formula. -/
theorem resolution_unsat_sound (formula : PropositionalFormula) (fuel : Nat)
    (h : resolution fuel formula = some false) : ¬ Satisfiable formula :=
  resolution_sound fuel formula h

/-- C2 at the formula `p`, `!p`: one level reports UNSAT, and the formula has no model. -/
theorem resolution_unsat_sound_witness :
    resolution 1 ⟨[⟨[lit "p" false]⟩, ⟨[lit "p" true]⟩], []⟩ = some false ∧
      ¬ Satisfiable ⟨[⟨[lit "p" false]⟩, ⟨[lit "p" true]⟩], []⟩ :=
  ⟨by decide, resolution_unsat_sound _ 1 (by decide)⟩

/-- C3: when no clause of the formula is empty and `resolution` ends reporting SAT, some
assignment satisfies every clause of the formula. -/
theorem resolution_sat_complete (formula : PropositionalFormula)
    (hne : ∀ c ∈ formula.clauses, c.term_count > 0) (fuel : Nat)
    (h : resolution fuel formula = some true) : Satisfiable formula := by
  apply resolution_complete fuel formula _ h
  intro c hc hnil
  have := hne c hc
  simp [PropositionClause.term_count, hnil] at this

/-- C3 at the formula with the clauses `p q` and `!p`: the second level adds nothing, SAT is
reported, and the formula has a model. -/
theorem resolution_sat_complete_witness :
    (∀ c ∈ (⟨[⟨[lit "p" false, lit "q" false]⟩, ⟨[lit "p" true]⟩], []⟩ :
        PropositionalFormula).clauses, c.term_count > 0) ∧
      resolution 3 ⟨[⟨[lit "p" false, lit "q" false]⟩, ⟨[lit "p" true]⟩], []⟩ = some true ∧
      Satisfiable ⟨[⟨[lit "p" false, lit "q" false]⟩, ⟨[lit "p" true]⟩], []⟩ :=
  ⟨by decide, by decide, resolution_sat_complete _ (by decide) 3 (by decide)⟩

/-- C4 fails on the file with the lines `p x`, `!p q`, `!q p x`: the file loads as
`growing_formula`, and whatever the number of levels allowed, `resolution` has not returned:
every level adds a clause with one more copy of `x`. -/
theorem resolution_never_returns :
    read_formula_from_file "p x\n!p q\n!q p x\n".toList = (true, growing_formula) ∧
      ∀ fuel, resolution fuel growing_formula = none :=
  ⟨by decide, resolution_growing_none⟩

/-- C5, as stated, fails twice: a comment line of 1023 characters followed by `1x` on the same
line makes the load fail although the only line begins with `#`; and the text `p` followed by
a NUL character loads although its only token is not a valid name. -/
theorem read_formula_fails_iff_counterexample :
    ¬ ((read_formula_from_file (List.replicate 1023 '#' ++ "1x\n".toList)).1 = false ↔
        text_has_invalid_token (List.replicate 1023 '#' ++ "1x\n".toList) = true) ∧
    ¬ ((read_formula_from_file ['p', Char.ofNat 0]).1 = false ↔
        text_has_invalid_token ['p', Char.ofNat 0] = true) := by
  set_option maxRecDepth 1000000 in decide

/-- C5, amended: for a text without NUL characters whose lines have at most 1022 characters,
the load fails exactly when some line that holds a clause has a token whose name part is not
a valid symbol name, and a failed load leaves a formula with no clause. -/
theorem read_formula_fails_iff (text : List Char)
    (hnul : ∀ c ∈ text, c ≠ Char.ofNat 0)
    (hlen : ∀ l ∈ text_lines text, l.length + 2 ≤ MAX_BUFFER) :
    ((read_formula_from_file text).1 = false ↔ text_has_invalid_token text = true) ∧
      ((read_formula_from_file text).1 = false →
        (read_formula_from_file text).2.clauses = []) :=
  ⟨read_formula_fails_iff_core text hnul hlen, read_formula_fails_empty text⟩

/-- C5 at the text `1x y`: the load fails and leaves no clause. -/
theorem read_formula_fails_iff_witness :
    (read_formula_from_file "1x y\n".toList).1 = false ∧
      (read_formula_from_file "1x y\n".toList).2.clauses = [] :=
  have h := read_formula_fails_iff "1x y\n".toList (by decide) (by decide)
  ⟨h.1.2 (by decide), h.2 (h.1.2 (by decide))⟩

/-- C6: no clause of a formula that loads is a tautology, and none is empty. -/
theorem read_formula_no_tautology_no_empty (text : List Char)
    (h : (read_formula_from_file text).1 = true) :
    ∀ c ∈ (read_formula_from_file text).2.clauses,
      is_tautology c = false ∧ c.term_count > 0 :=
  read_formula_clauses_ok text h

/-- C6 at a text with a tautological line, a blank line and a comment: the load succeeds and
keeps only the clause `q r`. -/
theorem read_formula_no_tautology_no_empty_witness :
    (read_formula_from_file "p !p\n\n# c\nq r\n".toList).2.clauses
        = [⟨[lit "q" false, lit "r" false]⟩] ∧
      ∀ c ∈ (read_formula_from_file "p !p\n\n# c\nq r\n".toList).2.clauses,
        is_tautology c = false ∧ c.term_count > 0 :=
  ⟨by decide, read_formula_no_tautology_no_empty _ (by decide)⟩

/-- C7, as stated, fails twice: a name of 64 characters is stored cut to 63 characters; and a
comment line of 1023 characters followed by `x` on the same line yields the clause `x`. -/
theorem read_formula_clauses_counterexample :
    ¬ (text_has_invalid_token (List.replicate 64 'a') = false →
        (read_formula_from_file (List.replicate 64 'a')).1 = true ∧
        (read_formula_from_file (List.replicate 64 'a')).2.clauses.map clause_literals
          = spec_clauses (List.replicate 64 'a')) ∧
    ¬ (text_has_invalid_token (List.replicate 1023 '#' ++ ['x']) = false →
        (read_formula_from_file (List.replicate 1023 '#' ++ ['x'])).1 = true ∧
        (read_formula_from_file (List.replicate 1023 '#' ++ ['x'])).2.clauses.map clause_literals
          = spec_clauses (List.replicate 1023 '#' ++ ['x'])) := by
  set_option maxRecDepth 1000000 in decide

/-- C7, amended: for a text whose lines have at most 1022 characters and whose tokens all have
valid names of at most 63 characters, the load succeeds and the clauses of the formula are, in
line order, the literal lists of the lines that hold a clause and are not tautological, each
token giving in token order its name, character for character, and its polarity. -/
theorem read_formula_clauses (text : List Char)
    (hlen : ∀ l ∈ text_lines text, l.length + 2 ≤ MAX_BUFFER)
    (hvalid : text_has_invalid_token text = false)
    (hnames : ∀ l ∈ text_lines text, significant l = true →
      ∀ tok ∈ tokens (l.rdropWhile isspace), (name_part tok).length < MAX_SYMBOL_LEN) :
    (read_formula_from_file text).1 = true ∧
      (read_formula_from_file text).2.clauses.map clause_literals = spec_clauses text :=
  read_formula_clauses_core text hlen hvalid hnames

/-- C7 at the text with the lines `p !q r`, a comment, a blank line, `q !q` and `r`. -/
theorem read_formula_clauses_witness :
    (read_formula_from_file "p !q r\n# c\n\nq !q\nr\n".toList).2.clauses.map clause_literals
      = [[("p".toList, false), ("q".toList, true), ("r".toList, false)], [("r".toList, false)]] :=
  (read_formula_clauses "p !q r\n# c\n\nq !q\nr\n".toList (by decide) (by decide)
    (by decide)).2.trans (by decide)

/-- C8 fails on the file with the two lines `p` and `p`: the load succeeds and stores the
clause `p` twice, although the two stored clauses are `clauses_equal`. -/
theorem read_formula_keeps_duplicates :
    read_formula_from_file "p\np\n".toList
        = (true, ⟨[⟨[lit "p" false]⟩, ⟨[lit "p" false]⟩], []⟩) ∧
      clauses_equal ⟨[lit "p" false]⟩ ⟨[lit "p" false]⟩ = true ∧
      formula_contains ⟨[⟨[lit "p" false]⟩], []⟩ ⟨[lit "p" false]⟩ = true := by
  decide

/-- C9: `is_valid_symbol_name` accepts exactly the strings that match
`[A-Za-z_][A-Za-z0-9_]*`. -/
theorem is_valid_symbol_name_iff (s : List Char) :
    is_valid_symbol_name s = true ↔ matches_symbol_pattern s :=
  is_valid_symbol_name_iff_pattern s

/-- C10: `clauses_equal` is reflexive and symmetric, duplicate literals and the empty clause
included. -/
theorem clauses_equal_reflexive_symmetric :
    (∀ c : PropositionClause, clauses_equal c c = true) ∧
      ∀ c1 c2 : PropositionClause, clauses_equal c1 c2 = clauses_equal c2 c1 :=
  ⟨clauses_equal_refl, clauses_equal_comm⟩


/-! ## Clause equality and multiplicities -/

theorem clauses_equal_false_iff (c1 c2 : PropositionClause)
    (hset : ∀ t, t ∈ c1.terms ↔ t ∈ c2.terms) :
    clauses_equal c1 c2 = false ↔ c1.term_count ≠ c2.term_count := by
  rw [← Bool.not_eq_true, clauses_equal_iff]
  simp only [PropositionClause.term_count]
  constructor
  · intro h hlen
    exact h ⟨hlen, hset⟩
  · intro h hh
    exact h hh.1

/-! ## Tautologies -/

theorem is_tautology_iff_names (c : PropositionClause) :
    is_tautology c = true ↔
      ∃ n : List Char, (∃ t ∈ c.terms, t.symbol.symbol = n ∧ t.is_negated = false) ∧
        (∃ t ∈ c.terms, t.symbol.symbol = n ∧ t.is_negated = true) := by
  simp only [is_tautology, List.any_eq_true, clause_contains_iff]
  constructor
  · rintro ⟨t, ht, u, hu, h1, h2⟩
    cases hn : t.is_negated
    · rw [hn] at h2
      exact ⟨t.symbol.symbol, ⟨t, ht, rfl, hn⟩, ⟨u, hu, h1, h2⟩⟩
    · rw [hn] at h2
      exact ⟨t.symbol.symbol, ⟨u, hu, h1, h2⟩, ⟨t, ht, rfl, hn⟩⟩
  · rintro ⟨n, ⟨t, ht, h1, h2⟩, ⟨u, hu, h3, h4⟩⟩
    exact ⟨t, ht, u, hu, by rw [h3, h1], by rw [h4, h2]; rfl⟩

theorem is_tautology_singleton (t : PropositionTerm) : is_tautology ⟨[t]⟩ = false := by
  cases h : is_tautology ⟨[t]⟩
  · rfl
  · obtain ⟨u, hu, huc⟩ := (is_tautology_iff _).1 h
    simp only [List.mem_singleton] at hu huc
    subst hu
    exact absurd huc (complement_ne u)

/-! ## The function `resolve` for any name -/

theorem resolve_copy_terms_name (name : List Char) (neg : Bool) (ts : List PropositionTerm)
    (result : PropositionClause) :
    (resolve_copy name neg ts result).terms
      = result.terms ++
          ts.filter (fun t => !(decide (t.symbol.symbol = name) && (t.is_negated == neg))) := by
  induction ts generalizing result with
  | nil => simp [resolve_copy]
  | cons t ts ih =>
    by_cases h : t.symbol.symbol ≠ name ∨ t.is_negated ≠ neg
    · have hf : (!(decide (t.symbol.symbol = name) && (t.is_negated == neg))) = true := by
        rcases h with h | h
        · simp [h]
        · simp [h]
      simp only [resolve_copy, if_pos h, ih, add_term_self, List.filter_cons, hf, if_true,
        List.append_assoc, List.singleton_append]
    · have hf : (!(decide (t.symbol.symbol = name) && (t.is_negated == neg))) = false := by
        push_neg at h
        simp [h.1, h.2]
      simp only [resolve_copy, if_neg h, ih, List.filter_cons, hf, Bool.false_eq_true, if_false]

theorem resolve_spec (c1 c2 : PropositionClause) (name : List Char) (neg : Bool) :
    (resolve c1 c2 name neg).2.terms
        = c1.terms.filter (fun t => !(decide (t.symbol.symbol = name) && (t.is_negated == neg))) ++
          c2.terms.filter
            (fun t => !(decide (t.symbol.symbol = name) && (t.is_negated == !neg))) ∧
      ((resolve c1 c2 name neg).1 = false ↔ Tautological (resolve c1 c2 name neg).2) := by
  have hterms : (resolve_copy name (!neg) c2.terms
      (resolve_copy name neg c1.terms init_clause)).terms
        = c1.terms.filter (fun t => !(decide (t.symbol.symbol = name) && (t.is_negated == neg))) ++
          c2.terms.filter
            (fun t => !(decide (t.symbol.symbol = name) && (t.is_negated == !neg))) := by
    rw [resolve_copy_terms_name, resolve_copy_terms_name]
    simp [init_clause]
  unfold resolve
  simp only
  cases ht : is_tautology (resolve_copy name (!neg) c2.terms
      (resolve_copy name neg c1.terms init_clause))
  · simp only [Bool.false_eq_true, if_false]
    refine ⟨hterms, ?_⟩
    constructor
    · intro h; simp at h
    · intro h
      rw [(is_tautology_iff _).2 h] at ht
      simp at ht
  · simp only [if_true]
    exact ⟨hterms, fun _ => (is_tautology_iff _).1 ht, fun _ => trivial⟩

/-! ## Interning a symbol -/

theorem find_symbol_some (symbols : List PropositionSymbol) (symbol : List Char) :
    ∀ i : Nat, symbol ∈ symbols.map (fun s => s.symbol) →
      ∃ k, find_symbol symbols i symbol = some (i + k) ∧
        (symbols.map fun s => s.symbol)[k]? = some symbol ∧
        ∀ j < k, (symbols.map fun s => s.symbol)[j]? ≠ some symbol := by
  induction symbols with
  | nil => intro i h; simp at h
  | cons s rest ih =>
    intro i h
    by_cases hs : s.symbol = symbol
    · refine ⟨0, by simp [find_symbol, hs], by simp [hs], fun j hj => by omega⟩
    · have hrest : symbol ∈ rest.map (fun s => s.symbol) := by
        simp only [List.map_cons, List.mem_cons] at h
        rcases h with h | h
        · exact absurd h.symm hs
        · exact h
      obtain ⟨k, h1, h2, h3⟩ := ih (i + 1) hrest
      refine ⟨k + 1, ?_, by simpa using h2, ?_⟩
      · simp only [find_symbol, if_neg hs, h1, Option.some.injEq]
        omega
      · intro j hj
        cases j with
        | zero => simpa using hs
        | succ j => simpa using h3 j (by omega)

theorem find_symbol_none (symbols : List PropositionSymbol) (symbol : List Char) :
    ∀ i : Nat, symbol ∉ symbols.map (fun s => s.symbol) →
      find_symbol symbols i symbol = none := by
  induction symbols with
  | nil => intro i _; rfl
  | cons s rest ih =>
    intro i h
    simp only [List.map_cons, List.mem_cons, not_or] at h
    have hs : ¬ s.symbol = symbol := fun hh => h.1 hh.symm
    simp only [find_symbol, if_neg hs]
    exact ih (i + 1) h.2

theorem find_or_add_symbol_found (formula : PropositionalFormula) (symbol : List Char)
    (h : symbol ∈ formula.symbols.map (fun s => s.symbol)) :
    (find_or_add_symbol formula symbol).2 = formula ∧
      (formula.symbols.map fun s => s.symbol)[(find_or_add_symbol formula symbol).1]?
        = some symbol ∧
      ∀ j < (find_or_add_symbol formula symbol).1,
        (formula.symbols.map fun s => s.symbol)[j]? ≠ some symbol := by
  obtain ⟨k, h1, h2, h3⟩ := find_symbol_some formula.symbols symbol 0 h
  simp only [find_or_add_symbol, h1, Nat.zero_add]
  exact ⟨trivial, h2, h3⟩

theorem find_or_add_symbol_new (formula : PropositionalFormula) (symbol : List Char)
    (h : symbol ∉ formula.symbols.map (fun s => s.symbol)) :
    find_or_add_symbol formula symbol
      = (formula.symbol_count,
          { formula with symbols := formula.symbols ++ [strncpy_symbol symbol] }) := by
  simp [find_or_add_symbol, find_symbol_none formula.symbols symbol 0 h]

theorem strncpy_symbol_short (symbol : List Char) (h : symbol.length < MAX_SYMBOL_LEN) :
    (strncpy_symbol symbol).symbol = symbol := by
  simp only [strncpy_symbol]
  apply List.take_of_length_le
  simp only [MAX_SYMBOL_LEN] at h ⊢
  omega

theorem find_or_add_symbol_spec (formula : PropositionalFormula) (symbol : List Char)
    (hlen : symbol.length < MAX_SYMBOL_LEN) :
    (symbol ∈ formula.symbols.map (fun s => s.symbol) →
      (find_or_add_symbol formula symbol).2 = formula ∧
      (formula.symbols.map fun s => s.symbol)[(find_or_add_symbol formula symbol).1]?
        = some symbol ∧
      ∀ j < (find_or_add_symbol formula symbol).1,
        (formula.symbols.map fun s => s.symbol)[j]? ≠ some symbol) ∧
    (symbol ∉ formula.symbols.map (fun s => s.symbol) →
      (find_or_add_symbol formula symbol).1 = formula.symbol_count ∧
      (find_or_add_symbol formula symbol).2.symbols.map (fun s => s.symbol)
        = formula.symbols.map (fun s => s.symbol) ++ [symbol] ∧
      (find_or_add_symbol formula symbol).2.clauses = formula.clauses) ∧
    formula.symbols <+: (find_or_add_symbol formula symbol).2.symbols ∧
    find_or_add_symbol (find_or_add_symbol formula symbol).2 symbol
      = find_or_add_symbol formula symbol := by
  by_cases h : symbol ∈ formula.symbols.map (fun s => s.symbol)
  · have hf := find_or_add_symbol_found formula symbol h
    refine ⟨fun _ => hf, fun hn => absurd h hn, ?_, ?_⟩
    · rw [hf.1]
    · rw [hf.1]
  · have hf := find_or_add_symbol_new formula symbol h
    refine ⟨fun hh => absurd hh h, fun _ => ?_, ?_, ?_⟩
    · rw [hf]
      simp [strncpy_symbol_short symbol hlen]
    · rw [hf]
      exact List.prefix_append _ _
    · rw [hf]
      have hmem : symbol ∈ (formula.symbols ++ [strncpy_symbol symbol]).map
          (fun s => s.symbol) := by
        simp [strncpy_symbol_short symbol hlen]
      obtain ⟨h1, h2, h3⟩ := find_or_add_symbol_found
        { formula with symbols := formula.symbols ++ [strncpy_symbol symbol] } symbol hmem
      have hidx : (find_or_add_symbol
          { formula with symbols := formula.symbols ++ [strncpy_symbol symbol] } symbol).1
            = formula.symbol_count := by
        have hlt : (find_or_add_symbol
            { formula with symbols := formula.symbols ++ [strncpy_symbol symbol] } symbol).1
              < formula.symbols.length + 1 := by
          by_contra hcon
          rw [List.getElem?_eq_none (by simp; omega)] at h2
          simp at h2
        by_contra hne
        have hlt2 : (find_or_add_symbol
            { formula with symbols := formula.symbols ++ [strncpy_symbol symbol] } symbol).1
              < formula.symbols.length := by
          simp only [PropositionalFormula.symbol_count] at hne
          omega
        apply h
        have := h2
        simp only [List.map_append] at this
        rw [List.getElem?_append_left (by simpa using hlt2)] at this
        exact List.getElem?_mem this
      exact Prod.ext hidx h1

/-! ## The symbol table of a loaded formula -/

theorem read_lines_symbols (bufs : List (List Char)) (formula : PropositionalFormula)
    (h : formula.symbols = []) : (read_lines bufs formula).2.symbols = [] := by
  cases hr : (read_lines bufs formula).1
  · rw [read_lines_fails_empty bufs formula hr]
  · rw [read_lines_invariant bufs formula hr]
    exact h

theorem read_formula_symbols (text : List Char) :
    (read_formula_from_file text).2.symbols = [] :=
  read_lines_symbols _ _ rfl

/-! ## The claims on clauses, symbols and `resolve` -/

/-- C11, as stated, fails: the clauses `a a b` and `a b b` have the same set of literals and
`a` occurs twice in the first and once in the second, yet `clauses_equal` is true, because only
the totals `term_count` are compared. -/
theorem clauses_equal_multiplicity_counterexample :
    ¬ ((∀ t, t ∈ (⟨[lit "a" false, lit "a" false, lit "b" false]⟩ : PropositionClause).terms ↔
          t ∈ (⟨[lit "a" false, lit "b" false, lit "b" false]⟩ : PropositionClause).terms) →
        (∃ t, (⟨[lit "a" false, lit "a" false, lit "b" false]⟩ : PropositionClause).terms.count t
          ≠ (⟨[lit "a" false, lit "b" false, lit "b" false]⟩ : PropositionClause).terms.count t) →
        clauses_equal ⟨[lit "a" false, lit "a" false, lit "b" false]⟩
          ⟨[lit "a" false, lit "b" false, lit "b" false]⟩ = false) := by
  intro h
  have h2 := h (by intro t; simp) ⟨lit "a" false, by decide⟩
  revert h2
  decide

/-- C11, amended: for clauses with the same set of literals, `clauses_equal` is false exactly
when the two clauses have different numbers of literals (`term_count`). -/
theorem clauses_equal_same_set (c1 c2 : PropositionClause)
    (hset : ∀ t, t ∈ c1.terms ↔ t ∈ c2.terms) :
    clauses_equal c1 c2 = false ↔ c1.term_count ≠ c2.term_count :=
  clauses_equal_false_iff c1 c2 hset

/-- C11 at the clauses `a a` and `a`: same set, two literals against one, not equal. -/
theorem clauses_equal_same_set_witness :
    clauses_equal ⟨[lit "a" false, lit "a" false]⟩ ⟨[lit "a" false]⟩ = false :=
  (clauses_equal_same_set ⟨[lit "a" false, lit "a" false]⟩ ⟨[lit "a" false]⟩
    (by intro t; simp)).2 (by decide)

/-- C12: `is_tautology` is true exactly when some name occurs in the clause both as a positive
and as a negated literal; it is false for the empty clause and for a clause of one literal. -/
theorem is_tautology_iff_both_polarities :
    (∀ c : PropositionClause, is_tautology c = true ↔
      ∃ n : List Char, (∃ t ∈ c.terms, t.symbol.symbol = n ∧ t.is_negated = false) ∧
        (∃ t ∈ c.terms, t.symbol.symbol = n ∧ t.is_negated = true)) ∧
    is_tautology ⟨[]⟩ = false ∧
    ∀ t : PropositionTerm, is_tautology ⟨[t]⟩ = false :=
  ⟨is_tautology_iff_names, by decide, is_tautology_singleton⟩

/-- C13: for a name of at most 63 characters, `find_or_add_symbol` returns the index of the
first stored entry with that name and leaves the formula unchanged when there is one;
otherwise it returns the previous `symbol_count` and appends the name; the stored entries stay
a prefix of the table, and a second call with the same name returns the same pair. -/
theorem find_or_add_symbol_interns (formula : PropositionalFormula) (symbol : List Char)
    (hlen : symbol.length < MAX_SYMBOL_LEN) :
    (symbol ∈ formula.symbols.map (fun s => s.symbol) →
      (find_or_add_symbol formula symbol).2 = formula ∧
      (formula.symbols.map fun s => s.symbol)[(find_or_add_symbol formula symbol).1]?
        = some symbol ∧
      ∀ j < (find_or_add_symbol formula symbol).1,
        (formula.symbols.map fun s => s.symbol)[j]? ≠ some symbol) ∧
    (symbol ∉ formula.symbols.map (fun s => s.symbol) →
      (find_or_add_symbol formula symbol).1 = formula.symbol_count ∧
      (find_or_add_symbol formula symbol).2.symbols.map (fun s => s.symbol)
        = formula.symbols.map (fun s => s.symbol) ++ [symbol] ∧
      (find_or_add_symbol formula symbol).2.clauses = formula.clauses) ∧
    formula.symbols <+: (find_or_add_symbol formula symbol).2.symbols ∧
    find_or_add_symbol (find_or_add_symbol formula symbol).2 symbol
      = find_or_add_symbol formula symbol :=
  find_or_add_symbol_spec formula symbol hlen

/-- C13 at the table `p`, `q`, `p`: the name `p` has index 0, the new name `r` gets index 3,
and interning `r` again changes nothing. -/
theorem find_or_add_symbol_interns_witness :
    find_or_add_symbol
        ⟨[], [strncpy_symbol ['p'], strncpy_symbol ['q'], strncpy_symbol ['p']]⟩ ['p']
      = (0, ⟨[], [strncpy_symbol ['p'], strncpy_symbol ['q'], strncpy_symbol ['p']]⟩) ∧
    (find_or_add_symbol
        ⟨[], [strncpy_symbol ['p'], strncpy_symbol ['q'], strncpy_symbol ['p']]⟩ ['r']).1 = 3 ∧
    find_or_add_symbol (find_or_add_symbol
        ⟨[], [strncpy_symbol ['p'], strncpy_symbol ['q'], strncpy_symbol ['p']]⟩ ['r']).2 ['r']
      = find_or_add_symbol
        ⟨[], [strncpy_symbol ['p'], strncpy_symbol ['q'], strncpy_symbol ['p']]⟩ ['r'] :=
  ⟨by decide, by decide,
    (find_or_add_symbol_interns
      ⟨[], [strncpy_symbol ['p'], strncpy_symbol ['q'], strncpy_symbol ['p']]⟩ ['r']
      (by decide)).2.2.2⟩

/-- C17: `resolve (c1, c2, name, negated)` leaves in `result` the literals of `c1` other than
`(name, negated)`, in order, followed by the literals of `c2` other than `(name, !negated)`, in
order, and returns false exactly when that clause is tautological. -/
theorem resolve_builds_resolvent (c1 c2 : PropositionClause) (name : List Char) (neg : Bool) :
    (resolve c1 c2 name neg).2.terms
        = c1.terms.filter (fun t => !(decide (t.symbol.symbol = name) && (t.is_negated == neg))) ++
          c2.terms.filter
            (fun t => !(decide (t.symbol.symbol = name) && (t.is_negated == !neg))) ∧
      ((resolve c1 c2 name neg).1 = false ↔ Tautological (resolve c1 c2 name neg).2) :=
  resolve_spec c1 c2 name neg

/-- C19, as stated, fails: the file with the line `p` loads, its formula has the clause `p`,
and its symbol table is empty. -/
theorem read_formula_symbol_table_counterexample :
    ¬ ((read_formula_from_file "p\n".toList).1 = true →
        (read_formula_from_file "p\n".toList).2.symbols.map (fun s => s.symbol)
          = symbol_names (read_formula_from_file "p\n".toList).2.clauses) := by
  decide

/-- C19, amended: the symbol table of the formula that `read_formula_from_file` leaves is
empty, `symbol_count` is zero, whatever the text. -/
theorem read_formula_symbol_table :
    ∀ text : List Char, (read_formula_from_file text).2.symbols = [] ∧
      (read_formula_from_file text).2.symbol_count = 0 := by
  intro text
  simp [PropositionalFormula.symbol_count, read_formula_symbols text]


/-! ## A saturated working set is left unchanged -/

theorem resolution_terms_stable (ci cj : PropositionClause) (work : List PropositionClause)
    (ks : List PropositionTerm)
    (h : ∀ t ∈ ks, t.complement ∈ cj.terms →
      (resolvent ci cj t).terms ≠ [] ∧
        (Tautological (resolvent ci cj t) ∨
          ∃ c ∈ work, clauses_equal c (resolvent ci cj t) = true)) :
    resolution_terms ci cj ks work = (work, false) := by
  induction ks with
  | nil => rfl
  | cons t ks ih =>
    have ih' := ih fun u hu => h u (List.mem_cons_of_mem _ hu)
    unfold resolution_terms
    by_cases hc : t.complement ∈ cj.terms
    · rw [if_pos ((clause_contains_mem cj t.symbol (!t.is_negated)).2 hc), resolve_eq]
      obtain ⟨hne, hor⟩ := h t (List.mem_cons_self _ _) hc
      cases ht : is_tautology (resolvent ci cj t)
      · have hnt : ¬ Tautological (resolvent ci cj t) := fun hh => by
          rw [(is_tautology_iff _).2 hh] at ht; simp at ht
        have he : is_empty_clause (resolvent ci cj t) = false := by
          simp [is_empty_clause, PropositionClause.term_count, hne]
        have hany : (work.any fun c => clauses_equal c (resolvent ci cj t)) = true := by
          rcases hor with hor | ⟨c, hc, hceq⟩
          · exact absurd hor hnt
          · exact List.any_eq_true.2 ⟨c, hc, hceq⟩
        simp only [Bool.not_false, he, Bool.false_eq_true, if_false, hany, if_true]
        exact ih'
      · simp only [Bool.not_true]
        exact ih'
    · have hcf : ¬ clause_contains cj t.symbol.symbol (!t.is_negated) = true :=
        fun hh => hc ((clause_contains_mem cj t.symbol (!t.is_negated)).1 hh)
      rw [if_neg hcf]
      exact ih'

theorem getD_eq_of_getElem? {work : List PropositionClause} {i : Nat}
    (hi : i < work.length) : work[i]? = some (work.getD i init_clause) := by
  rw [List.getD_eq_getElem _ _ hi, List.getElem?_eq_getElem hi]

theorem resolution_inner_stable (work : List PropositionClause) (hs : Saturated work)
    (i : Nat) (js : List Nat) (hjs : ∀ j ∈ js, i < j ∧ j < work.length) :
    resolution_inner i js work = (work, false) := by
  induction js with
  | nil => rfl
  | cons j js ih =>
    obtain ⟨hij, hj⟩ := hjs j (List.mem_cons_self _ _)
    unfold resolution_inner
    rw [resolution_terms_stable _ _ work _
      (hs i j _ _ hij (getD_eq_of_getElem? (by omega)) (getD_eq_of_getElem? hj))]
    exact ih fun k hk => hjs k (List.mem_cons_of_mem _ hk)

theorem resolution_outer_stable (work : List PropositionClause) (hs : Saturated work)
    (is : List Nat) : resolution_outer work.length is work = (work, false) := by
  induction is with
  | nil => rfl
  | cons i is ih =>
    unfold resolution_outer
    rw [resolution_inner_stable work hs i _ (by
      intro j hj
      rw [List.mem_range'_1] at hj
      omega)]
    exact ih

theorem resolution_level_stable (work : List PropositionClause) (hs : Saturated work) :
    resolution_level work = (work, false) :=
  resolution_outer_stable work hs _

theorem resolution_saturated (formula : PropositionalFormula)
    (hs : Saturated formula.clauses) :
    resolution_level formula.clauses = (formula.clauses, false) ∧
      resolution 2 formula = some true := by
  have hl := resolution_level_stable formula.clauses hs
  refine ⟨hl, ?_⟩
  unfold resolution
  rw [map_copy_clause]
  unfold resolution_loop
  by_cases h0 : 0 < formula.clauses.length
  · rw [if_pos h0, hl]
    simp [resolution_loop]
  · rw [if_neg h0]

/-! ## The invariant of the working set -/

theorem workInvariant_start (formula : PropositionalFormula)
    (hnt : ∀ c ∈ formula.clauses, is_tautology c = false) :
    WorkInvariant formula (formula.clauses.map copy_clause) := by
  rw [map_copy_clause]
  refine ⟨List.prefix_refl _, fun c hc hh => ?_, by simp⟩
  have := hnt c hc
  rw [(is_tautology_iff c).2 hh] at this
  simp at this

theorem workInvariant_append (formula : PropositionalFormula)
    (work added : List PropositionClause) (h : WorkInvariant formula work)
    (hadd : ∀ r ∈ added, r.terms ≠ [] ∧ ¬ Tautological r) :
    WorkInvariant formula (work ++ added) := by
  obtain ⟨h1, h2, h3⟩ := h
  refine ⟨h1.trans (List.prefix_append _ _), ?_, ?_⟩
  · intro c hc
    rcases List.mem_append.1 hc with hc | hc
    · exact h2 c hc
    · exact (hadd c hc).2
  · intro c hc
    have hlen : formula.clauses.length ≤ work.length := h1.length_le
    rw [List.drop_append_of_le_length hlen] at hc
    rcases List.mem_append.1 hc with hc | hc
    · exact h3 c hc
    · exact (hadd c hc).1

theorem workInvariant_terms (formula : PropositionalFormula) (ci cj : PropositionClause)
    (ks : List PropositionTerm) :
    ∀ work, WorkInvariant formula work →
      WorkInvariant formula (resolution_terms ci cj ks work).1 := by
  induction ks with
  | nil => intro work h; exact h
  | cons t ks ih =>
    intro work h
    unfold resolution_terms
    split
    · rw [resolve_eq]
      cases ht : is_tautology (resolvent ci cj t)
      · simp only [Bool.not_false]
        split
        · exact h
        · split
          · exact ih work h
          · apply ih
            apply workInvariant_append formula work _ h
            intro r hr
            rw [List.mem_singleton.1 hr]
            refine ⟨?_, fun hh => ?_⟩
            · intro hnil
              have : is_empty_clause (resolvent ci cj t) = true := by
                simp [is_empty_clause, PropositionClause.term_count, hnil]
              contradiction
            · rw [(is_tautology_iff _).2 hh] at ht
              simp at ht
      · simp only [Bool.not_true]
        exact ih work h
    · exact ih work h

theorem workInvariant_level (formula : PropositionalFormula) (work : List PropositionClause)
    (h : WorkInvariant formula work) :
    WorkInvariant formula (resolution_level work).1 := by
  cases hl : resolution_level work with
  | mk w1 fe =>
    obtain ⟨⟨added, hadd, hnew⟩, _, _⟩ := resolution_level_spec work w1 fe hl
    simp only
    rw [hadd]
    apply workInvariant_append formula work added h
    intro r hr
    obtain ⟨hne, ci, _, cj, _, t, _, _, hnt, rfl⟩ := hnew r hr
    exact ⟨hne, hnt⟩

/-! ## The claims on the working set -/

/-- C16: on a formula that is already saturated, one level of `resolution` leaves the working
set equal to the clauses of the formula, without finding the empty clause, and `resolution`
reports SAT when the loop condition is tested for the second time. -/
theorem resolution_idempotent_on_saturated (formula : PropositionalFormula)
    (hs : Saturated formula.clauses) :
    resolution_level formula.clauses = (formula.clauses, false) ∧
      resolution 2 formula = some true :=
  resolution_saturated formula hs

/-- C16 at the formula with the single clause `p`: there is no pair of clauses, the level adds
nothing and the verdict is SAT. -/
theorem resolution_idempotent_on_saturated_witness :
    resolution_level [(⟨[lit "p" false]⟩ : PropositionClause)] = ([⟨[lit "p" false]⟩], false) ∧
      resolution 2 ⟨[⟨[lit "p" false]⟩], []⟩ = some true :=
  resolution_idempotent_on_saturated ⟨[⟨[lit "p" false]⟩], []⟩ (by
    intro i j ci cj hij hi hj
    cases j with
    | zero => omega
    | succ j => simp at hj)

/-- C18: when the formula has no tautological clause, the working set starts with the
invariant (the clauses of the formula are a prefix, no clause is tautological, no clause after
those of the formula is empty), every run of the loop over `k`, from any term on and for any
pair of clauses, keeps it, and so does every level. -/
theorem resolution_working_set_invariant (formula : PropositionalFormula)
    (hnt : ∀ c ∈ formula.clauses, is_tautology c = false) :
    WorkInvariant formula (formula.clauses.map copy_clause) ∧
      (∀ (work : List PropositionClause) (ci cj : PropositionClause)
          (ks : List PropositionTerm), WorkInvariant formula work →
        WorkInvariant formula (resolution_terms ci cj ks work).1) ∧
      (∀ work : List PropositionClause, WorkInvariant formula work →
        WorkInvariant formula (resolution_level work).1) :=
  ⟨workInvariant_start formula hnt,
    fun work ci cj ks h => workInvariant_terms formula ci cj ks work h,
    fun work h => workInvariant_level formula work h⟩

/-- C18 at the formula `p q`, `!p`: after the first level the working set is `p q`, `!p`,
`q`, and it has the invariant. -/
theorem resolution_working_set_invariant_witness :
    (resolution_level ((⟨[⟨[lit "p" false, lit "q" false]⟩, ⟨[lit "p" true]⟩], []⟩ :
        PropositionalFormula).clauses.map copy_clause)).1
      = [⟨[lit "p" false, lit "q" false]⟩, ⟨[lit "p" true]⟩, ⟨[lit "q" false]⟩] ∧
    WorkInvariant ⟨[⟨[lit "p" false, lit "q" false]⟩, ⟨[lit "p" true]⟩], []⟩
      (resolution_level ((⟨[⟨[lit "p" false, lit "q" false]⟩, ⟨[lit "p" true]⟩], []⟩ :
        PropositionalFormula).clauses.map copy_clause)).1 :=
  ⟨by decide,
    (resolution_working_set_invariant
      ⟨[⟨[lit "p" false, lit "q" false]⟩, ⟨[lit "p" true]⟩], []⟩ (by decide)).2.2 _
    (resolution_working_set_invariant
      ⟨[⟨[lit "p" false, lit "q" false]⟩, ⟨[lit "p" true]⟩], []⟩ (by decide)).1⟩


/-! ## Removal by swap with the last element -/

theorem swap_remove_concat {α : Type} (init : List α) (last : α) (k : Nat) :
    swap_remove (init ++ [last]) k = if k < init.length then init.set k last else init := by
  have hlast : (init ++ [last]).getLast? = some last := by simp
  unfold swap_remove
  rw [hlast]
  simp only
  by_cases hk : k < init.length
  · rw [if_pos hk, List.set_append_left _ _ hk]
    simp
  · rw [if_neg hk, List.set_append_right _ _ (by omega)]
    cases h : k - init.length with
    | zero => simp
    | succ m => simp

theorem swap_remove_length {α : Type} (l : List α) (k : Nat) (hk : k < l.length) :
    (swap_remove l k).length + 1 = l.length := by
  induction l using List.reverseRecOn with
  | nil => simp at hk
  | append_singleton init last _ =>
    rw [swap_remove_concat]
    split <;> simp

theorem perm_cons_set {α : Type} (y : α) (l : List α) :
    ∀ (k : Nat) (x : α), l[k]? = some x → List.Perm (x :: l.set k y) (y :: l) := by
  induction l with
  | nil => intro k x h; simp at h
  | cons a rest ih =>
    intro k x h
    cases k with
    | zero =>
      simp only [List.getElem?_cons_zero, Option.some.injEq] at h
      subst h
      simp only [List.set_cons_zero]
      exact List.Perm.swap _ _ _
    | succ k =>
      simp only [List.getElem?_cons_succ] at h
      simp only [List.set_cons_succ]
      exact (List.Perm.swap _ _ _).trans (((ih k x h).cons a).trans (List.Perm.swap _ _ _))

theorem swap_remove_perm {α : Type} (l : List α) (k : Nat) (x : α) (h : l[k]? = some x) :
    List.Perm (x :: swap_remove l k) l := by
  induction l using List.reverseRecOn with
  | nil => simp at h
  | append_singleton init last _ =>
    rw [swap_remove_concat]
    by_cases hk : k < init.length
    · rw [if_pos hk]
      rw [List.getElem?_append_left hk] at h
      exact (perm_cons_set last init k x h).trans (List.perm_append_singleton _ _).symm
    · rw [if_neg hk]
      have hlen : k < (init ++ [last]).length := by
        rcases List.getElem?_eq_some.1 h with ⟨hh, _⟩
        exact hh
      have hk' : k = init.length := by
        simp only [List.length_append, List.length_singleton] at hlen
        omega
      subst hk'
      simp only [List.getElem?_concat_length, Option.some.injEq] at h
      subst h
      exact (List.perm_append_singleton _ _).symm

theorem swap_remove_getElem? {α : Type} (l : List α) (k a : Nat) (hk : k < l.length)
    (ha : a ≠ k) (hal : a + 1 < l.length) : (swap_remove l k)[a]? = l[a]? := by
  induction l using List.reverseRecOn with
  | nil => simp at hk
  | append_singleton init last _ =>
    simp only [List.length_append, List.length_singleton] at hk hal
    rw [swap_remove_concat, List.getElem?_append_left (by omega)]
    by_cases hk' : k < init.length
    · rw [if_pos hk', List.getElem?_set_ne (Ne.symm ha)]
    · rw [if_neg hk']

/-! ## Each change of unit propagation makes the formula smaller -/

theorem formula_size_cons (c : PropositionClause) (cl : List PropositionClause) :
    formula_size (c :: cl) = formula_size cl + 1 + c.terms.length := by
  simp only [formula_size, List.length_cons, List.map_cons, List.sum_cons]
  omega

theorem formula_size_perm {cl cl' : List PropositionClause} (h : List.Perm cl cl') :
    formula_size cl = formula_size cl' := by
  simp only [formula_size]
  rw [h.length_eq, (h.map _).sum_eq]

theorem formula_size_swap_remove (cl : List PropositionClause) (j : Nat)
    (c : PropositionClause) (h : cl[j]? = some c) :
    formula_size (swap_remove cl j) + 1 + c.terms.length = formula_size cl := by
  rw [← formula_size_perm (swap_remove_perm cl j c h), formula_size_cons]

theorem formula_size_set (cl : List PropositionClause) :
    ∀ (j : Nat) (c c' : PropositionClause), cl[j]? = some c →
      formula_size (cl.set j c') + c.terms.length = formula_size cl + c'.terms.length := by
  induction cl with
  | nil => intro j c c' h; simp at h
  | cons a rest ih =>
    intro j c c' h
    cases j with
    | zero =>
      simp only [List.getElem?_cons_zero, Option.some.injEq] at h
      subst h
      simp only [List.set_cons_zero, formula_size_cons]
      omega
    | succ j =>
      simp only [List.getElem?_cons_succ] at h
      have := ih j c c' h
      simp only [List.set_cons_succ, formula_size_cons]
      omega

theorem set_self (cl : List PropositionClause) :
    ∀ (j : Nat) (c : PropositionClause), cl[j]? = some c → cl.set j c = cl := by
  induction cl with
  | nil => intro j c h; simp at h
  | cons a rest ih =>
    intro j c h
    cases j with
    | zero =>
      simp only [List.getElem?_cons_zero, Option.some.injEq] at h
      subst h
      rfl
    | succ j =>
      simp only [List.getElem?_cons_succ] at h
      simp only [List.set_cons_succ, ih j c h]

theorem propagate_terms_progress (unit : PropositionTerm) :
    ∀ (n k : Nat) (ts : List PropositionTerm) (ch : Bool),
      propagate_terms unit n k ts ch = (false, ts, ch) ∨
        ((propagate_terms unit n k ts ch).2.2 = true ∧
          ((propagate_terms unit n k ts ch).1 = true ∨
            (propagate_terms unit n k ts ch).2.1.length < ts.length)) := by
  intro n
  induction n with
  | zero => intro k ts ch; left; rfl
  | succ n ih =>
    intro k ts ch
    unfold propagate_terms
    cases hk : ts[k]? with
    | none => left; rfl
    | some t =>
      simp only
      by_cases hname : t.symbol.symbol = unit.symbol.symbol
      · rw [if_pos hname]
        by_cases hpol : t.is_negated = unit.is_negated
        · rw [if_pos hpol]
          right
          exact ⟨rfl, Or.inl rfl⟩
        · rw [if_neg hpol]
          right
          have hlen := swap_remove_length ts k (List.getElem?_eq_some.1 hk).1
          rcases ih k (swap_remove ts k) true with h | ⟨h1, h2⟩
          · rw [h]
            exact ⟨rfl, Or.inr (by simp only; omega)⟩
          · refine ⟨h1, ?_⟩
            rcases h2 with h2 | h2
            · exact Or.inl h2
            · exact Or.inr (by omega)
      · rw [if_neg hname]
        exact ih (k + 1) ts ch

theorem propagate_clauses_progress (unit : PropositionTerm) (i : Nat) :
    ∀ (n j : Nat) (cl : List PropositionClause) (ch : Bool),
      propagate_clauses unit i n j cl ch = (cl, ch) ∨
        ((propagate_clauses unit i n j cl ch).2 = true ∧
          formula_size (propagate_clauses unit i n j cl ch).1 < formula_size cl) := by
  intro n
  induction n with
  | zero => intro j cl ch; left; rfl
  | succ n ih =>
    intro j cl ch
    unfold propagate_clauses
    cases hj : cl[j]? with
    | none => left; rfl
    | some c =>
      simp only
      by_cases hij : i = j
      · rw [if_pos hij]
        exact ih (j + 1) cl ch
      · rw [if_neg hij]
        have hprog := propagate_terms_progress unit c.terms.length 0 c.terms ch
        cases hr : propagate_terms unit c.terms.length 0 c.terms ch with
        | mk rem rest =>
          cases rest with
          | mk ts' ch' =>
            rw [hr] at hprog
            cases rem with
            | true =>
              simp only
              have hch : ch' = true := by
                rcases hprog with h | ⟨h, _⟩
                · simp at h
                · exact h
              subst hch
              have hsz := formula_size_swap_remove cl j c hj
              right
              rcases ih j (swap_remove cl j) true with h | ⟨h1, h2⟩
              · rw [h]
                exact ⟨rfl, by simp only; omega⟩
              · exact ⟨h1, by omega⟩
            | false =>
              simp only
              rcases hprog with h | ⟨h1, h2⟩
              · simp only [Prod.mk.injEq, true_and] at h
                obtain ⟨rfl, rfl⟩ := h
                have hset : cl.set j ⟨c.terms⟩ = cl := set_self cl j c hj
                rw [hset]
                exact ih (j + 1) cl ch'
              · simp only at h1 h2
                subst h1
                have hlt : ts'.length < c.terms.length := by
                  rcases h2 with h2 | h2
                  · simp at h2
                  · exact h2
                have hsz := formula_size_set cl j c ⟨ts'⟩ hj
                simp only at hsz
                right
                rcases ih (j + 1) (cl.set j ⟨ts'⟩) true with h | ⟨h3, h4⟩
                · rw [h]
                  exact ⟨rfl, by simp only; omega⟩
                · exact ⟨h3, by omega⟩

theorem propagate_units_progress :
    ∀ (n i : Nat) (cl : List PropositionClause) (ch : Bool),
      propagate_units n i cl ch = (cl, ch) ∨
        ((propagate_units n i cl ch).2 = true ∧
          formula_size (propagate_units n i cl ch).1 < formula_size cl) := by
  intro n
  induction n with
  | zero => intro i cl ch; left; rfl
  | succ n ih =>
    intro i cl ch
    unfold propagate_units
    cases hi : cl[i]? with
    | none => left; rfl
    | some c =>
      simp only
      split
      · rename_i unit _
        rcases propagate_clauses_progress unit i cl.length 0 cl ch with h | ⟨h1, h2⟩
        · rw [h]
          exact ih (i + 1) cl ch
        · cases hr : propagate_clauses unit i cl.length 0 cl ch with
          | mk cl' ch' =>
            rw [hr] at h1 h2
            simp only at h1 h2 ⊢
            subst h1
            right
            rcases ih (i + 1) cl' true with h | ⟨h3, h4⟩
            · rw [h]
              exact ⟨rfl, h2⟩
            · exact ⟨h3, by omega⟩
      · exact ih (i + 1) cl ch

theorem unit_propagation_pass_progress (cl : List PropositionClause) :
    unit_propagation_pass cl = (cl, false) ∨
      ((unit_propagation_pass cl).2 = true ∧
        formula_size (unit_propagation_pass cl).1 < formula_size cl) :=
  propagate_units_progress cl.length 0 cl false

theorem unit_propagation_loop_terminates :
    ∀ (fuel : Nat) (cl : List PropositionClause), formula_size cl < fuel →
      ∃ cl', unit_propagation_loop fuel cl = some cl' := by
  intro fuel
  induction fuel with
  | zero => intro cl h; omega
  | succ fuel ih =>
    intro cl h
    unfold unit_propagation_loop
    rcases unit_propagation_pass_progress cl with hp | ⟨h1, h2⟩
    · rw [hp]
      exact ⟨cl, rfl⟩
    · cases hr : unit_propagation_pass cl with
      | mk cl' ch' =>
        rw [hr] at h1 h2
        simp only at h1 h2 ⊢
        subst h1
        exact ih cl' (by omega)

/-! ## The inner loops of unit propagation end by themselves -/

theorem propagate_terms_fuel (unit : PropositionTerm) :
    ∀ (n extra k : Nat) (ts : List PropositionTerm) (ch : Bool), ts.length - k ≤ n →
      propagate_terms unit (n + extra) k ts ch = propagate_terms unit n k ts ch := by
  intro n
  induction n with
  | zero =>
    intro extra k ts ch h
    have hk : ts[k]? = none := List.getElem?_eq_none (by omega)
    cases extra with
    | zero => rfl
    | succ e =>
      rw [Nat.zero_add]
      simp only [propagate_terms, hk]
  | succ n ih =>
    intro extra k ts ch h
    rw [Nat.succ_add]
    unfold propagate_terms
    cases hk : ts[k]? with
    | none => rfl
    | some t =>
      simp only
      have hlen := swap_remove_length ts k (List.getElem?_eq_some.1 hk).1
      rw [ih extra k (swap_remove ts k) true (by omega), ih extra (k + 1) ts ch (by omega)]

theorem propagate_clauses_fuel (unit : PropositionTerm) (i : Nat) :
    ∀ (n extra j : Nat) (cl : List PropositionClause) (ch : Bool), cl.length - j ≤ n →
      propagate_clauses unit i (n + extra) j cl ch = propagate_clauses unit i n j cl ch := by
  intro n
  induction n with
  | zero =>
    intro extra j cl ch h
    have hj : cl[j]? = none := List.getElem?_eq_none (by omega)
    cases extra with
    | zero => rfl
    | succ e =>
      rw [Nat.zero_add]
      simp only [propagate_clauses, hj]
  | succ n ih =>
    intro extra j cl ch h
    rw [Nat.succ_add]
    unfold propagate_clauses
    cases hj : cl[j]? with
    | none => rfl
    | some c =>
      simp only
      have hlen := swap_remove_length cl j (List.getElem?_eq_some.1 hj).1
      rw [ih extra (j + 1) cl ch (by omega)]
      split
      · rfl
      · split
        · rw [ih extra j (swap_remove cl j) _ (by omega)]
        · rw [ih extra (j + 1) (cl.set j _) _ (by simp only [List.length_set]; omega)]

theorem propagate_clauses_length (unit : PropositionTerm) (i : Nat) :
    ∀ (n j : Nat) (cl : List PropositionClause) (ch : Bool),
      (propagate_clauses unit i n j cl ch).1.length ≤ cl.length := by
  intro n
  induction n with
  | zero => intro j cl ch; exact le_refl _
  | succ n ih =>
    intro j cl ch
    unfold propagate_clauses
    cases hj : cl[j]? with
    | none => exact le_refl _
    | some c =>
      simp only
      have hlen := swap_remove_length cl j (List.getElem?_eq_some.1 hj).1
      split
      · exact ih _ _ _
      · split
        · exact le_trans (ih _ _ _) (by omega)
        · exact le_trans (ih _ _ _) (by simp)

theorem propagate_units_fuel :
    ∀ (n extra i : Nat) (cl : List PropositionClause) (ch : Bool), cl.length - i ≤ n →
      propagate_units (n + extra) i cl ch = propagate_units n i cl ch := by
  intro n
  induction n with
  | zero =>
    intro extra i cl ch h
    have hi : cl[i]? = none := List.getElem?_eq_none (by omega)
    cases extra with
    | zero => rfl
    | succ e =>
      rw [Nat.zero_add]
      simp only [propagate_units, hi]
  | succ n ih =>
    intro extra i cl ch h
    rw [Nat.succ_add]
    unfold propagate_units
    cases hi : cl[i]? with
    | none => rfl
    | some c =>
      simp only
      split
      · rename_i unit _
        have hlen := propagate_clauses_length unit i cl.length 0 cl ch
        rw [ih extra (i + 1) _ _ (by omega)]
      · rw [ih extra (i + 1) cl ch (by omega)]

/-! ## A pass without change has checked every unit clause against every other clause -/

theorem propagate_terms_changed (unit : PropositionTerm) (n k : Nat)
    (ts : List PropositionTerm) : (propagate_terms unit n k ts true).2.2 = true := by
  rcases propagate_terms_progress unit n k ts true with h | ⟨h, _⟩
  · rw [h]
  · exact h

theorem propagate_clauses_changed (unit : PropositionTerm) (i n j : Nat)
    (cl : List PropositionClause) : (propagate_clauses unit i n j cl true).2 = true := by
  rcases propagate_clauses_progress unit i n j cl true with h | ⟨h, _⟩
  · rw [h]
  · exact h

theorem propagate_units_changed (n i : Nat) (cl : List PropositionClause) :
    (propagate_units n i cl true).2 = true := by
  rcases propagate_units_progress n i cl true with h | ⟨h, _⟩
  · rw [h]
  · exact h

theorem propagate_terms_unchanged (unit : PropositionTerm) :
    ∀ (n k : Nat) (ts : List PropositionTerm) (ch : Bool),
      (propagate_terms unit n k ts ch).2.2 = false → ts.length - k ≤ n →
      propagate_terms unit n k ts ch = (false, ts, false) ∧
        ∀ a, k ≤ a → ∀ t, ts[a]? = some t → t.symbol.symbol ≠ unit.symbol.symbol := by
  intro n
  induction n with
  | zero =>
    intro k ts ch h hn
    simp only [propagate_terms] at h
    subst h
    refine ⟨rfl, fun a ha t hat => ?_⟩
    have := (List.getElem?_eq_some.1 hat).1
    omega
  | succ n ih =>
    intro k ts ch h hn
    unfold propagate_terms at h ⊢
    cases hk : ts[k]? with
    | none =>
      rw [hk] at h
      simp only at h
      subst h
      refine ⟨rfl, fun a ha t hat => ?_⟩
      have h1 := (List.getElem?_eq_some.1 hat).1
      have h2 : ts.length ≤ k := by
        by_contra hcon
        rw [List.getElem?_eq_getElem (by omega)] at hk
        simp at hk
      omega
    | some t =>
      rw [hk] at h
      simp only at h ⊢
      by_cases hname : t.symbol.symbol = unit.symbol.symbol
      · rw [if_pos hname] at h
        by_cases hpol : t.is_negated = unit.is_negated
        · rw [if_pos hpol] at h
          simp at h
        · rw [if_neg hpol, propagate_terms_changed] at h
          simp at h
      · rw [if_neg hname] at h ⊢
        obtain ⟨h1, h2⟩ := ih (k + 1) ts ch h (by omega)
        refine ⟨h1, fun a ha u hau => ?_⟩
        by_cases hak : a = k
        · subst hak
          rw [hk] at hau
          simp only [Option.some.injEq] at hau
          rw [← hau]
          exact hname
        · exact h2 a (by omega) u hau

theorem propagate_clauses_unchanged (unit : PropositionTerm) (i : Nat) :
    ∀ (n j : Nat) (cl : List PropositionClause) (ch : Bool),
      (propagate_clauses unit i n j cl ch).2 = false → cl.length - j ≤ n →
      propagate_clauses unit i n j cl ch = (cl, false) ∧
        ∀ b, j ≤ b → b ≠ i → ∀ c, cl[b]? = some c →
          ∀ t ∈ c.terms, t.symbol.symbol ≠ unit.symbol.symbol := by
  intro n
  induction n with
  | zero =>
    intro j cl ch h hn
    simp only [propagate_clauses] at h
    subst h
    refine ⟨rfl, fun b hb _ c hbc => ?_⟩
    have := (List.getElem?_eq_some.1 hbc).1
    omega
  | succ n ih =>
    intro j cl ch h hn
    unfold propagate_clauses at h ⊢
    cases hj : cl[j]? with
    | none =>
      rw [hj] at h
      simp only at h
      subst h
      refine ⟨rfl, fun b hb _ c hbc => ?_⟩
      have h1 := (List.getElem?_eq_some.1 hbc).1
      have h2 : cl.length ≤ j := by
        by_contra hcon
        rw [List.getElem?_eq_getElem (by omega)] at hj
        simp at hj
      omega
    | some c =>
      rw [hj] at h
      simp only at h ⊢
      by_cases hij : i = j
      · rw [if_pos hij] at h ⊢
        obtain ⟨h1, h2⟩ := ih (j + 1) cl ch h (by omega)
        refine ⟨h1, fun b hb hbi d hbd => ?_⟩
        exact h2 b (by omega) hbi d hbd
      · rw [if_neg hij] at h ⊢
        cases hr : propagate_terms unit c.terms.length 0 c.terms ch with
        | mk rem rest =>
          cases rest with
          | mk ts' ch' =>
            rw [hr] at h
            cases ch' with
            | true =>
              exfalso
              cases rem with
              | true =>
                simp only at h
                rw [propagate_clauses_changed] at h
                simp at h
              | false =>
                simp only at h
                rw [propagate_clauses_changed] at h
                simp at h
            | false =>
              obtain ⟨heq, hclean⟩ := propagate_terms_unchanged unit c.terms.length 0
                c.terms ch (by rw [hr]) (by omega)
              rw [hr] at heq
              simp only [Prod.mk.injEq] at heq
              obtain ⟨hrem, hts, hch⟩ := heq
              subst hrem
              subst hts
              simp only at h ⊢
              have hset : cl.set j ⟨c.terms⟩ = cl := set_self cl j c hj
              rw [hset] at h ⊢
              obtain ⟨h1, h2⟩ := ih (j + 1) cl false h (by omega)
              refine ⟨h1, fun b hb hbi d hbd t ht => ?_⟩
              by_cases hbj : b = j
              · subst hbj
                rw [hj] at hbd
                simp only [Option.some.injEq] at hbd
                subst hbd
                obtain ⟨a, hat⟩ := List.mem_iff_getElem?.1 ht
                exact hclean a (Nat.zero_le _) t hat
              · exact h2 b (by omega) hbi d hbd t ht

theorem propagate_units_unchanged :
    ∀ (n i : Nat) (cl : List PropositionClause) (ch : Bool),
      (propagate_units n i cl ch).2 = false → cl.length - i ≤ n →
      propagate_units n i cl ch = (cl, false) ∧
        ∀ a, i ≤ a → ∀ u, cl[a]? = some ⟨[u]⟩ → ∀ b, b ≠ a → ∀ c, cl[b]? = some c →
          ∀ t ∈ c.terms, t.symbol.symbol ≠ u.symbol.symbol := by
  intro n
  induction n with
  | zero =>
    intro i cl ch h hn
    simp only [propagate_units] at h
    subst h
    refine ⟨rfl, fun a ha u hau => ?_⟩
    have := (List.getElem?_eq_some.1 hau).1
    omega
  | succ n ih =>
    intro i cl ch h hn
    unfold propagate_units at h ⊢
    cases hi : cl[i]? with
    | none =>
      rw [hi] at h
      simp only at h
      subst h
      refine ⟨rfl, fun a ha u hau => ?_⟩
      have h1 := (List.getElem?_eq_some.1 hau).1
      have h2 : cl.length ≤ i := by
        by_contra hcon
        rw [List.getElem?_eq_getElem (by omega)] at hi
        simp at hi
      omega
    | some c =>
      rw [hi] at h
      simp only at h ⊢
      cases hc : c.terms with
      | nil =>
        rw [hc] at h
        simp only at h ⊢
        obtain ⟨h1, h2⟩ := ih (i + 1) cl ch h (by omega)
        refine ⟨h1, fun a ha u hau => ?_⟩
        by_cases hai : a = i
        · subst hai
          rw [hi] at hau
          simp only [Option.some.injEq] at hau
          rw [hau] at hc
          simp at hc
        · exact h2 a (by omega) u hau
      | cons unit rest =>
        cases rest with
        | cons v rest' =>
          rw [hc] at h
          simp only at h ⊢
          obtain ⟨h1, h2⟩ := ih (i + 1) cl ch h (by omega)
          refine ⟨h1, fun a ha u hau => ?_⟩
          by_cases hai : a = i
          · subst hai
            rw [hi] at hau
            simp only [Option.some.injEq] at hau
            rw [hau] at hc
            simp at hc
          · exact h2 a (by omega) u hau
        | nil =>
          rw [hc] at h
          simp only at h ⊢
          cases hr : propagate_clauses unit i cl.length 0 cl ch with
          | mk cl' ch' =>
            rw [hr] at h
            simp only at h ⊢
            cases ch' with
            | true =>
              rw [propagate_units_changed] at h
              simp at h
            | false =>
              obtain ⟨heq, hclean⟩ := propagate_clauses_unchanged unit i cl.length 0 cl ch
                (by rw [hr]) (by omega)
              rw [hr] at heq
              simp only [Prod.mk.injEq] at heq
              obtain ⟨hcl, hch⟩ := heq
              subst hcl
              obtain ⟨h1, h2⟩ := ih (i + 1) cl' false h (by omega)
              refine ⟨h1, fun a ha u hau => ?_⟩
              by_cases hai : a = i
              · subst hai
                rw [hi] at hau
                simp only [Option.some.injEq] at hau
                have hu : unit = u := by
                  rw [hau] at hc
                  simp only [List.cons.injEq, and_true] at hc
                  exact hc.symm
                subst hu
                intro b hb d hbd t ht
                exact hclean b (Nat.zero_le _) hb d hbd t ht
              · exact h2 a (by omega) u hau

theorem unit_propagation_pass_unchanged (cl : List PropositionClause)
    (h : (unit_propagation_pass cl).2 = false) :
    unit_propagation_pass cl = (cl, false) ∧ UnitFixedPoint cl := by
  obtain ⟨h1, h2⟩ := propagate_units_unchanged cl.length 0 cl false h (by omega)
  refine ⟨h1, fun a b u c hau hb hbc t ht => ?_⟩
  exact h2 a (Nat.zero_le _) u hau b hb c hbc t ht

theorem unit_propagation_loop_fixed_point :
    ∀ (fuel : Nat) (cl cl' : List PropositionClause),
      unit_propagation_loop fuel cl = some cl' → UnitFixedPoint cl' := by
  intro fuel
  induction fuel with
  | zero => intro cl cl' h; simp [unit_propagation_loop] at h
  | succ fuel ih =>
    intro cl cl' h
    unfold unit_propagation_loop at h
    cases hr : unit_propagation_pass cl with
    | mk cl1 ch =>
      rw [hr] at h
      cases ch with
      | true => exact ih cl1 cl' h
      | false =>
        simp only [Option.some.injEq] at h
        subst h
        obtain ⟨h1, h2⟩ := unit_propagation_pass_unchanged cl (by rw [hr])
        rw [hr] at h1
        simp only [Prod.mk.injEq, and_true] at h1
        rw [h1]
        exact h2

/-! ## Unit propagation keeps the models that make the unit literal true -/

theorem term_eq_unit {t unit : PropositionTerm}
    (hname : t.symbol.symbol = unit.symbol.symbol) (hpol : t.is_negated = unit.is_negated) :
    t = unit := by
  cases t; cases unit
  simp only at hname hpol
  simp only [PropositionTerm.mk.injEq]
  exact ⟨symbol_ext hname, hpol⟩

theorem term_eq_unit_complement {t unit : PropositionTerm}
    (hname : t.symbol.symbol = unit.symbol.symbol) (hpol : ¬ t.is_negated = unit.is_negated) :
    t = unit.complement := by
  cases t with
  | mk ts tn =>
    cases unit with
    | mk us un =>
      simp only at hname hpol
      simp only [PropositionTerm.complement, PropositionTerm.mk.injEq]
      refine ⟨symbol_ext hname, ?_⟩
      cases tn <;> cases un <;> simp_all

theorem propagate_terms_sem (unit : PropositionTerm) :
    ∀ (n k : Nat) (ts : List PropositionTerm) (ch : Bool), ts.length - k ≤ n →
      (∀ a, a < k → ∀ t, ts[a]? = some t → t.symbol.symbol ≠ unit.symbol.symbol) →
      ((propagate_terms unit n k ts ch).1 = true → unit ∈ ts) ∧
      ((propagate_terms unit n k ts ch).1 = false →
        (∀ t ∈ (propagate_terms unit n k ts ch).2.1,
          t ∈ ts ∧ t.symbol.symbol ≠ unit.symbol.symbol) ∧
        (∀ t ∈ ts, t ∈ (propagate_terms unit n k ts ch).2.1 ∨ t = unit.complement)) := by
  intro n
  have base : ∀ (k : Nat) (ts : List PropositionTerm), ts.length ≤ k →
      (∀ a, a < k → ∀ t, ts[a]? = some t → t.symbol.symbol ≠ unit.symbol.symbol) →
      (∀ t ∈ ts, t ∈ ts ∧ t.symbol.symbol ≠ unit.symbol.symbol) ∧
        (∀ t ∈ ts, t ∈ ts ∨ t = unit.complement) := by
    intro k ts hk hclean
    refine ⟨fun t ht => ⟨ht, ?_⟩, fun t ht => Or.inl ht⟩
    obtain ⟨a, hat⟩ := List.mem_iff_getElem?.1 ht
    have := (List.getElem?_eq_some.1 hat).1
    exact hclean a (by omega) t hat
  induction n with
  | zero =>
    intro k ts ch hn hclean
    simp only [propagate_terms]
    exact ⟨fun h => by simp at h, fun _ => base k ts (by omega) hclean⟩
  | succ n ih =>
    intro k ts ch hn hclean
    unfold propagate_terms
    cases hk : ts[k]? with
    | none =>
      simp only
      have hlen : ts.length ≤ k := by
        by_contra hcon
        rw [List.getElem?_eq_getElem (by omega)] at hk
        simp at hk
      exact ⟨fun h => by simp at h, fun _ => base k ts hlen hclean⟩
    | some t =>
      simp only
      have htmem : t ∈ ts := List.getElem?_mem hk
      by_cases hname : t.symbol.symbol = unit.symbol.symbol
      · rw [if_pos hname]
        by_cases hpol : t.is_negated = unit.is_negated
        · rw [if_pos hpol]
          refine ⟨fun _ => ?_, fun h => by simp at h⟩
          rw [← term_eq_unit hname hpol]
          exact htmem
        · rw [if_neg hpol]
          have htc := term_eq_unit_complement hname hpol
          have hklt := (List.getElem?_eq_some.1 hk).1
          have hlen := swap_remove_length ts k hklt
          have hperm := swap_remove_perm ts k t hk
          have hclean' : ∀ a, a < k → ∀ u, (swap_remove ts k)[a]? = some u →
              u.symbol.symbol ≠ unit.symbol.symbol := by
            intro a ha u hau
            rw [swap_remove_getElem? ts k a hklt (by omega) (by omega)] at hau
            exact hclean a ha u hau
          obtain ⟨h1, h2⟩ := ih k (swap_remove ts k) true (by omega) hclean'
          refine ⟨fun h => ?_, fun h => ?_⟩
          · exact hperm.subset (List.mem_cons_of_mem _ (h1 h))
          · obtain ⟨h3, h4⟩ := h2 h
            refine ⟨fun u hu => ⟨hperm.subset (List.mem_cons_of_mem _ (h3 u hu).1),
              (h3 u hu).2⟩, fun u hu => ?_⟩
            rcases List.mem_cons.1 (hperm.symm.subset hu) with rfl | hu'
            · exact Or.inr htc
            · exact h4 u hu'
      · rw [if_neg hname]
        apply ih (k + 1) ts ch (by omega)
        intro a ha u hau
        by_cases hak : a = k
        · subst hak
          rw [hk] at hau
          simp only [Option.some.injEq] at hau
          rw [← hau]
          exact hname
        · exact hclean a (by omega) u hau

theorem clause_true_of_unit (v : List Char → Bool) (unit : PropositionTerm)
    (hv : term_true v unit = true) (c : PropositionClause) (h : unit ∈ c.terms) :
    clause_true v c = true :=
  (clause_true_iff v c).2 ⟨unit, h, hv⟩

theorem clause_true_propagated (v : List Char → Bool) (unit : PropositionTerm)
    (hv : term_true v unit = true) (ts ts' : List PropositionTerm)
    (h1 : ∀ t ∈ ts', t ∈ ts) (h2 : ∀ t ∈ ts, t ∈ ts' ∨ t = unit.complement) :
    clause_true v ⟨ts'⟩ = true ↔ clause_true v ⟨ts⟩ = true := by
  rw [clause_true_iff, clause_true_iff]
  constructor
  · rintro ⟨t, ht, htt⟩
    exact ⟨t, h1 t ht, htt⟩
  · rintro ⟨t, ht, htt⟩
    rcases h2 t ht with h | h
    · exact ⟨t, h, htt⟩
    · rw [h, term_true_complement, hv] at htt
      simp at htt

theorem models_set (v : List Char → Bool) (cl : List PropositionClause) (j : Nat)
    (c c' : PropositionClause) (hj : cl[j]? = some c)
    (h : clause_true v c' = true ↔ clause_true v c = true) :
    Models v (cl.set j c') ↔ Models v cl := by
  have hjl := (List.getElem?_eq_some.1 hj).1
  constructor
  · intro hm d hd
    obtain ⟨b, hbd⟩ := List.mem_iff_getElem?.1 hd
    by_cases hbj : b = j
    · subst hbj
      rw [hj] at hbd
      simp only [Option.some.injEq] at hbd
      subst hbd
      exact h.1 (hm c' (List.mem_set cl b hjl c'))
    · apply hm d
      apply List.getElem?_mem (n := b)
      rw [List.getElem?_set_ne (Ne.symm hbj)]
      exact hbd
  · intro hm d hd
    rcases List.mem_or_eq_of_mem_set hd with hd | hd
    · exact hm d hd
    · rw [hd]
      exact h.2 (hm c (List.getElem?_mem hj))

theorem models_swap_remove (v : List Char → Bool) (cl : List PropositionClause) (j : Nat)
    (c : PropositionClause) (hj : cl[j]? = some c) (h : clause_true v c = true) :
    Models v (swap_remove cl j) ↔ Models v cl := by
  have hperm := swap_remove_perm cl j c hj
  constructor
  · intro hm d hd
    rcases List.mem_cons.1 (hperm.symm.subset hd) with rfl | hd'
    · exact h
    · exact hm d hd'
  · intro hm d hd
    exact hm d (hperm.subset (List.mem_cons_of_mem _ hd))

theorem propagate_clauses_sem (unit : PropositionTerm) (i : Nat) :
    ∀ (n j : Nat) (cl : List PropositionClause) (ch : Bool), cl.length - j ≤ n →
      (∀ c, cl[i]? = some c → c = ⟨[unit]⟩) →
      (∀ b, b < j → b ≠ i → ∀ c, cl[b]? = some c → Clean unit c) →
      (∀ v, term_true v unit = true →
        (Models v (propagate_clauses unit i n j cl ch).1 ↔ Models v cl)) ∧
      (∀ b, b ≠ i → ∀ c, (propagate_clauses unit i n j cl ch).1[b]? = some c →
        Clean unit c) ∧
      (∀ c, (propagate_clauses unit i n j cl ch).1[i]? = some c → c = ⟨[unit]⟩) := by
  intro n
  have base : ∀ (j : Nat) (cl : List PropositionClause), cl.length ≤ j →
      (∀ c, cl[i]? = some c → c = ⟨[unit]⟩) →
      (∀ b, b < j → b ≠ i → ∀ c, cl[b]? = some c → Clean unit c) →
      (∀ v, term_true v unit = true → (Models v cl ↔ Models v cl)) ∧
      (∀ b, b ≠ i → ∀ c, cl[b]? = some c → Clean unit c) ∧
      (∀ c, cl[i]? = some c → c = ⟨[unit]⟩) := by
    intro j cl hj hU hclean
    refine ⟨fun _ _ => Iff.rfl, fun b hb c hbc => ?_, hU⟩
    have := (List.getElem?_eq_some.1 hbc).1
    exact hclean b (by omega) hb c hbc
  induction n with
  | zero =>
    intro j cl ch hn hU hclean
    have hlen : cl.length ≤ j := by omega
    exact base j cl hlen hU hclean
  | succ n ih =>
    intro j cl ch hn hU hclean
    unfold propagate_clauses
    cases hj : cl[j]? with
    | none =>
      have hlen : cl.length ≤ j := by
        by_contra hcon
        rw [List.getElem?_eq_getElem (by omega)] at hj
        simp at hj
      exact base j cl hlen hU hclean
    | some c =>
      simp only
      have hjl := (List.getElem?_eq_some.1 hj).1
      by_cases hij : i = j
      · rw [if_pos hij]
        apply ih (j + 1) cl ch (by omega) hU
        intro b hb hbi d hbd
        exact hclean b (by omega) hbi d hbd
      · rw [if_neg hij]
        obtain ⟨hs1, hs2⟩ := propagate_terms_sem unit c.terms.length 0 c.terms ch (by omega)
          (fun a ha => by omega)
        cases hr : propagate_terms unit c.terms.length 0 c.terms ch with
        | mk rem rest =>
          cases rest with
          | mk ts' ch' =>
            rw [hr] at hs1 hs2
            simp only at hs1 hs2
            cases rem with
            | true =>
              simp only
              have hunit : unit ∈ c.terms := hs1 rfl
              have hlen := swap_remove_length cl j hjl
              have hU' : ∀ d, (swap_remove cl j)[i]? = some d → d = ⟨[unit]⟩ := by
                intro d hd
                have hil := (List.getElem?_eq_some.1 hd).1
                rw [swap_remove_getElem? cl j i hjl hij (by omega)] at hd
                exact hU d hd
              have hclean' : ∀ b, b < j → b ≠ i → ∀ d, (swap_remove cl j)[b]? = some d →
                  Clean unit d := by
                intro b hb hbi d hd
                rw [swap_remove_getElem? cl j b hjl (by omega) (by omega)] at hd
                exact hclean b hb hbi d hd
              obtain ⟨h1, h2, h3⟩ := ih j (swap_remove cl j) ch' (by omega) hU' hclean'
              refine ⟨fun v hv => ?_, h2, h3⟩
              exact (h1 v hv).trans
                (models_swap_remove v cl j c hj (clause_true_of_unit v unit hv c hunit))
            | false =>
              simp only
              obtain ⟨hs3, hs4⟩ := hs2 rfl
              have hU' : ∀ d, (cl.set j ⟨ts'⟩)[i]? = some d → d = ⟨[unit]⟩ := by
                intro d hd
                rw [List.getElem?_set_ne (Ne.symm hij)] at hd
                exact hU d hd
              have hclean' : ∀ b, b < j + 1 → b ≠ i → ∀ d, (cl.set j ⟨ts'⟩)[b]? = some d →
                  Clean unit d := by
                intro b hb hbi d hd
                by_cases hbj : b = j
                · subst hbj
                  rw [List.getElem?_set_self hjl] at hd
                  simp only [Option.some.injEq] at hd
                  subst hd
                  intro t ht
                  exact (hs3 t ht).2
                · rw [List.getElem?_set_ne (Ne.symm hbj)] at hd
                  exact hclean b (by omega) hbi d hd
              obtain ⟨h1, h2, h3⟩ := ih (j + 1) (cl.set j ⟨ts'⟩) ch'
                (by simp only [List.length_set]; omega) hU' hclean'
              refine ⟨fun v hv => ?_, h2, h3⟩
              exact (h1 v hv).trans (models_set v cl j c ⟨ts'⟩ hj
                (clause_true_propagated v unit hv c.terms ts' (fun t ht => (hs3 t ht).1) hs4))

theorem clause_true_clean (v : List Char → Bool) (unit : PropositionTerm) (b : Bool)
    (c : PropositionClause) (h : Clean unit c) :
    clause_true (Function.update v unit.symbol.symbol b) c = clause_true v c := by
  rw [Bool.eq_iff_iff, clause_true_iff, clause_true_iff]
  constructor
  · rintro ⟨t, ht, htt⟩
    rw [term_true_update v _ b t (h t ht)] at htt
    exact ⟨t, ht, htt⟩
  · rintro ⟨t, ht, htt⟩
    exact ⟨t, ht, by rw [term_true_update v _ b t (h t ht)]; exact htt⟩

theorem propagate_clauses_equisat (unit : PropositionTerm) (i : Nat)
    (cl : List PropositionClause) (ch : Bool) (hi : cl[i]? = some ⟨[unit]⟩) :
    (∃ v, Models v (propagate_clauses unit i cl.length 0 cl ch).1) ↔ ∃ v, Models v cl := by
  obtain ⟨h1, h2, h3⟩ := propagate_clauses_sem unit i cl.length 0 cl ch (by omega)
    (fun c hc => by rw [hi] at hc; simp only [Option.some.injEq] at hc; exact hc.symm)
    (fun b hb => by omega)
  constructor
  · rintro ⟨v, hv⟩
    refine ⟨Function.update v unit.symbol.symbol (!unit.is_negated), ?_⟩
    have htrue : term_true (Function.update v unit.symbol.symbol (!unit.is_negated)) unit
        = true := by
      simp only [term_true, Function.update_same]
      cases unit.is_negated <;> rfl
    apply (h1 _ htrue).1
    intro d hd
    obtain ⟨b, hbd⟩ := List.mem_iff_getElem?.1 hd
    by_cases hbi : b = i
    · subst hbi
      rw [h3 d hbd]
      exact clause_true_of_unit _ unit htrue _ (List.mem_singleton_self _)
    · rw [clause_true_clean v unit _ d (h2 b hbi d hbd)]
      exact hv d hd
  · rintro ⟨v, hv⟩
    have htrue : term_true v unit = true := by
      have := hv ⟨[unit]⟩ (List.getElem?_mem hi)
      rw [clause_true_iff] at this
      obtain ⟨t, ht, htt⟩ := this
      simp only [List.mem_singleton] at ht
      rw [← ht]
      exact htt
    exact ⟨v, (h1 v htrue).2 hv⟩

theorem propagate_units_equisat :
    ∀ (n i : Nat) (cl : List PropositionClause) (ch : Bool),
      (∃ v, Models v (propagate_units n i cl ch).1) ↔ ∃ v, Models v cl := by
  intro n
  induction n with
  | zero => intro i cl ch; exact Iff.rfl
  | succ n ih =>
    intro i cl ch
    unfold propagate_units
    cases hi : cl[i]? with
    | none => exact Iff.rfl
    | some c =>
      simp only
      split
      · rename_i unit hc
        have hi' : cl[i]? = some ⟨[unit]⟩ := by
          rw [hi]
          cases c
          simp only at hc
          rw [hc]
        exact (ih (i + 1) _ _).trans (propagate_clauses_equisat unit i cl ch hi')
      · exact ih (i + 1) cl ch

theorem unit_propagation_loop_equisat :
    ∀ (fuel : Nat) (cl cl' : List PropositionClause),
      unit_propagation_loop fuel cl = some cl' →
      ((∃ v, Models v cl') ↔ ∃ v, Models v cl) := by
  intro fuel
  induction fuel with
  | zero => intro cl cl' h; simp [unit_propagation_loop] at h
  | succ fuel ih =>
    intro cl cl' h
    unfold unit_propagation_loop at h
    have hp := propagate_units_equisat cl.length 0 cl false
    cases hr : unit_propagation_pass cl with
    | mk cl1 ch =>
      rw [hr] at h
      have hp1 : (∃ v, Models v cl1) ↔ ∃ v, Models v cl := by
        have : (unit_propagation_pass cl).1 = cl1 := by rw [hr]
        rw [← this]
        exact hp
      cases ch with
      | true => exact (ih cl1 cl' h).trans hp1
      | false =>
        simp only [Option.some.injEq] at h
        rw [← h]
        exact hp1

theorem satisfiable_iff_models (formula : PropositionalFormula) :
    Satisfiable formula ↔ ∃ v, Models v formula.clauses := by
  simp only [Satisfiable, formula_true, List.all_eq_true, Models]

theorem unit_propagation_equisat (fuel : Nat) (formula formula' : PropositionalFormula)
    (h : unit_propagation fuel formula = some formula') :
    Satisfiable formula' ↔ Satisfiable formula := by
  unfold unit_propagation at h
  cases hl : unit_propagation_loop fuel formula.clauses with
  | none => rw [hl] at h; simp at h
  | some cl' =>
    rw [hl] at h
    simp only [Option.map_some', Option.some.injEq] at h
    rw [satisfiable_iff_models, satisfiable_iff_models, ← h]
    exact unit_propagation_loop_equisat fuel formula.clauses cl' hl

theorem unit_propagation_terminates_core (formula : PropositionalFormula) :
    ∃ formula', unit_propagation (formula_size formula.clauses + 1) formula = some formula' := by
  obtain ⟨cl', h⟩ := unit_propagation_loop_terminates (formula_size formula.clauses + 1)
    formula.clauses (Nat.lt_succ_self _)
  exact ⟨{ formula with clauses := cl' }, by simp [unit_propagation, h]⟩

theorem unit_propagation_fixed_point_core (fuel : Nat) (formula formula' : PropositionalFormula)
    (h : unit_propagation fuel formula = some formula') : UnitFixedPoint formula'.clauses := by
  unfold unit_propagation at h
  cases hl : unit_propagation_loop fuel formula.clauses with
  | none => rw [hl] at h; simp at h
  | some cl' =>
    rw [hl] at h
    simp only [Option.map_some', Option.some.injEq] at h
    rw [← h]
    exact unit_propagation_loop_fixed_point fuel formula.clauses cl' hl

theorem unit_propagation_verdict (formula formula' : PropositionalFormula)
    (hne : ∀ c ∈ formula.clauses, c.terms ≠ []) (fuel : Nat)
    (hup : unit_propagation fuel formula = some formula')
    (hne' : ∀ c ∈ formula'.clauses, c.terms ≠ []) (n m : Nat) (b b' : Bool)
    (h1 : resolution n formula = some b) (h2 : resolution m formula' = some b') : b' = b := by
  have heq := unit_propagation_equisat fuel formula formula' hup
  cases b with
  | true =>
    cases b' with
    | true => rfl
    | false =>
      exact absurd (heq.2 (resolution_complete n formula hne h1))
        (resolution_sound m formula' h2)
  | false =>
    cases b' with
    | false => rfl
    | true =>
      exact absurd (heq.1 (resolution_complete m formula' hne' h2))
        (resolution_sound n formula h1)

/-! ## The claims on unit propagation -/

/-- C14: `unit_propagation` ends on every formula: as many passes as the formula has clauses
and literals, plus one, are enough; a pass that makes a change leaves strictly fewer clauses
plus literals; and each of the three inner loops ends within `count - index` iterations, more
iterations allowed changing nothing.  On `p`, `!p q`, `!q p` two passes end the loop. -/
theorem unit_propagation_terminates :
    (∀ formula : PropositionalFormula,
      ∃ formula', unit_propagation (formula_size formula.clauses + 1) formula = some formula') ∧
    (∀ clauses : List PropositionClause, (unit_propagation_pass clauses).2 = true →
      formula_size (unit_propagation_pass clauses).1 < formula_size clauses) ∧
    (∀ (clauses : List PropositionClause) (extra : Nat),
      propagate_units (clauses.length + extra) 0 clauses false
        = unit_propagation_pass clauses) ∧
    (∀ (unit : PropositionTerm) (i : Nat) (clauses : List PropositionClause) (ch : Bool)
        (extra : Nat),
      propagate_clauses unit i (clauses.length + extra) 0 clauses ch
        = propagate_clauses unit i clauses.length 0 clauses ch) ∧
    (∀ (unit : PropositionTerm) (terms : List PropositionTerm) (ch : Bool) (extra : Nat),
      propagate_terms unit (terms.length + extra) 0 terms ch
        = propagate_terms unit terms.length 0 terms ch) ∧
    unit_propagation 2 ⟨[⟨[lit "p" false]⟩, ⟨[lit "p" true, lit "q" false]⟩,
        ⟨[lit "q" true, lit "p" false]⟩], []⟩
      = some ⟨[⟨[lit "p" false]⟩, ⟨[lit "q" false]⟩], []⟩ := by
  refine ⟨unit_propagation_terminates_core, ?_, ?_, ?_, ?_, by decide⟩
  · intro clauses h
    rcases unit_propagation_pass_progress clauses with hp | ⟨_, h2⟩
    · rw [hp] at h; simp at h
    · exact h2
  · intro clauses extra
    exact propagate_units_fuel clauses.length extra 0 clauses false (by omega)
  · intro unit i clauses ch extra
    exact propagate_clauses_fuel unit i clauses.length extra 0 clauses ch (by omega)
  · intro unit terms ch extra
    exact propagate_terms_fuel unit terms.length extra 0 terms ch (by omega)

/-- C15: `unit_propagation` returns, and in the formula that it leaves no clause at another
position mentions the name of the literal of a clause with exactly one literal.  On `p`,
`!p q`, `!q` it leaves `p`, `q` and the empty clause. -/
theorem unit_propagation_fixed_point :
    (∀ formula : PropositionalFormula,
      ∃ formula', unit_propagation (formula_size formula.clauses + 1) formula = some formula' ∧
        UnitFixedPoint formula'.clauses) ∧
    unit_propagation 3 ⟨[⟨[lit "p" false]⟩, ⟨[lit "p" true, lit "q" false]⟩,
        ⟨[lit "q" true]⟩], []⟩
      = some ⟨[⟨[lit "p" false]⟩, ⟨[lit "q" false]⟩, ⟨[]⟩], []⟩ := by
  refine ⟨fun formula => ?_, by decide⟩
  obtain ⟨formula', h⟩ := unit_propagation_terminates_core formula
  exact ⟨formula', h, unit_propagation_fixed_point_core _ formula formula' h⟩

/-- C20, as stated, fails: the clauses `p`, `!p` are non-empty and not tautological,
`resolution` reports UNSAT on them, `unit_propagation` leaves `p` and the empty clause, and on
these `resolution` reports SAT. -/
theorem unit_propagation_changes_verdict :
    ¬ ((∀ c ∈ (⟨[⟨[lit "p" false]⟩, ⟨[lit "p" true]⟩], []⟩ : PropositionalFormula).clauses,
          c.term_count > 0 ∧ is_tautology c = false) →
        unit_propagation 2 ⟨[⟨[lit "p" false]⟩, ⟨[lit "p" true]⟩], []⟩
          = some ⟨[⟨[lit "p" false]⟩, ⟨[]⟩], []⟩ →
        resolution 1 ⟨[⟨[lit "p" false]⟩, ⟨[lit "p" true]⟩], []⟩ = some false →
        resolution 2 ⟨[⟨[lit "p" false]⟩, ⟨[]⟩], []⟩ ≠ some true) := by
  decide

/-- C20, amended: when every clause of the formula is non-empty and not tautological and
`unit_propagation` leaves a formula without an empty clause, `resolution` returns on the
formula left the verdict that it returns on the formula, whenever it returns on both. -/
theorem unit_propagation_keeps_verdict (formula formula' : PropositionalFormula)
    (hne : ∀ c ∈ formula.clauses, c.term_count > 0)
    (_hnt : ∀ c ∈ formula.clauses, is_tautology c = false) (fuel : Nat)
    (hup : unit_propagation fuel formula = some formula')
    (hne' : ∀ c ∈ formula'.clauses, c.term_count > 0) (n m : Nat) (b : Bool)
    (h1 : resolution n formula = some b) (h2 : (resolution m formula').isSome = true) :
    resolution m formula' = some b := by
  have hnil : ∀ f : PropositionalFormula, (∀ c ∈ f.clauses, c.term_count > 0) →
      ∀ c ∈ f.clauses, c.terms ≠ [] := by
    intro f hf c hc hnil
    have := hf c hc
    simp [PropositionClause.term_count, hnil] at this
  cases hr : resolution m formula' with
  | none => rw [hr] at h2; simp at h2
  | some b' =>
    rw [unit_propagation_verdict formula formula' (hnil formula hne) fuel hup
      (hnil formula' hne') n m b b' h1 hr]

/-- C20 at the formula `p`, `!p q`: unit propagation leaves `p`, `q`, which has no empty
clause, and `resolution` reports SAT on both. -/
theorem unit_propagation_keeps_verdict_witness :
    unit_propagation 2 ⟨[⟨[lit "p" false]⟩, ⟨[lit "p" true, lit "q" false]⟩], []⟩
        = some ⟨[⟨[lit "p" false]⟩, ⟨[lit "q" false]⟩], []⟩ ∧
      resolution 3 ⟨[⟨[lit "p" false]⟩, ⟨[lit "p" true, lit "q" false]⟩], []⟩ = some true ∧
      resolution 2 ⟨[⟨[lit "p" false]⟩, ⟨[lit "q" false]⟩], []⟩ = some true :=
  ⟨by decide, by decide,
    unit_propagation_keeps_verdict
      ⟨[⟨[lit "p" false]⟩, ⟨[lit "p" true, lit "q" false]⟩], []⟩
      ⟨[⟨[lit "p" false]⟩, ⟨[lit "q" false]⟩], []⟩ (by decide) (by decide) 2 (by decide)
      (by decide) 3 2 true (by decide) (by decide)⟩


theorem unit_propagation_loop_unique :
    ∀ (fuel fuel' : Nat) (cl a b : List PropositionClause),
      unit_propagation_loop fuel cl = some a → unit_propagation_loop fuel' cl = some b →
      b = a := by
  intro fuel
  induction fuel with
  | zero => intro fuel' cl a b h; simp [unit_propagation_loop] at h
  | succ fuel ih =>
    intro fuel' cl a b h h'
    cases fuel' with
    | zero => simp [unit_propagation_loop] at h'
    | succ fuel' =>
      rw [unit_propagation_loop] at h h'
      rcases hp : unit_propagation_pass cl with ⟨cl', ch⟩
      rw [hp] at h h'
      cases ch with
      | true => exact ih fuel' cl' a b h h'
      | false =>
        simp only [Option.some.injEq] at h h'
        rw [← h, ← h']

theorem unit_propagation_unique (fuel fuel' : Nat) (formula a b : PropositionalFormula)
    (h : unit_propagation fuel formula = some a) (h' : unit_propagation fuel' formula = some b) :
    b = a := by
  unfold unit_propagation at h h'
  cases hl : unit_propagation_loop fuel formula.clauses with
  | none => rw [hl] at h; simp at h
  | some x =>
    cases hl' : unit_propagation_loop fuel' formula.clauses with
    | none => rw [hl'] at h'; simp at h'
    | some y =>
      rw [hl] at h
      rw [hl'] at h'
      simp only [Option.map_some', Option.some.injEq] at h h'
      rw [← h, ← h', unit_propagation_loop_unique fuel fuel' formula.clauses x y hl hl']

/-- C21: `unit_propagation` returns on every formula, with the same formula left whatever the
number of passes allowed once it is enough, and some assignment satisfies every clause of the
formula exactly when some assignment satisfies every clause of the formula left; no assignment
satisfies an empty clause.  On `p q`, `p` the unit clause is moved to position 0 and deleted
there: nothing is left.  On `p a`, `!p b`, `p` the unit clause is moved and deleted and `b` is
left.  On `p`, `!p` the clauses `p` and the empty clause are left. -/
theorem unit_propagation_preserves_satisfiability :
    (∀ formula : PropositionalFormula,
      ∃ formula', unit_propagation (formula_size formula.clauses + 1) formula = some formula' ∧
        (∀ (fuel : Nat) (formula'' : PropositionalFormula),
          unit_propagation fuel formula = some formula'' → formula'' = formula') ∧
        ((∃ v : List Char → Bool, ∀ c ∈ formula.clauses, clause_true v c = true) ↔
          ∃ v : List Char → Bool, ∀ c ∈ formula'.clauses, clause_true v c = true)) ∧
    (∀ v : List Char → Bool, clause_true v ⟨[]⟩ = false) ∧
    unit_propagation 2 ⟨[⟨[lit "p" false, lit "q" false]⟩, ⟨[lit "p" false]⟩], []⟩
      = some ⟨[], []⟩ ∧
    unit_propagation 2 ⟨[⟨[lit "p" false, lit "a" false]⟩, ⟨[lit "p" true, lit "b" false]⟩,
        ⟨[lit "p" false]⟩], []⟩
      = some ⟨[⟨[lit "b" false]⟩], []⟩ ∧
    unit_propagation 2 ⟨[⟨[lit "p" false]⟩, ⟨[lit "p" true]⟩], []⟩
      = some ⟨[⟨[lit "p" false]⟩, ⟨[]⟩], []⟩ := by
  refine ⟨fun formula => ?_, fun v => rfl, by decide, by decide, by decide⟩
  obtain ⟨formula', h⟩ := unit_propagation_terminates_core formula
  refine ⟨formula', h, fun fuel formula'' h'' => ?_, ?_⟩
  · exact unit_propagation_unique _ fuel formula formula' formula'' h h''
  · have heq := unit_propagation_equisat _ formula formula' h
    rw [satisfiable_iff_models, satisfiable_iff_models] at heq
    exact heq.symm

end LogicSolver
